import Mathlib

/-!
Verification of the treap container in src/zadanie3/treap.h, at the
instantiation T = int, CompareType = std::less<int>, URNG = a deterministic
priority sequence (the spec requires the priority source to be substitutable
with a deterministic sequence, and the node copy constructor only compiles
for T convertible to priority_t = int).

The reachable node graph is modelled as an inductive tree of
(key, priority) pairs; parent pointers always point back along the access
path and are therefore implicit, node addresses are root-to-node paths, and
the sentinel header is a separate address.  The container state carries the
tree together with the header's cached leftmost/rightmost slots (recorded by
the key of the node they point to, which identifies the node whenever keys
are distinct) and the pending outputs of the priority source.
-/

set_option maxHeartbeats 1000000
set_option autoImplicit false

namespace TreapModel

/-- Reachable node graph of a treap: treap_impl::node<int> has a payload
m_data, a priority m_priority, and left/right child links. -/
inductive Tree where
  | nil : Tree
  | node (l : Tree) (key : Int) (prio : Int) (r : Tree) : Tree
deriving DecidableEq, Repr

namespace Tree

/-- Number of nodes of a tree. -/
def size : Tree → Nat
  | nil => 0
  | node l _ _ r => size l + size r + 1

/-- In-order list of (payload, priority) pairs of the reachable nodes. -/
def pinorder : Tree → List (Int × Int)
  | nil => []
  | node l x q r => pinorder l ++ (x, q) :: pinorder r

/-- In-order payload sequence, as produced by iterating the container. -/
def inorder (t : Tree) : List Int := (pinorder t).map Prod.fst

/-- Payload of the root node, if any. -/
def rootKey : Tree → Option Int
  | nil => none
  | node _ x _ _ => some x

/-- Priority of the root node; the nil default is only ever read where the
C++ would dereference a null pointer. -/
def rootPrio : Tree → Int
  | nil => 0
  | node _ _ q _ => q

end Tree

open Tree List

/-- One branch of a child link: dL is m_left, dR is m_right. -/
inductive Dir where
  | dL : Dir
  | dR : Dir
deriving DecidableEq, Repr

/-- Subtree reached from t by following the links in p (a node address). -/
def getSub : Tree → List Dir → Option Tree
  | t, [] => some t
  | Tree.nil, _ :: _ => none
  | Tree.node l _ _ _, Dir.dL :: p => getSub l p
  | Tree.node _ _ _ r, Dir.dR :: p => getSub r p

/-- Replace the subtree at address p (no-op on an invalid address). -/
def setSub : Tree → List Dir → Tree → Tree
  | _, [], s => s
  | Tree.nil, _ :: _, _ => Tree.nil
  | Tree.node l x q r, Dir.dL :: p, s => Tree.node (setSub l p s) x q r
  | Tree.node l x q r, Dir.dR :: p, s => Tree.node l x q (setSub r p s)

/-- Payload stored at address p. -/
def keyAt (t : Tree) (p : List Dir) : Option Int := (getSub t p).bind rootKey

/-- Address of the leftmost node: the descent loop of treap_impl::find_lowest,
which follows m_left while it is non-null. -/
def lowPath : Tree → List Dir
  | Tree.node (Tree.node a b c d) _ _ _ => Dir.dL :: lowPath (Tree.node a b c d)
  | _ => []

/-- Address of the rightmost node (treap_impl::find_highest). -/
def highPath : Tree → List Dir
  | Tree.node _ _ _ (Tree.node a b c d) => Dir.dR :: highPath (Tree.node a b c d)
  | _ => []

/-- Subtree rooted at the leftmost node. -/
def lowSub : Tree → Tree
  | Tree.node (Tree.node a b c d) _ _ _ => lowSub (Tree.node a b c d)
  | t => t

/-- Subtree rooted at the rightmost node. -/
def highSub : Tree → Tree
  | Tree.node _ _ _ (Tree.node a b c d) => highSub (Tree.node a b c d)
  | t => t

/-- Address in the pointer graph: a real node (identified by its path from
the root) or the sentinel header, which is also the end iterator. -/
inductive Addr where
  | hdr : Addr
  | inTree (p : List Dir) : Addr
deriving DecidableEq, Repr

/-- Payload seen through an iterator; none on the header (dereferencing the
end iterator is undefined behaviour in the source). -/
def keyAtAddr (t : Tree) : Addr → Option Int
  | Addr.hdr => none
  | Addr.inTree p => keyAt t p

/-- Ascent loop of treap_impl::prev: while (parent->m_left == ptr) climb;
input is the reversed path of ptr (head = last branch taken).  On a node that
is a left child the loop climbs; on a right child it stops and returns the
parent.  At the root the parent is the header, whose m_left slot caches the
leftmost node: when the root is itself the leftmost node the loop climbs once
more onto the header and then stops at the root. -/
def ascendL (t : Tree) : List Dir → Addr
  | Dir.dL :: rp => ascendL t rp
  | Dir.dR :: rp => Addr.inTree rp.reverse
  | [] => if lowPath t = [] then Addr.inTree [] else Addr.hdr

/-- Function treap_impl::prev on the pointer graph of a treap whose header
slots cache the true extremes.  With a left child the predecessor is the
highest node of that subtree, else ascend while the node is a left child.
Unlike treap_impl::next there is no header check: prev of the header follows
header.m_left (the LEFTMOST node) and yields the highest node of the
leftmost node's subtree, not the rightmost node of the tree. -/
def prevAddr (t : Tree) : Addr → Addr
  | Addr.hdr =>
    match t with
    | Tree.nil => Addr.hdr
    | Tree.node a b c d =>
      Addr.inTree (lowPath (Tree.node a b c d) ++ highPath (lowSub (Tree.node a b c d)))
  | Addr.inTree p =>
    match getSub t p with
    | some (Tree.node (Tree.node a b c d) _ _ _) =>
      Addr.inTree (p ++ Dir.dL :: highPath (Tree.node a b c d))
    | some (Tree.node Tree.nil _ _ _) => ascendL t p.reverse
    | _ => Addr.hdr

/-- Ascent loop of treap_impl::next (while (parent->m_right == ptr)) together
with its header check: climbing past the root in either way yields the
header, i.e. the end iterator. -/
def ascendR : List Dir → Addr
  | Dir.dR :: rp => ascendR rp
  | Dir.dL :: rp => Addr.inTree rp.reverse
  | [] => Addr.hdr

/-- Function treap_impl::next on the pointer graph: leftmost node of the
right subtree if there is one, else ascend while the node is a right child,
reaching the header (end) from the maximum. -/
def nextAddr (t : Tree) : Addr → Addr
  | Addr.hdr =>
    match t with
    | Tree.nil => Addr.hdr
    | Tree.node a b c d =>
      Addr.inTree (highPath (Tree.node a b c d) ++ lowPath (highSub (Tree.node a b c d)))
  | Addr.inTree p =>
    match getSub t p with
    | some (Tree.node _ _ _ (Tree.node a b c d)) =>
      Addr.inTree (p ++ Dir.dR :: lowPath (Tree.node a b c d))
    | some (Tree.node _ _ _ Tree.nil) => ascendR p.reverse
    | _ => Addr.hdr

/-- Container state: the tree owned through header.m_parent, the cached
extreme slots header.m_left / header.m_right (none encodes the empty-state
self link resp. null pointer; otherwise the key of the node pointed to), and
the pending outputs of the priority source m_urng. -/
structure TState where
  tree : Tree
  lm : Option Int
  rm : Option Int
  rng : List Int
deriving DecidableEq, Repr

/-- Predicate treap::empty: the root pointer header.m_parent is null. -/
def emptyB (s : TState) : Bool := s.tree = Tree.nil

/-- Test begin() == end(): header.m_left points back at the header. -/
def beginIsEnd (s : TState) : Bool := s.lm = none

/-- Result discriminator of treap::find_insert_pos (enum insert_pos). -/
inductive InsPos where
  | LEFT : InsPos
  | RIGHT : InsPos
  | DUPLICATE : InsPos
deriving DecidableEq, Repr

/-- Descent loop of treap::find_insert_pos: walk from the root, left when
m_compare(val, data(curr)), right otherwise, until falling off the tree.
Returns the address of the last node visited (prev_) and the last comparison
outcome (cmp).  Only reached on a nonempty tree. -/
def descend (val : Int) : Tree → List Dir × Bool
  | Tree.nil => ([], true)
  | Tree.node l x _ r =>
    if val < x then
      match l with
      | Tree.nil => ([], true)
      | Tree.node a b c d =>
        let pc := descend val (Tree.node a b c d)
        (Dir.dL :: pc.1, pc.2)
    else
      match r with
      | Tree.nil => ([], false)
      | Tree.node a b c d =>
        let pc := descend val (Tree.node a b c d)
        (Dir.dR :: pc.1, pc.2)

/-- Function treap::find_insert_pos: on an empty tree, attach to the left of
the header (empty_pos).  Otherwise descend to prev_, then detect an existing
equivalent element by inspecting a single neighbour: when the last step went
left, prev_ itself is skipped unless it is the leftmost node, and the
in-order predecessor prev(prev_) is inspected instead; the neighbour's key
being not less than val means DUPLICATE — reported at prev_, the attach
leaf, in the cmp branch, not at the neighbour that holds the equal key. -/
def find_insert_pos (s : TState) (val : Int) : Addr × InsPos :=
  match s.tree with
  | Tree.nil => (Addr.hdr, InsPos.LEFT)
  | Tree.node a b c d =>
    let t := Tree.node a b c d
    let pc := descend val t
    if pc.2 then
      if keyAt t pc.1 = s.lm then (Addr.inTree pc.1, InsPos.LEFT)
      else
        if (keyAtAddr t (prevAddr t (Addr.inTree pc.1))).getD 0 < val then
          (Addr.inTree pc.1, InsPos.LEFT)
        else (Addr.inTree pc.1, InsPos.DUPLICATE)
    else
      if (keyAt t pc.1).getD 0 < val then (Addr.inTree pc.1, InsPos.RIGHT)
      else (Addr.inTree pc.1, InsPos.DUPLICATE)

/-- Single node, as allocated by treap::create_node. -/
def single (k pr : Int) : Tree := Tree.node Tree.nil k pr Tree.nil

/-- Net effect of treap::rotate_right (d = dL: the pivot is the left child)
or treap::rotate_left (d = dR) on the subtree rooted at the pivot's parent,
located at address pp; the four link updates plus the grandparent fixup
amount to replacing that subtree by its rotation. -/
def rotLocal : Tree → Dir → Option Tree
  | Tree.node (Tree.node a y py b) x q r, Dir.dL =>
    some (Tree.node a y py (Tree.node b x q r))
  | Tree.node l x q (Tree.node a z pz b), Dir.dR =>
    some (Tree.node (Tree.node l x q a) z pz b)
  | _, _ => none

/-- Rotation applied at an address: replace the subtree at pp by its
rotation (no-op where the C++ precondition that the pivot child exists
fails). -/
def rotAt (t : Tree) (pp : List Dir) (d : Dir) : Tree :=
  match getSub t pp with
  | some u =>
    match rotLocal u d with
    | some v => setSub t pp v
    | none => t
  | none => t

/-- Child of a node in the given direction. -/
def childOf : Tree → Dir → Tree
  | Tree.node l _ _ _, Dir.dL => l
  | Tree.node _ _ _ r, Dir.dR => r
  | Tree.nil, _ => Tree.nil

/-- Bubble-up loop of treap::insert_rebalance:
while (nd != root_ptr() && parent(nd)->m_priority < nd->m_priority) rotate nd
into its parent's place (rotate_right when nd is a left child).  The node nd
is given by its reversed path rp (head = the branch from its parent); after a
rotation nd sits at its former parent's address, so the loop recurses on the
tail.  The Bool records whether the loop was still live when nd reached the
root, used only in proofs. -/
def bubbleUpF : Tree → List Dir → Tree × Bool
  | t, [] => (t, true)
  | t, d :: rp =>
    match getSub t rp.reverse with
    | some (Tree.node l x q r) =>
      if q < rootPrio (childOf (Tree.node l x q r) d) then bubbleUpF (rotAt t rp.reverse d) rp
      else (t, false)
    | _ => (t, false)

/-- Tree produced by the bubble-up loop. -/
def bubbleUp (t : Tree) (rp : List Dir) : Tree := (bubbleUpF t rp).1

/-- Function treap::insert_rebalance: attach the node nd = (k, pr) as the
indicated child of the node at pa (of the header when the tree was empty, in
which case all three header slots are set to nd), update the cached extreme
slot when the parent was the cached extreme, then bubble up. -/
def insert_rebalance (s : TState) (pa : Addr) (leftF : Bool) (k pr : Int) : TState :=
  match pa with
  | Addr.hdr => { s with tree := single k pr, lm := some k, rm := some k }
  | Addr.inTree p =>
    if leftF then
      { s with
        tree := bubbleUp (setSub s.tree (p ++ [Dir.dL]) (single k pr)) (Dir.dL :: p.reverse),
        lm := if keyAt s.tree p = s.lm then some k else s.lm }
    else
      { s with
        tree := bubbleUp (setSub s.tree (p ++ [Dir.dR]) (single k pr)) (Dir.dR :: p.reverse),
        rm := if keyAt s.tree p = s.rm then some k else s.rm }

/-- Output of the priority source m_urng: head of the pending sequence (0
once exhausted) and the remaining state. -/
def urngNext : List Int → Int × List Int
  | [] => (0, [])
  | p :: ps => (p, ps)

/-- Function treap::insert_impl (used by both insert overloads): locate the
position first; on DUPLICATE return the located address and false without
creating a node — the priority source is not consulted.  Otherwise
create_node draws one priority and the node is attached and rebalanced.
The middle component is the payload the returned iterator points at. -/
def insert_impl (s : TState) (k : Int) : TState × Option Int × Bool :=
  let pi := find_insert_pos s k
  match pi.2 with
  | InsPos.DUPLICATE => (s, keyAtAddr s.tree pi.1, false)
  | InsPos.LEFT =>
    let nxt := urngNext s.rng
    (insert_rebalance { s with rng := nxt.2 } pi.1 true k nxt.1, some k, true)
  | InsPos.RIGHT =>
    let nxt := urngNext s.rng
    (insert_rebalance { s with rng := nxt.2 } pi.1 false k nxt.1, some k, true)

/-- Function treap::emplace: create_node runs FIRST (drawing a priority from
m_urng), then the position is located; on DUPLICATE the node is deleted
again, but the priority source has already advanced. -/
def emplace (s : TState) (k : Int) : TState × Option Int × Bool :=
  let nxt := urngNext s.rng
  let s1 : TState := { s with rng := nxt.2 }
  let pi := find_insert_pos s1 k
  match pi.2 with
  | InsPos.DUPLICATE => (s1, keyAtAddr s1.tree pi.1, false)
  | InsPos.LEFT => (insert_rebalance s1 pi.1 true k nxt.1, some k, true)
  | InsPos.RIGHT => (insert_rebalance s1 pi.1 false k nxt.1, some k, true)

/-- Test ptr->m_right == nullptr for the node an iterator points at.  The
header's m_right slot (the rightmost pointer) is null exactly when the
container is empty; an address off the node graph reads junk, modelled as a
non-null slot. -/
def rightChildNull (t : Tree) : Addr → Bool
  | Addr.hdr => decide (t = Tree.nil)
  | Addr.inTree p =>
    match getSub t p with
    | some (Tree.node _ _ _ Tree.nil) => true
    | _ => false

/-- Function treap::find_insert_pos_hint: on an empty container, empty_pos.
With the end iterator as hint, attach right of the rightmost node when the
current maximum compares less than val, else run the full search.  With an
in-tree hint whose payload compares greater than val: if the hint is the
leftmost node attach to its left; otherwise inspect prev(hint): when its
payload compares less than val, attach to its right if that slot is free and
to the hint's left otherwise.  In every remaining case run the full
search. -/
def find_insert_pos_hint (s : TState) (hint : Addr) (val : Int) : Addr × InsPos :=
  match s.tree with
  | Tree.nil => (Addr.hdr, InsPos.LEFT)
  | Tree.node a b c d =>
    let t := Tree.node a b c d
    match hint with
    | Addr.hdr =>
      if (keyAt t (highPath t)).getD 0 < val then
        (Addr.inTree (highPath t), InsPos.RIGHT)
      else find_insert_pos s val
    | Addr.inTree p =>
      if val < (keyAt t p).getD 0 then
        if keyAt t p = s.lm then (Addr.inTree p, InsPos.LEFT)
        else
          let pv := prevAddr t (Addr.inTree p)
          if (keyAtAddr t pv).getD 0 < val then
            if rightChildNull t pv then (pv, InsPos.RIGHT)
            else (Addr.inTree p, InsPos.LEFT)
          else find_insert_pos s val
      else find_insert_pos s val

/-- Function treap::insert_hint_impl (both hinted insert overloads): locate
the position using the hint; on DUPLICATE return the located address without
creating a node, else create_node draws one priority and the node is
attached and rebalanced.  The second component is the payload the returned
iterator points at. -/
def insert_hint_impl (s : TState) (hint : Addr) (k : Int) : TState × Option Int :=
  let pi := find_insert_pos_hint s hint k
  match pi.2 with
  | InsPos.DUPLICATE => (s, keyAtAddr s.tree pi.1)
  | InsPos.LEFT =>
    let nxt := urngNext s.rng
    (insert_rebalance { s with rng := nxt.2 } pi.1 true k nxt.1, some k)
  | InsPos.RIGHT =>
    let nxt := urngNext s.rng
    (insert_rebalance { s with rng := nxt.2 } pi.1 false k nxt.1, some k)

/-- Function treap::emplace_hint: create_node runs FIRST (drawing a
priority), then the position is located with the hint; on DUPLICATE the node
is deleted again, but the priority source has already advanced. -/
def emplace_hint (s : TState) (hint : Addr) (k : Int) : TState × Option Int :=
  let nxt := urngNext s.rng
  let s1 : TState := { s with rng := nxt.2 }
  let pi := find_insert_pos_hint s1 hint k
  match pi.2 with
  | InsPos.DUPLICATE => (s1, keyAtAddr s1.tree pi.1)
  | InsPos.LEFT => (insert_rebalance s1 pi.1 true k nxt.1, some k)
  | InsPos.RIGHT => (insert_rebalance s1 pi.1 false k nxt.1, some k)

/-- Range and initializer_list insert overloads: for each value in order,
find_insert_pos, skip on DUPLICATE, else create_node (drawing one priority)
and insert_rebalance — per element exactly the state effect of
insert_impl. -/
def insert_range (s : TState) : List Int → TState
  | [] => s
  | k :: ks =>
    let pi := find_insert_pos s k
    match pi.2 with
    | InsPos.DUPLICATE => insert_range s ks
    | InsPos.LEFT =>
      let nxt := urngNext s.rng
      insert_range (insert_rebalance { s with rng := nxt.2 } pi.1 true k nxt.1) ks
    | InsPos.RIGHT =>
      let nxt := urngNext s.rng
      insert_range (insert_rebalance { s with rng := nxt.2 } pi.1 false k nxt.1) ks

/-- Function treap::lower_bound_impl: descend keeping the best candidate y
(the last node whose key was not less than elem); none is the end marker. -/
def lbPath : Tree → Int → Option (List Dir)
  | Tree.nil, _ => none
  | Tree.node l x _ r, e =>
    if x < e then (lbPath r e).map (Dir.dR :: ·)
    else
      match lbPath l e with
      | some p => some (Dir.dL :: p)
      | none => some []

/-- Function treap::find_impl: lower_bound, then reject a strictly greater
element; none is the end marker. -/
def find_impl (t : Tree) (e : Int) : Option (List Dir) :=
  match lbPath t e with
  | none => none
  | some p =>
    match keyAt t p with
    | some x => if e < x then none else some p
    | none => none

/-- Rotate-down policy of treap::erase_rebalance acting on the subtree of
the erased node: rotate the node past whichever child has the higher
priority (rotate_right(left child) when left->m_priority > right->m_priority,
else rotate_left(right child)), until it is a leaf, then detach it. -/
def delNode : Tree → Int → Int → Tree → Tree
  | Tree.nil, _, _, Tree.nil => Tree.nil
  | Tree.node a y py b, x, q, Tree.nil => Tree.node a y py (delNode b x q Tree.nil)
  | Tree.nil, x, q, Tree.node c z pz d => Tree.node (delNode Tree.nil x q c) z pz d
  | Tree.node a y py b, x, q, Tree.node c z pz d =>
    if pz < py then Tree.node a y py (delNode b x q (Tree.node c z pz d))
    else Tree.node (delNode (Tree.node a y py b) x q c) z pz d
termination_by l _ _ r => size l + size r
decreasing_by
  all_goals simp [Tree.size]
  all_goals omega

/-- Function treap::erase_rebalance on the node at address p: rotate it
down to a leaf and detach it, resetting the header to the empty state when
it was the last node, else recomputing a cached extreme slot when the
erased node was that extreme.  Erasing through an address that does not
denote a node is undefined behaviour in the source, modelled as a no-op. -/
def eraseAt (s : TState) (p : List Dir) : TState :=
  match getSub s.tree p with
  | some (Tree.node lu x q ru) =>
    let t1 := setSub s.tree p (delNode lu x q ru)
    if t1 = Tree.nil then { s with tree := Tree.nil, lm := none, rm := none }
    else
      { s with
        tree := t1,
        lm := if keyAt s.tree p = s.lm then keyAt t1 (lowPath t1) else s.lm,
        rm := if keyAt s.tree p = s.rm then keyAt t1 (highPath t1) else s.rm }
  | _ => s

/-- Function treap::erase(const value_type&): find the node and
erase(iterator) it.  Returns whether an element was removed. -/
def eraseKey (s : TState) (k : Int) : TState × Bool :=
  match find_impl s.tree k with
  | none => (s, false)
  | some p => (eraseAt s p, true)

/-- First address (in root-left-right order) of a node holding payload k:
the embedding's bridge from pointer identity to tree addresses — a node
pointer held across a mutation is re-identified by its payload, which
denotes a unique node whenever the elements are pairwise distinct. -/
def addrOf : Tree → Int → Option (List Dir)
  | Tree.nil, _ => none
  | Tree.node l x _ r, k =>
    if x = k then some []
    else
      match addrOf l k with
      | some p => some (Dir.dL :: p)
      | none => (addrOf r k).map (Dir.dR :: ·)

/-- Function treap::erase(iterator): the successor pointer is saved first,
then erase_rebalance removes the node, and the saved iterator is returned
(re-located in the new tree by its payload).  Erasing the end iterator is
undefined behaviour, modelled as a no-op. -/
def eraseIter (s : TState) (it : Addr) : TState × Addr :=
  let nxtId := keyAtAddr s.tree (nextAddr s.tree it)
  let s1 := match it with
    | Addr.inTree p => eraseAt s p
    | Addr.hdr => s
  (s1, match nxtId with
       | none => Addr.hdr
       | some k2 =>
         match addrOf s1.tree k2 with
         | some p2 => Addr.inTree p2
         | none => Addr.hdr)

/-- Loop of treap::erase(iterator, iterator): while (first != last), save
the successor, erase_rebalance the node at first, and advance first to the
saved iterator.  Iterator equality is pointer equality, bridged to node
identity (payload, or none for end); the fuel bounds the number of
removals, each live iteration removing one node. -/
def eraseRangeF : Nat → TState → Addr → Option Int → TState
  | 0, s, _, _ => s
  | Nat.succ n, s, first, lastId =>
    if keyAtAddr s.tree first = lastId then s
    else
      let st := eraseIter s first
      eraseRangeF n st.1 st.2 lastId

/-- Function treap::erase(iterator, iterator). -/
def eraseRange (s : TState) (first last : Addr) : TState :=
  eraseRangeF (size s.tree + 1) s first (keyAtAddr s.tree last)

/-- Function treap::clear: erase_no_rebalance on the root, then fix_empty. -/
def clearT (s : TState) : TState := { s with tree := Tree.nil, lm := none, rm := none }

/-- Copy constructor of treap_impl::node: it delegates
node(other.m_data, other.m_priority) to node(priority_t priority,
const T reference data), so for T = int the target constructor receives the payload
as the priority and the priority as the payload: the two fields are
swapped in the copy. -/
def nodeCopy (k pr : Int) : Int × Int := (pr, k)

/-- Function treap::copy: structurally duplicate the tree (right subtrees by
recursion, the left spine by the inner loop), building each new node with
new node(*other), i.e. nodeCopy. -/
def copyT : Tree → Tree
  | Tree.nil => Tree.nil
  | Tree.node l x q r =>
    Tree.node (copyT l) (nodeCopy x q).1 (nodeCopy x q).2 (copyT r)

/-- Copy constructor of treap: copy the tree when nonempty and recompute the
cached extremes with find_lowest/find_highest, else fix_empty; the
comparator, URNG and distribution are copied as well. -/
def copyTreap (s : TState) : TState :=
  match s.tree with
  | Tree.nil => { tree := Tree.nil, lm := none, rm := none, rng := s.rng }
  | Tree.node a b c d =>
    let t := copyT (Tree.node a b c d)
    { tree := t, lm := keyAt t (lowPath t), rm := keyAt t (highPath t), rng := s.rng }

/-- Net effect of swap(treap, treap): the header contents (tree and
cached extremes, with the roots reparented) and the comparator/URNG state
are exchanged. -/
def swapTreap (a b : TState) : TState × TState := (b, a)

/-- Empty container state with the given pending priority outputs, as built
by the default constructor. -/
def mkEmpty (rng : List Int) : TState :=
  { tree := Tree.nil, lm := none, rm := none, rng := rng }

/-- Move constructor of treap: default-construct *this, then
swap(*this, other).  First component: the new container; second: the
moved-from container. -/
def moveConstruct (other : TState) (freshRng : List Int) : TState × TState :=
  swapTreap (mkEmpty freshRng) other

/-- Move assignment of treap: swap(*this, other) and nothing else.  First
component: the assigned-to container; second: the moved-from container. -/
def moveAssign (this_ other : TState) : TState × TState :=
  swapTreap this_ other

/-- Three-argument std::equal as called by operator==: walk the first range
to its end, dereferencing the second range unconditionally; running the
second iterator past end() is undefined behaviour, modelled as none. -/
def stdEqual : List Int → List Int → Option Bool
  | [], _ => some true
  | _ :: _, [] => none
  | a :: as_, b :: bs => if a = b then stdEqual as_ bs else some false

/-- Function operator== on two treaps:
std::equal(a.begin(), a.end(), b.begin()). -/
def treapEq (a b : TState) : Option Bool := stdEqual (inorder a.tree) (inorder b.tree)

/-- Function operator!=: negation of operator==. -/
def treapNe (a b : TState) : Option Bool := (treapEq a b).map not

/-- Predicate allB f t: f holds on every payload in t. -/
def allB (f : Int → Bool) : Tree → Bool
  | Tree.nil => true
  | Tree.node l x _ r => allB f l && f x && allB f r

/-- BST-order invariant: every key in a left subtree is less than the node's
key under the ordering, every key in a right subtree greater. -/
def isBST : Tree → Bool
  | Tree.nil => true
  | Tree.node l x _ r =>
    allB (fun y => decide (y < x)) l && allB (fun y => decide (x < y)) r && isBST l && isBST r

/-- Priority of the root of t is at most b (vacuous for nil). -/
def prioLe (t : Tree) (b : Int) : Bool :=
  match t with
  | Tree.nil => true
  | Tree.node _ _ q _ => decide (q ≤ b)

/-- Max-heap-order invariant: every non-root node's priority is at most its
parent's priority. -/
def isHeap : Tree → Bool
  | Tree.nil => true
  | Tree.node l _ q r => prioLe l q && prioLe r q && isHeap l && isHeap r

/-- Representation invariant of a container state: BST order, heap order,
the cached header slots equal the true minimum/maximum (none exactly when
empty), and no two live nodes compare equal. -/
def Invariant (s : TState) : Prop :=
  isBST s.tree = true ∧ isHeap s.tree = true ∧
  s.lm = (inorder s.tree).head? ∧ s.rm = (inorder s.tree).getLast? ∧
  (inorder s.tree).Nodup

instance : DecidablePred Invariant := fun s => by
  unfold Invariant
  exact inferInstance

/-- Public mutating operations of the container: insert by value, hinted
insert, range/initializer_list insert, emplace, emplace_hint, erase by
value, erase at an iterator, erase of an iterator range, and clear. -/
inductive Op where
  | ins (k : Int) : Op
  | insH (hint : Addr) (k : Int) : Op
  | insR (ks : List Int) : Op
  | emp (k : Int) : Op
  | empH (hint : Addr) (k : Int) : Op
  | ers (k : Int) : Op
  | ersI (it : Addr) : Op
  | ersR (first last : Addr) : Op
  | clr : Op
deriving DecidableEq, Repr

/-- Apply one public mutating operation to the container state. -/
def applyOp (s : TState) : Op → TState
  | Op.ins k => (insert_impl s k).1
  | Op.insH hint k => (insert_hint_impl s hint k).1
  | Op.insR ks => insert_range s ks
  | Op.emp k => (emplace s k).1
  | Op.empH hint k => (emplace_hint s hint k).1
  | Op.ers k => (eraseKey s k).1
  | Op.ersI it => (eraseIter s it).1
  | Op.ersR first last => eraseRange s first last
  | Op.clr => clearT s

/-- Apply a sequence of public mutating operations. -/
def applyOps (s : TState) (ops : List Op) : TState := ops.foldl applyOp s

/-!
Concrete reachable container states used as test vectors: each is built by
running public insertions from an empty container with a fixed deterministic
priority sequence.
-/

/-- State holding {5} where 5 was inserted with priority 10. -/
def stOne : TState := applyOps (mkEmpty [10, 20, 30]) [Op.ins 5]

/-- State holding {1, 2} with the root 1 (priority 20) and 2 a right child
(priority 10). -/
def stTwo : TState := applyOps (mkEmpty [20, 10]) [Op.ins 1, Op.ins 2]

/-- State holding {1, 2, 3} with root 2 (priority 30), left child 1
(priority 10), right child 3 (priority 20). -/
def stThree : TState := applyOps (mkEmpty [30, 10, 20]) [Op.ins 2, Op.ins 1, Op.ins 3]

/-- State holding {1} (priority 5). -/
def stA : TState := applyOps (mkEmpty [5]) [Op.ins 1]

/-- State holding {1, 2} (priorities 5, 3). -/
def stB : TState := applyOps (mkEmpty [5, 3]) [Op.ins 1, Op.ins 2]

/-!
Specification-side predicates and composite definitions used by the
proofs.
-/

/-- Ordering of node pairs by key. -/
def keyLt (a b : Int × Int) : Prop := a.1 < b.1

instance : DecidableRel keyLt := fun a b => by unfold keyLt; infer_instance

/-- Sortedness of a pair list by strictly increasing keys. -/
def sortedP (l : List (Int × Int)) : Prop := l.Pairwise keyLt

/-- Bound on every priority of a tree. -/
def prioBndP (t : Tree) (b : Int) : Prop := ∀ a ∈ pinorder t, a.2 ≤ b

/-- Composite of the attach step and the bubble-up loop along the descent
path, as performed by insert_rebalance on a nonempty tree (also carrying the
liveness flag of the loop). -/
def insTB (k pr : Int) (t : Tree) : Tree × Bool :=
  bubbleUpF
    (setSub t ((descend k t).1 ++ [if (descend k t).2 then Dir.dL else Dir.dR]) (single k pr))
    ((if (descend k t).2 then Dir.dL else Dir.dR) :: (descend k t).1.reverse)

/-- Composite of the attach step and the bubble-up loop along an arbitrary
free slot: the node (k, pr) is written into the nil child slot d of the
node at p and bubbled up along the reversed path, as performed by
insert_rebalance on the positions produced by find_insert_pos_hint. -/
def insTBp (k pr : Int) (t : Tree) (p : List Dir) (d : Dir) : Tree × Bool :=
  bubbleUpF (setSub t (p ++ [d]) (single k pr)) (d :: p.reverse)

/-!
Claim theorems.
-/

/-- C1: evaluation of the code at the failing input.  Copy construction does
NOT give every new node the payload and the priority of the source node: for
the reachable treap holding 5 inserted with priority 10, the copy's single
node holds payload 10 and priority 5 — the node copy constructor delegates
node(other.m_data, other.m_priority) into the (priority, data) constructor,
swapping the two fields — although the tree shape is preserved. -/
theorem c1_copy_swaps_payload_and_priority :
    Invariant stOne ∧ stOne.tree = single 5 10 ∧
    (copyTreap stOne).tree = single 10 5 ∧
    (copyTreap stOne).tree ≠ stOne.tree := by decide

/-- C2: evaluation of the code at the failing input.  After copy
construction of the treap holding the single element 5 (priority 10),
iterating the copy yields [10] while the original yields [5]: the copy
round-trip does not produce identical sequences, because the node copy
constructor swaps payload and priority. -/
theorem c2_copy_roundtrip_differs :
    inorder (copyTreap stOne).tree = [10] ∧ inorder stOne.tree = [5] ∧
    inorder (copyTreap stOne).tree ≠ inorder stOne.tree := by decide

/-- C3: evaluation of the code at the failing input.  operator== is
std::equal(a.begin(), a.end(), b.begin()) with no length check: the treap
{1} and the treap {1, 2} hold different numbers of elements yet compare
equal (and operator!= returns false). -/
theorem c3_prefix_treaps_compare_equal :
    Invariant stA ∧ Invariant stB ∧
    inorder stA.tree = [1] ∧ inorder stB.tree = [1, 2] ∧
    treapEq stA stB = some true ∧ treapNe stA stB = some false := by decide

/-- C4: evaluation of the code at the failing input.  Decrementing the end
iterator does not yield the maximum: on the reachable treap {1, 2, 3} with
root 2, prev of the header follows header.m_left (the leftmost node 1) and
returns the highest node under it, the node holding 1, while the maximum
element is 3.  prev lacks the header check that next has, so it is not the
exact mirror of successor. -/
theorem c4_prev_of_end_is_not_maximum :
    Invariant stThree ∧ inorder stThree.tree = [1, 2, 3] ∧
    keyAtAddr stThree.tree (prevAddr stThree.tree Addr.hdr) = some 1 ∧
    (inorder stThree.tree).getLast? = some 3 := by decide

/-- C5: counterexample.  Move assignment does not leave the moved-from treap
empty: assigning from the treap {2} into the nonempty treap {1} leaves the
moved-from treap holding {1} (move assignment is a bare swap). -/
theorem c5_move_assign_source_not_empty :
    emptyB (moveAssign stA stOne).2 = false ∧
    beginIsEnd (moveAssign stA stOne).2 = false ∧
    inorder (moveAssign stA stOne).2.tree = [1] := by decide

/-- C5 amended: after move construction the moved-from treap is in the valid
empty state (empty() holds and begin() == end()); after move assignment the
moved-from treap holds exactly the assigned-to treap's previous contents, so
it is empty precisely when the target was empty beforehand. -/
theorem c5_move_semantics (this_ other : TState) (fresh : List Int) :
    emptyB (moveConstruct other fresh).2 = true ∧
    beginIsEnd (moveConstruct other fresh).2 = true ∧
    (moveAssign this_ other).2 = this_ ∧
    emptyB (moveAssign this_ other).2 = emptyB this_ := by
  refine ⟨rfl, rfl, rfl, rfl⟩

/-- C7: evaluation of the code at the failing input.  Inserting the already
present key 1 into the reachable treap {1, 2} (root 1, right child 2)
returns inserted = false and leaves the set unchanged, but the returned
iterator points at the node holding 2, not at the existing element equal
to 1: on the cmp branch find_insert_pos reports the attach leaf prev_
instead of the equal neighbour it inspected. -/
theorem c7_duplicate_insert_returns_wrong_element :
    Invariant stTwo ∧ inorder stTwo.tree = [1, 2] ∧
    (insert_impl stTwo 1).2.2 = false ∧
    (insert_impl stTwo 1).1 = stTwo ∧
    (insert_impl stTwo 1).2.1 = some 2 := by decide

/-- C8: with the priority source fixed to [10, 20, 5, 15, 1], inserting
1, 5, 3, 2, 4 into an empty treap yields in-order traversal [1, 2, 3, 4, 5]
and the root holds the key 5, the key inserted with priority 20. -/
theorem c8_deterministic_scenario :
    inorder (applyOps (mkEmpty [10, 20, 5, 15, 1])
      [Op.ins 1, Op.ins 5, Op.ins 3, Op.ins 2, Op.ins 4]).tree = [1, 2, 3, 4, 5] ∧
    rootKey (applyOps (mkEmpty [10, 20, 5, 15, 1])
      [Op.ins 1, Op.ins 5, Op.ins 3, Op.ins 2, Op.ins 4]).tree = some 5 := by decide

/-- C9: counterexample.  find_insert_pos does not point at the existing node
when it reports DUPLICATE: searching for the present key 1 in the reachable
treap {1, 2} (root 1, right child 2) reports DUPLICATE at the node holding
2, whose key is not equivalent to 1. -/
theorem c9_duplicate_report_points_at_wrong_node :
    (find_insert_pos stTwo 1).2 = InsPos.DUPLICATE ∧
    keyAtAddr stTwo.tree (find_insert_pos stTwo 1).1 = some 2 ∧
    (1 : Int) ∈ inorder stTwo.tree := by decide

/-- C10: counterexample.  emplace of the already present key 5 inserts
nothing, yet the priority source advances: the pending priority sequence
[20, 30] becomes [30], because create_node draws a priority before the
duplicate check. -/
theorem c10_emplace_on_duplicate_advances_urng :
    (emplace stOne 5).2.2 = false ∧
    (emplace stOne 5).1.tree = stOne.tree ∧
    stOne.rng = [20, 30] ∧
    (emplace stOne 5).1.rng = [30] := by decide

/-!
Supporting lemmas: descent, rotation, bubble-up, rebalance, search and
erase specifications, and invariant preservation of each public mutating
operation.
-/


theorem allB_iff (f : Int → Bool) (t : Tree) :
    allB f t = true ↔ ∀ a ∈ pinorder t, f a.1 = true := by
  induction t with
  | nil => simp [allB, pinorder]
  | node l x q r ihl ihr =>
    simp only [allB, Bool.and_eq_true, pinorder, List.mem_append, List.mem_cons, ihl, ihr]
    constructor
    · rintro ⟨⟨h1, h2⟩, h3⟩ a ha
      rcases ha with ha | rfl | ha
      · exact h1 a ha
      · exact h2
      · exact h3 a ha
    · intro h
      exact ⟨⟨fun a ha => h a (Or.inl ha), h (x, q) (Or.inr (Or.inl rfl))⟩,
        fun a ha => h a (Or.inr (Or.inr ha))⟩

theorem isBST_iff_sorted (t : Tree) : isBST t = true ↔ sortedP (pinorder t) := by
  induction t with
  | nil => simp [isBST, pinorder, sortedP]
  | node l x q r ihl ihr =>
    simp only [isBST, Bool.and_eq_true, pinorder, sortedP, List.pairwise_append,
      List.pairwise_cons, allB_iff, ihl, ihr, decide_eq_true_eq, List.mem_cons, keyLt]
    constructor
    · rintro ⟨⟨⟨hal, har⟩, hbl⟩, hbr⟩
      refine ⟨hbl, ⟨fun b hb => har b hb, hbr⟩, ?_⟩
      rintro a ha b (rfl | hb)
      · exact hal a ha
      · exact lt_trans (hal a ha) (har b hb)
    · rintro ⟨hbl, ⟨hxr, hbr⟩, hcross⟩
      exact ⟨⟨⟨fun a ha => hcross a ha (x, q) (Or.inl rfl), hxr⟩, hbl⟩, hbr⟩

theorem sortedP_nodup {l : List (Int × Int)} (h : sortedP l) :
    (l.map Prod.fst).Nodup := by
  have h2 : (l.map Prod.fst).Pairwise (· < ·) := List.pairwise_map.mpr h
  exact h2.imp ne_of_lt

/-- Head of the payload sequence is the head key of the pair sequence. -/
theorem inorder_head (t : Tree) : (inorder t).head? = (pinorder t).head?.map Prod.fst := by
  unfold inorder
  cases pinorder t <;> rfl

theorem inorder_getLast (t : Tree) :
    (inorder t).getLast? = (pinorder t).getLast?.map Prod.fst := by
  unfold inorder
  induction pinorder t with
  | nil => rfl
  | cons a l ih =>
    cases l with
    | nil => rfl
    | cons b l2 => simpa using ih

theorem mem_of_getLast?_eq {α : Type} {l : List α} {a : α} (h : l.getLast? = some a) :
    a ∈ l := by
  have h2 : a ∈ l.getLast? := Option.mem_def.mpr h
  rcases List.mem_getLast?_eq_getLast h2 with ⟨hne, heq⟩
  exact heq ▸ List.getLast_mem hne

/-- Elements of a sorted list are at most its last element. -/
theorem sortedP_le_getLast {l : List (Int × Int)} (h : sortedP l) :
    ∀ a ∈ l, ∀ la, l.getLast? = some la → a.1 ≤ la.1 := by
  induction l with
  | nil => intro a ha; cases ha
  | cons b l2 ih =>
    intro a ha la hla
    cases l2 with
    | nil =>
      rcases List.mem_cons.mp ha with rfl | h2
      · simp only [List.getLast?_singleton, Option.some.injEq] at hla
        exact le_of_eq (congrArg Prod.fst hla)
      · cases h2
    | cons c l3 =>
      have hla2 : (c :: l3).getLast? = some la := by
        simpa [List.getLast?_cons_cons] using hla
      rcases List.mem_cons.mp ha with rfl | h2
      · have hc : keyLt a c := (List.pairwise_cons.mp h).1 c (List.mem_cons_self c l3)
        have h3 := ih (List.pairwise_cons.mp h).2 c (List.mem_cons_self c l3) la hla2
        exact le_trans (le_of_lt hc) h3
      · exact ih (List.pairwise_cons.mp h).2 a h2 la hla2

/-- Membership of k in a sorted list whose keys are all at most k holds
exactly when the last key is k. -/
theorem sortedP_mem_getLast {l : List (Int × Int)} (h : sortedP l) (k : Int)
    (hle : ∀ a ∈ l, a.1 ≤ k) :
    (k ∈ l.map Prod.fst) ↔ (l.getLast?.map Prod.fst = some k) := by
  constructor
  · intro hk
    rcases List.mem_map.mp hk with ⟨a, ha, rfl⟩
    rcases hgl : l.getLast? with _ | la
    · rw [List.getLast?_eq_none_iff] at hgl
      subst hgl
      cases ha
    · have h1 := sortedP_le_getLast h a ha la hgl
      have h2 := hle la (mem_of_getLast?_eq hgl)
      have h3 := sortedP_le_getLast h a ha la hgl
      simp only [Option.map_some', Option.some.injEq]
      omega
  · intro hk
    rcases hgl : l.getLast? with _ | la
    · rw [hgl] at hk
      cases hk
    · rw [hgl] at hk
      simp only [Option.map_some', Option.some.injEq] at hk
      exact hk ▸ List.mem_map_of_mem Prod.fst (mem_of_getLast?_eq hgl)

/-- Context decomposition of a subtree replacement: the pair sequence of
setSub t p v is that of t with the segment of the subtree at p replaced by
the pair sequence of v. -/
theorem setSub_context {t u : Tree} {p : List Dir} (h : getSub t p = some u) :
    ∃ A B, pinorder t = A ++ pinorder u ++ B ∧
      ∀ v, pinorder (setSub t p v) = A ++ pinorder v ++ B := by
  induction p generalizing t with
  | nil =>
    simp only [getSub, Option.some.injEq] at h
    subst h
    exact ⟨[], [], by simp, fun v => by simp [setSub]⟩
  | cons d p2 ih =>
    cases t with
    | nil => simp [getSub] at h
    | node l x q r =>
      cases d with
      | dL =>
        simp only [getSub] at h
        rcases ih h with ⟨A, B, h1, h2⟩
        refine ⟨A, B ++ (x, q) :: pinorder r, ?_, fun v => ?_⟩
        · simp [pinorder, h1]
        · simp [setSub, pinorder, h2 v]
      | dR =>
        simp only [getSub] at h
        rcases ih h with ⟨A, B, h1, h2⟩
        refine ⟨pinorder l ++ (x, q) :: A, B, ?_, fun v => ?_⟩
        · simp [pinorder, h1]
        · simp [setSub, pinorder, h2 v]

/-- Subtrees of a BST are BSTs. -/
theorem isBST_getSub {t u : Tree} {p : List Dir} (h : getSub t p = some u)
    (hb : isBST t = true) : isBST u = true := by
  induction p generalizing t with
  | nil =>
    simp only [getSub, Option.some.injEq] at h
    exact h ▸ hb
  | cons d p2 ih =>
    cases t with
    | nil => simp [getSub] at h
    | node l x q r =>
      simp only [isBST, Bool.and_eq_true] at hb
      cases d with
      | dL => exact ih (by simpa [getSub] using h) hb.1.2
      | dR => exact ih (by simpa [getSub] using h) hb.2


theorem prioBndP_nil (b : Int) : prioBndP Tree.nil b := by
  intro a ha
  cases ha

theorem prioBndP_mono {t : Tree} {b b2 : Int} (h : prioBndP t b) (hb : b ≤ b2) :
    prioBndP t b2 := fun a ha => le_trans (h a ha) hb

/-- In a heap whose root priority is bounded by b, every priority is. -/
theorem isHeap_prioBnd {t : Tree} {b : Int} (hh : isHeap t = true)
    (hr : prioLe t b = true) : prioBndP t b := by
  induction t generalizing b with
  | nil => exact prioBndP_nil b
  | node l x q r ihl ihr =>
    simp only [isHeap, Bool.and_eq_true] at hh
    simp only [prioLe, decide_eq_true_eq] at hr
    intro a ha
    simp only [pinorder, List.mem_append, List.mem_cons] at ha
    rcases ha with ha | rfl | ha
    · exact le_trans (ihl hh.1.2 hh.1.1.1 a ha) hr
    · exact hr
    · exact le_trans (ihr hh.2 hh.1.1.2 a ha) hr

theorem prioLe_of_rootPrio {t : Tree} {b : Int} (h : rootPrio t ≤ b) :
    prioLe t b = true := by
  cases t with
  | nil => rfl
  | node l x q r => simpa [prioLe] using h

theorem prioLe_of_bnd {t : Tree} {b : Int} (h : prioBndP t b) : prioLe t b = true := by
  cases t with
  | nil => rfl
  | node l x q r =>
    simp only [prioLe, decide_eq_true_eq]
    exact h (x, q) (by simp [pinorder])

theorem keyAt_cons_dL (l : Tree) (x q : Int) (r : Tree) (u : List Dir) :
    keyAt (Tree.node l x q r) (Dir.dL :: u) = keyAt l u := rfl

theorem keyAt_cons_dR (l : Tree) (x q : Int) (r : Tree) (u : List Dir) :
    keyAt (Tree.node l x q r) (Dir.dR :: u) = keyAt r u := rfl

theorem ascendL_append_dR_allL {l r : Tree} {x q : Int} {rp : List Dir}
    (hall : ∀ d ∈ rp, d = Dir.dL) :
    ascendL (Tree.node l x q r) (rp ++ [Dir.dR]) = Addr.inTree [] := by
  induction rp with
  | nil => rfl
  | cons d rp2 ih =>
    have hd : d = Dir.dL := hall d (List.mem_cons_self d rp2)
    subst hd
    simpa [ascendL] using ih fun d hd => hall d (List.mem_cons_of_mem _ hd)

theorem ascendL_append_dR_notAll {l r : Tree} {x q : Int} {rp : List Dir}
    (hnot : ¬ ∀ d ∈ rp, d = Dir.dL) :
    ∃ u, ascendL r rp = Addr.inTree u ∧
      ascendL (Tree.node l x q r) (rp ++ [Dir.dR]) = Addr.inTree (Dir.dR :: u) := by
  induction rp with
  | nil => exact absurd (fun d hd => absurd hd (List.not_mem_nil d)) hnot
  | cons d rp2 ih =>
    cases d with
    | dL =>
      have hnot2 : ¬ ∀ d ∈ rp2, d = Dir.dL := by
        intro hall
        exact hnot fun d hd => by
          rcases List.mem_cons.mp hd with rfl | hd2
          · rfl
          · exact hall d hd2
      rcases ih hnot2 with ⟨u, h1, h2⟩
      exact ⟨u, by simpa [ascendL] using h1, by simpa [ascendL] using h2⟩
    | dR =>
      refine ⟨rp2.reverse, rfl, ?_⟩
      simp [ascendL]

theorem ascendL_append_dL_notAll {l r : Tree} {x q : Int} {rp : List Dir}
    (hnot : ¬ ∀ d ∈ rp, d = Dir.dL) :
    ∃ u, ascendL l rp = Addr.inTree u ∧
      ascendL (Tree.node l x q r) (rp ++ [Dir.dL]) = Addr.inTree (Dir.dL :: u) := by
  induction rp with
  | nil => exact absurd (fun d hd => absurd hd (List.not_mem_nil d)) hnot
  | cons d rp2 ih =>
    cases d with
    | dL =>
      have hnot2 : ¬ ∀ d ∈ rp2, d = Dir.dL := by
        intro hall
        exact hnot fun d hd => by
          rcases List.mem_cons.mp hd with rfl | hd2
          · rfl
          · exact hall d hd2
      rcases ih hnot2 with ⟨u, h1, h2⟩
      exact ⟨u, by simpa [ascendL] using h1, by simpa [ascendL] using h2⟩
    | dR =>
      refine ⟨rp2.reverse, rfl, ?_⟩
      simp [ascendL]

theorem rotLocal_pinorder {u v : Tree} {d : Dir} (h : rotLocal u d = some v) :
    pinorder v = pinorder u := by
  cases u with
  | nil => cases d <;> simp [rotLocal] at h
  | node ul x q ur =>
    cases d with
    | dL =>
      cases ul with
      | nil => simp [rotLocal] at h
      | node a y py b =>
        simp only [rotLocal, Option.some.injEq] at h
        subst h
        simp [pinorder]
    | dR =>
      cases ur with
      | nil => simp [rotLocal] at h
      | node a z pz b =>
        simp only [rotLocal, Option.some.injEq] at h
        subst h
        simp [pinorder]

theorem rotAt_pinorder (t : Tree) (pp : List Dir) (d : Dir) :
    pinorder (rotAt t pp d) = pinorder t := by
  unfold rotAt
  rcases hg : getSub t pp with _ | u
  · rfl
  · dsimp only
    rcases hr : rotLocal u d with _ | v
    · rfl
    · dsimp only
      rcases setSub_context hg with ⟨A, B, h1, h2⟩
      rw [h2 v, h1, rotLocal_pinorder hr]

theorem rotAt_cons_dL (l : Tree) (x q : Int) (r : Tree) (pp : List Dir) (d : Dir) :
    rotAt (Tree.node l x q r) (Dir.dL :: pp) d = Tree.node (rotAt l pp d) x q r := by
  unfold rotAt
  have hg : getSub (Tree.node l x q r) (Dir.dL :: pp) = getSub l pp := rfl
  rw [hg]
  rcases h2 : getSub l pp with _ | u
  · rfl
  · dsimp only
    rcases h3 : rotLocal u d with _ | v
    · rfl
    · rfl

theorem rotAt_cons_dR (l : Tree) (x q : Int) (r : Tree) (pp : List Dir) (d : Dir) :
    rotAt (Tree.node l x q r) (Dir.dR :: pp) d = Tree.node l x q (rotAt r pp d) := by
  unfold rotAt
  have hg : getSub (Tree.node l x q r) (Dir.dR :: pp) = getSub r pp := rfl
  rw [hg]
  rcases h2 : getSub r pp with _ | u
  · rfl
  · dsimp only
    rcases h3 : rotLocal u d with _ | v
    · rfl
    · rfl

theorem bubbleUpF_pinorder (rp : List Dir) (t : Tree) :
    pinorder (bubbleUpF t rp).1 = pinorder t := by
  induction rp generalizing t with
  | nil => rfl
  | cons d rp2 ih =>
    show pinorder (bubbleUpF t (d :: rp2)).1 = pinorder t
    unfold bubbleUpF
    rcases hg : getSub t rp2.reverse with _ | u
    · rfl
    · cases u with
      | nil => rfl
      | node l x q r =>
        dsimp only
        split
        · rw [ih, rotAt_pinorder]
        · rfl

/-- One step of the bubble-up loop, as a definitional equation. -/
theorem bubbleUpF_cons (t : Tree) (d : Dir) (w : List Dir) :
    bubbleUpF t (d :: w) =
      (match getSub t w.reverse with
       | some (Tree.node l2 x2 q2 r2) =>
         if q2 < rootPrio (childOf (Tree.node l2 x2 q2 r2) d)
         then bubbleUpF (rotAt t w.reverse d) w
         else (t, false)
       | _ => (t, false)) := rfl

theorem bubbleUpF_append_dL (rp : List Dir) (l : Tree) (x q : Int) (r : Tree) :
    bubbleUpF (Tree.node l x q r) (rp ++ [Dir.dL]) =
      (if (bubbleUpF l rp).2 then bubbleUpF (Tree.node (bubbleUpF l rp).1 x q r) [Dir.dL]
       else (Tree.node (bubbleUpF l rp).1 x q r, false)) := by
  induction rp generalizing l with
  | nil => simp [bubbleUpF]
  | cons d rp2 ih =>
    rw [show (d :: rp2) ++ [Dir.dL] = d :: (rp2 ++ [Dir.dL]) from rfl,
      bubbleUpF_cons (Tree.node l x q r) d (rp2 ++ [Dir.dL]), bubbleUpF_cons l d rp2,
      show (rp2 ++ [Dir.dL]).reverse = Dir.dL :: rp2.reverse by simp,
      show getSub (Tree.node l x q r) (Dir.dL :: rp2.reverse) = getSub l rp2.reverse from rfl]
    rcases hg : getSub l rp2.reverse with _ | u
    · simp
    · cases u with
      | nil => simp
      | node l2 x2 q2 r2 =>
        dsimp only
        split
        · rw [rotAt_cons_dL]
          exact ih _
        · simp

theorem bubbleUpF_append_dR (rp : List Dir) (l : Tree) (x q : Int) (r : Tree) :
    bubbleUpF (Tree.node l x q r) (rp ++ [Dir.dR]) =
      (if (bubbleUpF r rp).2 then bubbleUpF (Tree.node l x q (bubbleUpF r rp).1) [Dir.dR]
       else (Tree.node l x q (bubbleUpF r rp).1, false)) := by
  induction rp generalizing r with
  | nil => simp [bubbleUpF]
  | cons d rp2 ih =>
    rw [show (d :: rp2) ++ [Dir.dR] = d :: (rp2 ++ [Dir.dR]) from rfl,
      bubbleUpF_cons (Tree.node l x q r) d (rp2 ++ [Dir.dR]), bubbleUpF_cons r d rp2,
      show (rp2 ++ [Dir.dR]).reverse = Dir.dR :: rp2.reverse by simp,
      show getSub (Tree.node l x q r) (Dir.dR :: rp2.reverse) = getSub r rp2.reverse from rfl]
    rcases hg : getSub r rp2.reverse with _ | u
    · simp
    · cases u with
      | nil => simp
      | node l2 x2 q2 r2 =>
        dsimp only
        split
        · rw [rotAt_cons_dR]
          exact ih _
        · simp

/-- On a node with no left child, prev takes the ascent branch. -/
theorem prevAddr_of_nilLeft {t : Tree} {p : List Dir} {hk hq : Int} {sb : Tree}
    (hg : getSub t p = some (Tree.node Tree.nil hk hq sb)) :
    prevAddr t (Addr.inTree p) = ascendL t p.reverse := by
  unfold prevAddr
  dsimp only
  rw [hg]

/-- Master specification of the insertion-position descent: on a nonempty
BST it splits the pair sequence into the elements at most k and those
greater, characterises the shape at the stop node prev_, the attach result,
the empty-side conditions and the neighbour reached by prev(prev_). -/
theorem descend_master (k : Int) :
    ∀ (t : Tree), isBST t = true → t ≠ Tree.nil →
    ∃ A B,
      pinorder t = A ++ B ∧
      (∀ a ∈ A, a.1 ≤ k) ∧
      (∀ b ∈ B, k < b.1) ∧
      (∀ pr, pinorder (setSub t ((descend k t).1 ++
          [if (descend k t).2 then Dir.dL else Dir.dR]) (single k pr)) = A ++ (k, pr) :: B) ∧
      ((descend k t).2 = true →
        ∃ hk hq sb, getSub t (descend k t).1 = some (Tree.node Tree.nil hk hq sb) ∧
          B.head? = some (hk, hq)) ∧
      ((descend k t).2 = false →
        ∃ lk lq sb, getSub t (descend k t).1 = some (Tree.node sb lk lq Tree.nil) ∧
          A.getLast? = some (lk, lq)) ∧
      (A = [] ↔ ((descend k t).2 = true ∧ ∀ d ∈ (descend k t).1, d = Dir.dL)) ∧
      (B = [] ↔ ((descend k t).2 = false ∧ ∀ d ∈ (descend k t).1, d = Dir.dR)) ∧
      ((descend k t).2 = true → A ≠ [] →
        keyAtAddr t (prevAddr t (Addr.inTree (descend k t).1)) = A.getLast?.map Prod.fst) := by
  intro t
  induction t with
  | nil => intro _ hne; exact absurd rfl hne
  | node l x q r ihl ihr =>
    intro hb _
    simp only [isBST, Bool.and_eq_true] at hb
    have halL : ∀ a ∈ pinorder l, a.1 < x := by
      intro a ha
      have := (allB_iff _ l).mp hb.1.1.1 a ha
      simpa using this
    have halR : ∀ a ∈ pinorder r, x < a.1 := by
      intro a ha
      have := (allB_iff _ r).mp hb.1.1.2 a ha
      simpa using this
    by_cases hx : k < x
    · cases l with
      | nil =>
        have hd : descend k (Tree.node Tree.nil x q r) = ([], true) := by
          conv_lhs => unfold descend
          rw [if_pos hx]
        refine ⟨[], (x, q) :: pinorder r, by simp [pinorder], by simp, ?_, ?_, ?_, ?_, ?_, ?_, ?_⟩
        · intro b hbm
          rcases List.mem_cons.mp hbm with rfl | hbm
          · exact hx
          · exact lt_trans hx (halR b hbm)
        · intro pr
          simp [hd, setSub, pinorder, single]
        · intro _
          refine ⟨x, q, r, ?_, rfl⟩
          simp [hd, getSub]
        · intro hc
          simp [hd] at hc
        · simp [hd]
        · simp [hd]
        · intro _ hA
          exact absurd rfl hA
      | node la lb lc ld =>
        have hd : descend k (Tree.node (Tree.node la lb lc ld) x q r) =
            (Dir.dL :: (descend k (Tree.node la lb lc ld)).1,
             (descend k (Tree.node la lb lc ld)).2) := by
          conv_lhs => unfold descend
          rw [if_pos hx]
        obtain ⟨A1, B1, hsp, hAle, hBgt, hatt, h5, h6, h7, h8, h9⟩ :=
          ihl hb.1.2 (by simp)
        refine ⟨A1, B1 ++ (x, q) :: pinorder r, ?_, hAle, ?_, ?_, ?_, ?_, ?_, ?_, ?_⟩
        · rw [show pinorder (Tree.node (Tree.node la lb lc ld) x q r) =
              pinorder (Tree.node la lb lc ld) ++ (x, q) :: pinorder r from rfl, hsp]
          simp
        · intro b hbm
          rcases List.mem_append.mp hbm with hbm | hbm
          · exact hBgt b hbm
          rcases List.mem_cons.mp hbm with rfl | hbm
          · exact hx
          · exact lt_trans hx (halR b hbm)
        · intro pr
          rw [hd]
          dsimp only
          rw [List.cons_append]
          simp only [setSub, pinorder]
          rw [hatt pr]
          simp
        · intro hc
          rw [hd] at hc
          dsimp only at hc
          obtain ⟨hk, hq, sb, hg, hh⟩ := h5 hc
          have hB1 : B1 ≠ [] := by
            intro he
            rw [he] at hh
            cases hh
          refine ⟨hk, hq, sb, ?_, ?_⟩
          · rw [hd]
            dsimp only
            exact hg
          · rw [List.head?_append_of_ne_nil _ hB1]
            exact hh
        · intro hc
          rw [hd] at hc
          dsimp only at hc
          obtain ⟨lk, lq, sb, hg, hh⟩ := h6 hc
          refine ⟨lk, lq, sb, ?_, hh⟩
          rw [hd]
          dsimp only
          exact hg
        · rw [hd]
          dsimp only
          rw [h7]
          simp [List.forall_mem_cons]
        · rw [hd]
          dsimp only
          constructor
          · intro he
            rcases List.append_eq_nil.mp he with ⟨_, he2⟩
            cases he2
          · rintro ⟨_, hall⟩
            cases (List.forall_mem_cons.mp hall).1
        · intro hc hA
          rw [hd] at hc ⊢
          dsimp only at hc ⊢
          obtain ⟨hk, hq, sb, hg, _⟩ := h5 hc
          have hg2 : getSub (Tree.node la lb lc ld) (descend k (Tree.node la lb lc ld)).1 =
              some (Tree.node Tree.nil hk hq sb) := hg
          have hg3 : getSub (Tree.node (Tree.node la lb lc ld) x q r)
              (Dir.dL :: (descend k (Tree.node la lb lc ld)).1) =
              some (Tree.node Tree.nil hk hq sb) := hg2
          have hpv := prevAddr_of_nilLeft hg3
          have hpvL := prevAddr_of_nilLeft hg2
          have hnall : ¬ ∀ d ∈ (descend k (Tree.node la lb lc ld)).1.reverse, d = Dir.dL := by
            intro hall
            exact hA (h7.mpr ⟨hc, fun d hdm => hall d (List.mem_reverse.mpr hdm)⟩)
          obtain ⟨u, hu1, hu2⟩ := ascendL_append_dL_notAll (r := r) (x := x) (q := q) hnall
          rw [hpv, List.reverse_cons, hu2]
          have h9v := h9 hc hA
          rw [hpvL, hu1] at h9v
          rw [show keyAtAddr (Tree.node (Tree.node la lb lc ld) x q r)
              (Addr.inTree (Dir.dL :: u)) = keyAt (Tree.node la lb lc ld) u from rfl]
          exact h9v
    · have hxle : x ≤ k := not_lt.mp hx
      cases r with
      | nil =>
        have hd : descend k (Tree.node l x q Tree.nil) = ([], false) := by
          conv_lhs => unfold descend
          rw [if_neg hx]
        refine ⟨pinorder l ++ [(x, q)], [], ?_, ?_, by simp, ?_, ?_, ?_, ?_, ?_, ?_⟩
        · simp [pinorder]
        · intro a ham
          rcases List.mem_append.mp ham with ham | ham
          · exact le_trans (le_of_lt (halL a ham)) hxle
          rcases List.mem_cons.mp ham with rfl | ham
          · exact hxle
          · cases ham
        · intro pr
          rw [hd]
          dsimp only
          simp [setSub, pinorder, single]
        · intro hc
          rw [hd] at hc
          cases hc
        · intro _
          refine ⟨x, q, l, ?_, ?_⟩
          · rw [hd]
            dsimp only
            rfl
          · simp
        · rw [hd]
          simp
        · rw [hd]
          simp
        · intro hc
          rw [hd] at hc
          cases hc
      | node ra rb rc rd =>
        have hd : descend k (Tree.node l x q (Tree.node ra rb rc rd)) =
            (Dir.dR :: (descend k (Tree.node ra rb rc rd)).1,
             (descend k (Tree.node ra rb rc rd)).2) := by
          conv_lhs => unfold descend
          rw [if_neg hx]
        obtain ⟨A1, B1, hsp, hAle, hBgt, hatt, h5, h6, h7, h8, h9⟩ :=
          ihr hb.2 (by simp)
        have hgetA : ∀ hne2 : A1 ≠ [],
            (pinorder l ++ (x, q) :: A1).getLast? = A1.getLast? := by
          intro hne2
          rw [List.getLast?_append_of_ne_nil _ (by simp),
            show (x, q) :: A1 = [(x, q)] ++ A1 from rfl,
            List.getLast?_append_of_ne_nil _ hne2]
        refine ⟨pinorder l ++ (x, q) :: A1, B1, ?_, ?_, hBgt, ?_, ?_, ?_, ?_, ?_, ?_⟩
        · rw [show pinorder (Tree.node l x q (Tree.node ra rb rc rd)) =
              pinorder l ++ (x, q) :: pinorder (Tree.node ra rb rc rd) from rfl, hsp]
          simp
        · intro a ham
          rcases List.mem_append.mp ham with ham | ham
          · exact le_trans (le_of_lt (halL a ham)) hxle
          rcases List.mem_cons.mp ham with rfl | ham
          · exact hxle
          · exact hAle a ham
        · intro pr
          rw [hd]
          dsimp only
          rw [List.cons_append]
          simp only [setSub, pinorder]
          rw [hatt pr]
          simp
        · intro hc
          rw [hd] at hc ⊢
          dsimp only at hc ⊢
          obtain ⟨hk, hq, sb, hg, hh⟩ := h5 hc
          exact ⟨hk, hq, sb, hg, hh⟩
        · intro hc
          rw [hd] at hc ⊢
          dsimp only at hc ⊢
          obtain ⟨lk, lq, sb, hg, hh⟩ := h6 hc
          have hA1 : A1 ≠ [] := by
            intro he
            rw [he] at hh
            cases hh
          refine ⟨lk, lq, sb, hg, ?_⟩
          rw [hgetA hA1]
          exact hh
        · rw [hd]
          dsimp only
          constructor
          · intro he
            rcases List.append_eq_nil.mp he with ⟨_, he2⟩
            cases he2
          · rintro ⟨_, hall⟩
            cases (List.forall_mem_cons.mp hall).1
        · rw [hd]
          dsimp only
          rw [h8]
          simp [List.forall_mem_cons]
        · intro hc _
          rw [hd] at hc ⊢
          dsimp only at hc ⊢
          obtain ⟨hk, hq, sb, hg, _⟩ := h5 hc
          have hg2 : getSub (Tree.node ra rb rc rd) (descend k (Tree.node ra rb rc rd)).1 =
              some (Tree.node Tree.nil hk hq sb) := hg
          have hg3 : getSub (Tree.node l x q (Tree.node ra rb rc rd))
              (Dir.dR :: (descend k (Tree.node ra rb rc rd)).1) =
              some (Tree.node Tree.nil hk hq sb) := hg2
          have hpv := prevAddr_of_nilLeft hg3
          have hpvR := prevAddr_of_nilLeft hg2
          rw [hpv, List.reverse_cons]
          by_cases hA1 : A1 = []
          · have hall := (h7.mp hA1).2
            have hallrev : ∀ d ∈ (descend k (Tree.node ra rb rc rd)).1.reverse, d = Dir.dL :=
              fun d hdm => hall d (List.mem_reverse.mp hdm)
            rw [ascendL_append_dR_allL (l := l) (x := x) (q := q) hallrev]
            rw [show keyAtAddr (Tree.node l x q (Tree.node ra rb rc rd))
                (Addr.inTree ([] : List Dir)) = some x from rfl]
            subst hA1
            simp [List.getLast?_concat]
          · have hnall : ¬ ∀ d ∈ (descend k (Tree.node ra rb rc rd)).1.reverse, d = Dir.dL := by
              intro hall
              exact hA1 (h7.mpr ⟨hc, fun d hdm => hall d (List.mem_reverse.mpr hdm)⟩)
            obtain ⟨u, hu1, hu2⟩ := ascendL_append_dR_notAll (l := l) (x := x) (q := q) hnall
            rw [hu2]
            have h9v := h9 hc hA1
            rw [hpvR, hu1] at h9v
            rw [show keyAtAddr (Tree.node l x q (Tree.node ra rb rc rd))
                (Addr.inTree (Dir.dR :: u)) = keyAt (Tree.node ra rb rc rd) u from rfl]
            rw [hgetA hA1]
            exact h9v

/-- Flat characterisation of heap order at a node. -/
theorem isHeap_node_iff {l r : Tree} {x q : Int} :
    isHeap (Tree.node l x q r) = true ↔
      (prioLe l q = true ∧ prioLe r q = true ∧ isHeap l = true ∧ isHeap r = true) := by
  simp [isHeap, Bool.and_eq_true, and_assoc]

theorem prioLe_nil (b : Int) : prioLe Tree.nil b = true := rfl

theorem prioLe_node_iff {l r : Tree} {x q b : Int} :
    prioLe (Tree.node l x q r) b = true ↔ q ≤ b := by
  simp [prioLe]


/-- Heap specification of attach-and-bubble-up: heap order is restored; while
the loop is live the new node is the subtree root and all other priorities
are bounded by the old root priority; once the loop has stopped the root of
the result is the old root. -/
theorem insTB_heap (k pr : Int) :
    ∀ t : Tree, isHeap t = true → t ≠ Tree.nil →
      isHeap (insTB k pr t).1 = true ∧
      ((insTB k pr t).2 = true → ∃ l1 r1, (insTB k pr t).1 = Tree.node l1 k pr r1 ∧
        prioBndP l1 (rootPrio t) ∧ prioBndP r1 (rootPrio t)) ∧
      ((insTB k pr t).2 = false → rootPrio (insTB k pr t).1 = rootPrio t ∧
        rootKey (insTB k pr t).1 = rootKey t) := by
  intro t
  induction t with
  | nil => intro _ hne; exact absurd rfl hne
  | node l x q r ihl ihr =>
    intro hh _
    rw [isHeap_node_iff] at hh
    obtain ⟨hpl, hpr, hhl, hhr⟩ := hh
    by_cases hx : k < x
    · cases l with
      | nil =>
        have hd : descend k (Tree.node Tree.nil x q r) = ([], true) := by
          conv_lhs => unfold descend
          rw [if_pos hx]
        have hins : insTB k pr (Tree.node Tree.nil x q r) =
            bubbleUpF (Tree.node (single k pr) x q r) [Dir.dL] := by
          simp [insTB, hd, setSub]
        rw [hins, bubbleUpF_cons]
        dsimp only [List.reverse_nil, getSub, childOf, single, rootPrio]
        by_cases hq : q < pr
        · rw [if_pos hq]
          have hrot : rotAt (Tree.node (Tree.node Tree.nil k pr Tree.nil) x q r) [] Dir.dL =
              Tree.node Tree.nil k pr (Tree.node Tree.nil x q r) := by
            simp [rotAt, getSub, rotLocal, setSub]
          rw [hrot]
          dsimp only [bubbleUpF]
          refine ⟨?_, ?_, ?_⟩
          · rw [isHeap_node_iff]
            refine ⟨prioLe_nil pr, prioLe_node_iff.mpr (le_of_lt hq), rfl, ?_⟩
            rw [isHeap_node_iff]
            exact ⟨prioLe_nil q, hpr, rfl, hhr⟩
          · intro _
            refine ⟨Tree.nil, Tree.node Tree.nil x q r, rfl, prioBndP_nil _, ?_⟩
            intro a ha
            simp only [pinorder, List.mem_append, List.mem_cons] at ha
            rcases ha with ha | rfl | ha
            · cases ha
            · exact le_refl q
            · exact isHeap_prioBnd hhr hpr a ha
          · intro hfa
            cases hfa
        · rw [if_neg hq]
          dsimp only
          refine ⟨?_, ?_, ?_⟩
          · rw [isHeap_node_iff]
            refine ⟨prioLe_node_iff.mpr (not_lt.mp hq), hpr, ?_, hhr⟩
            rw [isHeap_node_iff]
            exact ⟨prioLe_nil pr, prioLe_nil pr, rfl, rfl⟩
          · intro hfa
            cases hfa
          · intro _
            exact ⟨rfl, rfl⟩
      | node la lb lc ld =>
        have hd : descend k (Tree.node (Tree.node la lb lc ld) x q r) =
            (Dir.dL :: (descend k (Tree.node la lb lc ld)).1,
             (descend k (Tree.node la lb lc ld)).2) := by
          conv_lhs => unfold descend
          rw [if_pos hx]
        have hlq : rootPrio (Tree.node la lb lc ld) ≤ q := prioLe_node_iff.mp hpl
        have hins : insTB k pr (Tree.node (Tree.node la lb lc ld) x q r) =
            (if (insTB k pr (Tree.node la lb lc ld)).2 then
               bubbleUpF (Tree.node (insTB k pr (Tree.node la lb lc ld)).1 x q r) [Dir.dL]
             else (Tree.node (insTB k pr (Tree.node la lb lc ld)).1 x q r, false)) := by
          unfold insTB
          rw [hd]
          dsimp only
          rw [List.cons_append]
          rw [show setSub (Tree.node (Tree.node la lb lc ld) x q r)
              (Dir.dL :: ((descend k (Tree.node la lb lc ld)).1 ++
                [if (descend k (Tree.node la lb lc ld)).2 then Dir.dL else Dir.dR]))
              (single k pr) =
              Tree.node (setSub (Tree.node la lb lc ld)
                ((descend k (Tree.node la lb lc ld)).1 ++
                  [if (descend k (Tree.node la lb lc ld)).2 then Dir.dL else Dir.dR])
                (single k pr)) x q r from rfl]
          rw [List.reverse_cons, show
            (if (descend k (Tree.node la lb lc ld)).2 then Dir.dL else Dir.dR) ::
              ((descend k (Tree.node la lb lc ld)).1.reverse ++ [Dir.dL]) =
            ((if (descend k (Tree.node la lb lc ld)).2 then Dir.dL else Dir.dR) ::
              (descend k (Tree.node la lb lc ld)).1.reverse) ++ [Dir.dL] from rfl]
          rw [bubbleUpF_append_dL]
        obtain ⟨ih1, ih2, ih3⟩ := ihl hhl (by simp)
        rcases hlive : (insTB k pr (Tree.node la lb lc ld)).2 with _ | _
        · rw [hins, hlive, if_neg (by simp)]
          obtain ⟨hr1, hr2⟩ := ih3 hlive
          refine ⟨?_, ?_, ?_⟩
          · rw [isHeap_node_iff]
            exact ⟨prioLe_of_rootPrio (le_of_eq_of_le hr1 hlq), hpr, ih1, hhr⟩
          · intro hfa
            cases hfa
          · intro _
            exact ⟨rfl, rfl⟩
        · obtain ⟨l1, r1, hu, hb1, hb2⟩ := ih2 hlive
          rw [hins, hlive, if_pos rfl, hu, bubbleUpF_cons]
          dsimp only [List.reverse_nil, getSub, childOf, rootPrio]
          have hheapU : isHeap (Tree.node l1 k pr r1) = true := hu ▸ ih1
          rw [isHeap_node_iff] at hheapU
          obtain ⟨hul, hur, hhl1, hhr1⟩ := hheapU
          by_cases hq : q < pr
          · rw [if_pos hq]
            have hrot : rotAt (Tree.node (Tree.node l1 k pr r1) x q r) [] Dir.dL =
                Tree.node l1 k pr (Tree.node r1 x q r) := by
              simp [rotAt, getSub, rotLocal, setSub]
            rw [hrot]
            dsimp only [bubbleUpF]
            refine ⟨?_, ?_, ?_⟩
            · rw [isHeap_node_iff]
              refine ⟨hul, prioLe_node_iff.mpr (le_of_lt hq), hhl1, ?_⟩
              rw [isHeap_node_iff]
              exact ⟨prioLe_of_bnd (prioBndP_mono hb2 hlq), hpr, hhr1, hhr⟩
            · intro _
              refine ⟨l1, Tree.node r1 x q r, rfl, prioBndP_mono hb1 hlq, ?_⟩
              intro a ha
              simp only [pinorder, List.mem_append, List.mem_cons] at ha
              rcases ha with ha | rfl | ha
              · exact le_trans (hb2 a ha) hlq
              · exact le_refl q
              · exact isHeap_prioBnd hhr hpr a ha
            · intro hfa
              cases hfa
          · rw [if_neg hq]
            dsimp only
            refine ⟨?_, ?_, ?_⟩
            · rw [isHeap_node_iff]
              refine ⟨?_, hpr, ?_, hhr⟩
              · rw [prioLe_node_iff]
                exact not_lt.mp hq
              · rw [isHeap_node_iff]
                exact ⟨hul, hur, hhl1, hhr1⟩
            · intro hfa
              cases hfa
            · intro _
              exact ⟨rfl, rfl⟩
    · cases r with
      | nil =>
        have hd : descend k (Tree.node l x q Tree.nil) = ([], false) := by
          conv_lhs => unfold descend
          rw [if_neg hx]
        have hins : insTB k pr (Tree.node l x q Tree.nil) =
            bubbleUpF (Tree.node l x q (single k pr)) [Dir.dR] := by
          simp [insTB, hd, setSub]
        rw [hins, bubbleUpF_cons]
        dsimp only [List.reverse_nil, getSub, childOf, single, rootPrio]
        by_cases hq : q < pr
        · rw [if_pos hq]
          have hrot : rotAt (Tree.node l x q (Tree.node Tree.nil k pr Tree.nil)) [] Dir.dR =
              Tree.node (Tree.node l x q Tree.nil) k pr Tree.nil := by
            simp [rotAt, getSub, rotLocal, setSub]
          rw [hrot]
          dsimp only [bubbleUpF]
          refine ⟨?_, ?_, ?_⟩
          · rw [isHeap_node_iff]
            refine ⟨prioLe_node_iff.mpr (le_of_lt hq), prioLe_nil pr, ?_, rfl⟩
            rw [isHeap_node_iff]
            exact ⟨hpl, prioLe_nil q, hhl, rfl⟩
          · intro _
            refine ⟨Tree.node l x q Tree.nil, Tree.nil, rfl, ?_, prioBndP_nil _⟩
            intro a ha
            simp only [pinorder, List.mem_append, List.mem_cons] at ha
            rcases ha with ha | rfl | ha
            · exact isHeap_prioBnd hhl hpl a ha
            · exact le_refl q
            · cases ha
          · intro hfa
            cases hfa
        · rw [if_neg hq]
          dsimp only
          refine ⟨?_, ?_, ?_⟩
          · rw [isHeap_node_iff]
            refine ⟨hpl, prioLe_node_iff.mpr (not_lt.mp hq), hhl, ?_⟩
            rw [isHeap_node_iff]
            exact ⟨prioLe_nil pr, prioLe_nil pr, rfl, rfl⟩
          · intro hfa
            cases hfa
          · intro _
            exact ⟨rfl, rfl⟩
      | node ra rb rc rd =>
        have hd : descend k (Tree.node l x q (Tree.node ra rb rc rd)) =
            (Dir.dR :: (descend k (Tree.node ra rb rc rd)).1,
             (descend k (Tree.node ra rb rc rd)).2) := by
          conv_lhs => unfold descend
          rw [if_neg hx]
        have hrq : rootPrio (Tree.node ra rb rc rd) ≤ q := prioLe_node_iff.mp hpr
        have hins : insTB k pr (Tree.node l x q (Tree.node ra rb rc rd)) =
            (if (insTB k pr (Tree.node ra rb rc rd)).2 then
               bubbleUpF (Tree.node l x q (insTB k pr (Tree.node ra rb rc rd)).1) [Dir.dR]
             else (Tree.node l x q (insTB k pr (Tree.node ra rb rc rd)).1, false)) := by
          unfold insTB
          rw [hd]
          dsimp only
          rw [List.cons_append]
          rw [show setSub (Tree.node l x q (Tree.node ra rb rc rd))
              (Dir.dR :: ((descend k (Tree.node ra rb rc rd)).1 ++
                [if (descend k (Tree.node ra rb rc rd)).2 then Dir.dL else Dir.dR]))
              (single k pr) =
              Tree.node l x q (setSub (Tree.node ra rb rc rd)
                ((descend k (Tree.node ra rb rc rd)).1 ++
                  [if (descend k (Tree.node ra rb rc rd)).2 then Dir.dL else Dir.dR])
                (single k pr)) from rfl]
          rw [List.reverse_cons, show
            (if (descend k (Tree.node ra rb rc rd)).2 then Dir.dL else Dir.dR) ::
              ((descend k (Tree.node ra rb rc rd)).1.reverse ++ [Dir.dR]) =
            ((if (descend k (Tree.node ra rb rc rd)).2 then Dir.dL else Dir.dR) ::
              (descend k (Tree.node ra rb rc rd)).1.reverse) ++ [Dir.dR] from rfl]
          rw [bubbleUpF_append_dR]
        obtain ⟨ih1, ih2, ih3⟩ := ihr hhr (by simp)
        rcases hlive : (insTB k pr (Tree.node ra rb rc rd)).2 with _ | _
        · rw [hins, hlive, if_neg (by simp)]
          obtain ⟨hr1, hr2⟩ := ih3 hlive
          refine ⟨?_, ?_, ?_⟩
          · rw [isHeap_node_iff]
            exact ⟨hpl, prioLe_of_rootPrio (le_of_eq_of_le hr1 hrq), hhl, ih1⟩
          · intro hfa
            cases hfa
          · intro _
            exact ⟨rfl, rfl⟩
        · obtain ⟨l1, r1, hu, hb1, hb2⟩ := ih2 hlive
          rw [hins, hlive, if_pos rfl, hu, bubbleUpF_cons]
          dsimp only [List.reverse_nil, getSub, childOf, rootPrio]
          have hheapU : isHeap (Tree.node l1 k pr r1) = true := hu ▸ ih1
          rw [isHeap_node_iff] at hheapU
          obtain ⟨hul, hur, hhl1, hhr1⟩ := hheapU
          by_cases hq : q < pr
          · rw [if_pos hq]
            have hrot : rotAt (Tree.node l x q (Tree.node l1 k pr r1)) [] Dir.dR =
                Tree.node (Tree.node l x q l1) k pr r1 := by
              simp [rotAt, getSub, rotLocal, setSub]
            rw [hrot]
            dsimp only [bubbleUpF]
            refine ⟨?_, ?_, ?_⟩
            · rw [isHeap_node_iff]
              refine ⟨?_, hur, ?_, hhr1⟩
              · rw [prioLe_node_iff]
                exact le_of_lt hq
              · rw [isHeap_node_iff]
                exact ⟨hpl, prioLe_of_bnd (prioBndP_mono hb1 hrq), hhl, hhl1⟩
            · intro _
              refine ⟨Tree.node l x q l1, r1, rfl, ?_, prioBndP_mono hb2 hrq⟩
              intro a ha
              simp only [pinorder, List.mem_append, List.mem_cons] at ha
              rcases ha with ha | rfl | ha
              · exact isHeap_prioBnd hhl hpl a ha
              · exact le_refl q
              · exact le_trans (hb1 a ha) hrq
            · intro hfa
              cases hfa
          · rw [if_neg hq]
            dsimp only
            refine ⟨?_, ?_, ?_⟩
            · rw [isHeap_node_iff]
              refine ⟨hpl, ?_, hhl, ?_⟩
              · rw [prioLe_node_iff]
                exact not_lt.mp hq
              · rw [isHeap_node_iff]
                exact ⟨hul, hur, hhl1, hhr1⟩
            · intro hfa
              cases hfa
            · intro _
              exact ⟨rfl, rfl⟩

theorem head?_map_fst (l : List (Int × Int)) :
    (l.map Prod.fst).head? = l.head?.map Prod.fst := by
  cases l <;> rfl

/-- Unfolding of find_insert_pos on a nonempty container. -/
theorem find_insert_pos_node (a : Tree) (b c : Int) (d : Tree)
    (lm0 rm0 : Option Int) (rng0 : List Int) (k : Int) :
    find_insert_pos ⟨Tree.node a b c d, lm0, rm0, rng0⟩ k =
      (if (descend k (Tree.node a b c d)).2 then
         if keyAt (Tree.node a b c d) (descend k (Tree.node a b c d)).1 = lm0 then
           (Addr.inTree (descend k (Tree.node a b c d)).1, InsPos.LEFT)
         else
           if (keyAtAddr (Tree.node a b c d) (prevAddr (Tree.node a b c d)
                (Addr.inTree (descend k (Tree.node a b c d)).1))).getD 0 < k then
             (Addr.inTree (descend k (Tree.node a b c d)).1, InsPos.LEFT)
           else (Addr.inTree (descend k (Tree.node a b c d)).1, InsPos.DUPLICATE)
       else
         if (keyAt (Tree.node a b c d) (descend k (Tree.node a b c d)).1).getD 0 < k then
           (Addr.inTree (descend k (Tree.node a b c d)).1, InsPos.RIGHT)
         else (Addr.inTree (descend k (Tree.node a b c d)).1, InsPos.DUPLICATE)) := rfl

/-- Correctness of the duplicate-detection shortcut of find_insert_pos on an
invariant-satisfying container: the returned address is the descent stop
node, and DUPLICATE is reported exactly when an equivalent element is
present. -/
theorem find_insert_pos_spec (s : TState) (k : Int) (hInv : Invariant s)
    (hne : s.tree ≠ Tree.nil) :
    (find_insert_pos s k).1 = Addr.inTree (descend k s.tree).1 ∧
    ((find_insert_pos s k).2 = InsPos.DUPLICATE ↔ k ∈ inorder s.tree) ∧
    ((find_insert_pos s k).2 = InsPos.LEFT ↔
      (k ∉ inorder s.tree ∧ (descend k s.tree).2 = true)) ∧
    ((find_insert_pos s k).2 = InsPos.RIGHT ↔
      (k ∉ inorder s.tree ∧ (descend k s.tree).2 = false)) := by
  obtain ⟨t, lm0, rm0, rng0⟩ := s
  obtain ⟨hBST, hHeap, hlm, hrm, hnd⟩ := hInv
  cases t with
  | nil => exact absurd rfl hne
  | node a b c d =>
    replace hBST : isBST (Tree.node a b c d) = true := hBST
    replace hlm : lm0 = (inorder (Tree.node a b c d)).head? := hlm
    obtain ⟨A, B, hsp, hAle, hBgt, hatt, h5, h6, h7, h8, h9⟩ :=
      descend_master k (Tree.node a b c d) hBST (by simp)
    have hsort : sortedP (pinorder (Tree.node a b c d)) := (isBST_iff_sorted _).mp hBST
    have hsortA : sortedP A := by
      rw [hsp] at hsort
      exact (List.pairwise_append.mp hsort).1
    have hkB : k ∉ B.map Prod.fst := by
      intro hm
      rcases List.mem_map.mp hm with ⟨p0, hp0, hk0⟩
      exact absurd (hk0 ▸ hBgt p0 hp0) (lt_irrefl k)
    have hmemIff : (k ∈ inorder (Tree.node a b c d)) ↔ k ∈ A.map Prod.fst := by
      unfold inorder
      rw [hsp, List.map_append, List.mem_append]
      exact ⟨fun h => h.resolve_right hkB, Or.inl⟩
    have hdupIff : (k ∈ A.map Prod.fst) ↔ (A.getLast?.map Prod.fst = some k) :=
      sortedP_mem_getLast hsortA k hAle
    have hlmval : lm0 = ((A ++ B).head?).map Prod.fst := by
      rw [hlm, inorder_head, hsp]
    rcases hc : (descend k (Tree.node a b c d)).2 with _ | _
    · -- cmp false: prev_ holds the last element at most k
      obtain ⟨lk, lq, sb, hget, hAl⟩ := h6 hc
      have hkey : keyAt (Tree.node a b c d) (descend k (Tree.node a b c d)).1 = some lk := by
        rw [keyAt, hget]
        rfl
      have hlkA : (lk, lq) ∈ A := mem_of_getLast?_eq hAl
      have hlkle : lk ≤ k := hAle (lk, lq) hlkA
      rw [find_insert_pos_node, hc, if_neg (by simp), hkey]
      rw [show (some lk).getD 0 = lk from rfl]
      by_cases hlt : lk < k
      · rw [if_pos hlt]
        have hknm : k ∉ inorder (Tree.node a b c d) := by
          rw [hmemIff, hdupIff, hAl]
          simp only [Option.map_some', Option.some.injEq]
          intro he
          exact absurd (he ▸ hlt) (lt_irrefl k)
        refine ⟨rfl, by simp [hknm], by simp [hc], by simp [hknm, hc]⟩
      · rw [if_neg hlt]
        have hlke : lk = k := le_antisymm hlkle (not_lt.mp hlt)
        have hkm : k ∈ inorder (Tree.node a b c d) := by
          rw [hmemIff, hdupIff, hAl]
          simp [hlke]
        refine ⟨rfl, by simp [hkm], by simp [hkm], by simp [hkm]⟩
    · -- cmp true: prev_ holds the first element greater than k
      obtain ⟨hk, hq, sb, hget, hBh⟩ := h5 hc
      have hkey : keyAt (Tree.node a b c d) (descend k (Tree.node a b c d)).1 = some hk := by
        rw [keyAt, hget]
        rfl
      cases B with
      | nil => cases hBh
      | cons b0 B2 =>
        have hb0 : b0 = (hk, hq) := by
          simpa using hBh
        have hkgt : k < hk := by
          have := hBgt b0 (List.mem_cons_self b0 B2)
          rw [hb0] at this
          exact this
        rw [find_insert_pos_node, hc, if_pos rfl, hkey]
        cases A with
        | nil =>
          have hlmv : lm0 = some hk := by
            rw [hlmval]
            simp [hb0]
          have hknm : k ∉ inorder (Tree.node a b c d) := by
            rw [hmemIff]
            simp
          rw [if_pos (by rw [hlmv])]
          refine ⟨rfl, by simp [hknm], by simp [hknm, hc], by simp [hc]⟩
        | cons a0 A2 =>
          have hlmv : lm0 = some a0.1 := by
            rw [hlmval]
            rfl
          have ha0le : a0.1 ≤ k := hAle a0 (List.mem_cons_self a0 A2)
          rw [if_neg (by
            rw [hlmv]
            simp only [Option.some.injEq]
            intro he
            omega)]
          have h9v := h9 hc (by simp)
          rcases hAl : (a0 :: A2).getLast? with _ | la
          · rw [List.getLast?_eq_none_iff] at hAl
            cases hAl
          · have hlala : la ∈ a0 :: A2 := mem_of_getLast?_eq hAl
            have hlale : la.1 ≤ k := hAle la hlala
            rw [hAl] at h9v
            rw [h9v]
            rw [show (Option.map Prod.fst (some la)).getD 0 = la.1 from rfl]
            by_cases hlt : la.1 < k
            · rw [if_pos hlt]
              have hknm : k ∉ inorder (Tree.node a b c d) := by
                rw [hmemIff, hdupIff, hAl]
                simp only [Option.map_some', Option.some.injEq]
                intro he
                omega
              refine ⟨rfl, by simp [hknm], by simp [hknm, hc], by simp [hc]⟩
            · rw [if_neg hlt]
              have hlke : la.1 = k := le_antisymm hlale (not_lt.mp hlt)
              have hkm : k ∈ inorder (Tree.node a b c d) := by
                rw [hmemIff, hdupIff, hAl]
                simp [hlke]
              refine ⟨rfl, by simp [hkm], by simp [hkm], by simp [hkm]⟩

theorem find_insert_pos_rng (s : TState) (z : List Int) (k : Int) :
    find_insert_pos { s with rng := z } k = find_insert_pos s k := by
  obtain ⟨t, a, b, c⟩ := s
  rfl

theorem Invariant_rng (s : TState) (z : List Int) :
    Invariant { s with rng := z } ↔ Invariant s := by
  obtain ⟨t, a, b, c⟩ := s
  exact Iff.rfl

theorem getLast?_map_fst (l : List (Int × Int)) :
    (l.map Prod.fst).getLast? = l.getLast?.map Prod.fst := by
  induction l with
  | nil => rfl
  | cons a l2 ih =>
    cases l2 with
    | nil => rfl
    | cons b l3 =>
      rw [List.map_cons, List.map_cons, List.getLast?_cons_cons, List.getLast?_cons_cons,
        ← List.map_cons]
      exact ih

/-- Invariant preservation of the attach-and-rebalance step following a
non-duplicate position search. -/
theorem insert_rebalance_fip_invariant (s : TState) (k pr : Int) (fl : Bool)
    (hInv : Invariant s)
    (hb : ((find_insert_pos s k).2 = InsPos.LEFT ∧ fl = true) ∨
          ((find_insert_pos s k).2 = InsPos.RIGHT ∧ fl = false)) :
    Invariant (insert_rebalance s (find_insert_pos s k).1 fl k pr) := by
  obtain ⟨t, lm0, rm0, rng0⟩ := s
  cases t with
  | nil =>
    have hfip : find_insert_pos ⟨Tree.nil, lm0, rm0, rng0⟩ k = (Addr.hdr, InsPos.LEFT) := rfl
    rw [hfip]
    show Invariant ⟨single k pr, some k, some k, rng0⟩
    refine ⟨rfl, rfl, rfl, rfl, by simp [single, Tree.pinorder, inorder]⟩
  | node a0 b0 c0 d0 =>
    have hInv2 := hInv
    obtain ⟨hBST, hHeap, hlm, hrm, hnd⟩ := hInv2
    replace hBST : isBST (Tree.node a0 b0 c0 d0) = true := hBST
    replace hHeap : isHeap (Tree.node a0 b0 c0 d0) = true := hHeap
    replace hlm : lm0 = (inorder (Tree.node a0 b0 c0 d0)).head? := hlm
    replace hrm : rm0 = (inorder (Tree.node a0 b0 c0 d0)).getLast? := hrm
    obtain ⟨haddr, hdup, hleft, hright⟩ :=
      find_insert_pos_spec ⟨Tree.node a0 b0 c0 d0, lm0, rm0, rng0⟩ k hInv (by simp)
    obtain ⟨A, B, hsp, hAle, hBgt, hatt, h5, h6, h7, h8, h9⟩ :=
      descend_master k (Tree.node a0 b0 c0 d0) hBST (by simp)
    have hsort : sortedP (pinorder (Tree.node a0 b0 c0 d0)) := (isBST_iff_sorted _).mp hBST
    have hsort2 : List.Pairwise keyLt (A ++ B) := by
      have h0 : List.Pairwise keyLt (pinorder (Tree.node a0 b0 c0 d0)) := hsort
      rwa [hsp] at h0
    rw [List.pairwise_append] at hsort2
    obtain ⟨hsortA, hsortB, hcross⟩ := hsort2
    obtain ⟨hih1, hih2, hih3⟩ := insTB_heap k pr (Tree.node a0 b0 c0 d0) hHeap (by simp)
    have hlmv : lm0 = ((A ++ B).head?).map Prod.fst := by
      rw [hlm, inorder_head, hsp]
    have hrmv : rm0 = ((A ++ B).getLast?).map Prod.fst := by
      rw [hrm, inorder_getLast, hsp]
    rcases hb with ⟨hpos, hfl⟩ | ⟨hpos, hfl⟩
    · -- LEFT, fl = true
      subst hfl
      obtain ⟨hknm, hc⟩ := hleft.mp hpos
      replace hc : (descend k (Tree.node a0 b0 c0 d0)).2 = true := hc
      replace hknm : k ∉ inorder (Tree.node a0 b0 c0 d0) := hknm
      have hAlt : ∀ a2 ∈ A, a2.1 < k := by
        intro a2 ha2
        refine lt_of_le_of_ne (hAle a2 ha2) fun he => hknm ?_
        unfold inorder
        rw [hsp, List.map_append]
        exact List.mem_append.mpr (Or.inl (he ▸ List.mem_map_of_mem Prod.fst ha2))
      have hksorted : sortedP (A ++ (k, pr) :: B) := by
        show List.Pairwise keyLt (A ++ (k, pr) :: B)
        rw [List.pairwise_append]
        refine ⟨hsortA, List.pairwise_cons.mpr ⟨fun b2 hb2 => hBgt b2 hb2, hsortB⟩, ?_⟩
        intro a2 ha2 b2 hb2
        rcases List.mem_cons.mp hb2 with rfl | hb2
        · exact hAlt a2 ha2
        · exact hcross a2 ha2 b2 hb2
      obtain ⟨hk, hq, sb, hget, hBh⟩ := h5 hc
      have hkey : keyAt (Tree.node a0 b0 c0 d0)
          (descend k (Tree.node a0 b0 c0 d0)).1 = some hk := by
        rw [keyAt, hget]
        rfl
      cases B with
      | nil => cases hBh
      | cons bb0 B2 =>
        have hbb0 : bb0 = (hk, hq) := by simpa using hBh
        have hkgt : k < hk := by
          have h2 := hBgt bb0 (List.mem_cons_self bb0 B2)
          rw [hbb0] at h2
          exact h2
        rw [haddr]
        show Invariant ⟨bubbleUp (setSub (Tree.node a0 b0 c0 d0)
            ((descend k (Tree.node a0 b0 c0 d0)).1 ++ [Dir.dL]) (single k pr))
            (Dir.dL :: (descend k (Tree.node a0 b0 c0 d0)).1.reverse),
          if keyAt (Tree.node a0 b0 c0 d0) (descend k (Tree.node a0 b0 c0 d0)).1 = lm0
            then some k else lm0, rm0, rng0⟩
        have htr : bubbleUp (setSub (Tree.node a0 b0 c0 d0)
            ((descend k (Tree.node a0 b0 c0 d0)).1 ++ [Dir.dL]) (single k pr))
            (Dir.dL :: (descend k (Tree.node a0 b0 c0 d0)).1.reverse) =
            (insTB k pr (Tree.node a0 b0 c0 d0)).1 := by
          unfold insTB bubbleUp
          rw [hc]
          rfl
        have hpin : pinorder (insTB k pr (Tree.node a0 b0 c0 d0)).1 =
            A ++ (k, pr) :: (bb0 :: B2) := by
          unfold insTB
          rw [bubbleUpF_pinorder]
          exact hatt pr
        have hio : inorder (insTB k pr (Tree.node a0 b0 c0 d0)).1 =
            (A ++ (k, pr) :: (bb0 :: B2)).map Prod.fst := by
          unfold inorder
          rw [hpin]
        rw [htr, hkey]
        refine ⟨?_, ?_, ?_, ?_, ?_⟩
        · show isBST (insTB k pr (Tree.node a0 b0 c0 d0)).1 = true
          rw [isBST_iff_sorted, hpin]
          exact hksorted
        · exact hih1
        · show (if some hk = lm0 then some k else lm0) =
            (inorder (insTB k pr (Tree.node a0 b0 c0 d0)).1).head?
          rw [hio, head?_map_fst]
          cases A with
          | nil =>
            rw [if_pos (by rw [hlmv]; simp [hbb0])]
            rfl
          | cons aa0 A2 =>
            have h1 : aa0.1 < k := hAlt aa0 (List.mem_cons_self aa0 A2)
            have hlmv2 : lm0 = some aa0.1 := by
              rw [hlmv]
              rfl
            rw [if_neg (by
              rw [hlmv2]
              intro he
              have h2 : hk = aa0.1 := Option.some.inj he
              omega)]
            rw [hlmv2]
            rfl
        · show rm0 = (inorder (insTB k pr (Tree.node a0 b0 c0 d0)).1).getLast?
          rw [hio, getLast?_map_fst, hrmv,
            List.getLast?_append_of_ne_nil _ (by simp : bb0 :: B2 ≠ []),
            List.getLast?_append_of_ne_nil _ (by simp : (k, pr) :: bb0 :: B2 ≠ []),
            List.getLast?_cons_cons]
        · show (inorder (insTB k pr (Tree.node a0 b0 c0 d0)).1).Nodup
          rw [hio]
          exact sortedP_nodup hksorted
    · -- RIGHT, fl = false
      subst hfl
      obtain ⟨hknm, hc⟩ := hright.mp hpos
      replace hc : (descend k (Tree.node a0 b0 c0 d0)).2 = false := hc
      replace hknm : k ∉ inorder (Tree.node a0 b0 c0 d0) := hknm
      have hAlt : ∀ a2 ∈ A, a2.1 < k := by
        intro a2 ha2
        refine lt_of_le_of_ne (hAle a2 ha2) fun he => hknm ?_
        unfold inorder
        rw [hsp, List.map_append]
        exact List.mem_append.mpr (Or.inl (he ▸ List.mem_map_of_mem Prod.fst ha2))
      have hksorted : sortedP (A ++ (k, pr) :: B) := by
        show List.Pairwise keyLt (A ++ (k, pr) :: B)
        rw [List.pairwise_append]
        refine ⟨hsortA, List.pairwise_cons.mpr ⟨fun b2 hb2 => hBgt b2 hb2, hsortB⟩, ?_⟩
        intro a2 ha2 b2 hb2
        rcases List.mem_cons.mp hb2 with rfl | hb2
        · exact hAlt a2 ha2
        · exact hcross a2 ha2 b2 hb2
      obtain ⟨lk, lq, sb, hget, hAl⟩ := h6 hc
      have hkey : keyAt (Tree.node a0 b0 c0 d0)
          (descend k (Tree.node a0 b0 c0 d0)).1 = some lk := by
        rw [keyAt, hget]
        rfl
      have hAne : A ≠ [] := by
        intro he
        rw [he] at hAl
        cases hAl
      have hlkle : lk ≤ k := hAle (lk, lq) (mem_of_getLast?_eq hAl)
      rw [haddr]
      show Invariant ⟨bubbleUp (setSub (Tree.node a0 b0 c0 d0)
          ((descend k (Tree.node a0 b0 c0 d0)).1 ++ [Dir.dR]) (single k pr))
          (Dir.dR :: (descend k (Tree.node a0 b0 c0 d0)).1.reverse),
        lm0,
        if keyAt (Tree.node a0 b0 c0 d0) (descend k (Tree.node a0 b0 c0 d0)).1 = rm0
          then some k else rm0, rng0⟩
      have htr : bubbleUp (setSub (Tree.node a0 b0 c0 d0)
          ((descend k (Tree.node a0 b0 c0 d0)).1 ++ [Dir.dR]) (single k pr))
          (Dir.dR :: (descend k (Tree.node a0 b0 c0 d0)).1.reverse) =
          (insTB k pr (Tree.node a0 b0 c0 d0)).1 := by
        unfold insTB bubbleUp
        rw [hc]
        rfl
      have hpin : pinorder (insTB k pr (Tree.node a0 b0 c0 d0)).1 =
          A ++ (k, pr) :: B := by
        unfold insTB
        rw [bubbleUpF_pinorder]
        exact hatt pr
      have hio : inorder (insTB k pr (Tree.node a0 b0 c0 d0)).1 =
          (A ++ (k, pr) :: B).map Prod.fst := by
        unfold inorder
        rw [hpin]
      rw [htr, hkey]
      refine ⟨?_, ?_, ?_, ?_, ?_⟩
      · show isBST (insTB k pr (Tree.node a0 b0 c0 d0)).1 = true
        rw [isBST_iff_sorted, hpin]
        exact hksorted
      · exact hih1
      · show lm0 = (inorder (insTB k pr (Tree.node a0 b0 c0 d0)).1).head?
        rw [hio, head?_map_fst, hlmv, List.head?_append_of_ne_nil _ hAne, List.head?_append_of_ne_nil _ hAne]
      · show (if some lk = rm0 then some k else rm0) =
          (inorder (insTB k pr (Tree.node a0 b0 c0 d0)).1).getLast?
        rw [hio, getLast?_map_fst]
        cases B with
        | nil =>
          rw [if_pos (by
            rw [hrmv, List.append_nil, hAl]
            rfl)]
          rw [List.getLast?_append_of_ne_nil _ (by simp : [(k, pr)] ≠ [])]
          rfl
        | cons bb0 B2 =>
          have hbgt : k < bb0.1 := hBgt bb0 (List.mem_cons_self bb0 B2)
          have hrmv2 : rm0 = ((bb0 :: B2).getLast?).map Prod.fst := by
            rw [hrmv, List.getLast?_append_of_ne_nil _ (by simp : bb0 :: B2 ≠ [])]
          rcases hgl : (bb0 :: B2).getLast? with _ | lb
          · rw [List.getLast?_eq_none_iff] at hgl
            cases hgl
          · have hlb : lb ∈ bb0 :: B2 := mem_of_getLast?_eq hgl
            have hlbgt : k < lb.1 := hBgt lb hlb
            rw [if_neg (by
              rw [hrmv2, hgl]
              intro he
              have h2 : lk = lb.1 := Option.some.inj he
              omega)]
            rw [hrmv2,
              List.getLast?_append_of_ne_nil _ (by simp : (k, pr) :: bb0 :: B2 ≠ []),
              List.getLast?_cons_cons]
      · show (inorder (insTB k pr (Tree.node a0 b0 c0 d0)).1).Nodup
        rw [hio]
        exact sortedP_nodup hksorted

/-- Invariant preservation of treap::insert_impl (both insert overloads). -/
theorem insert_impl_invariant (s : TState) (k : Int) (hInv : Invariant s) :
    Invariant (insert_impl s k).1 := by
  cases hpi : (find_insert_pos s k).2 with
  | DUPLICATE =>
    have h1 : (insert_impl s k).1 = s := by
      simp only [insert_impl, hpi]
    rw [h1]
    exact hInv
  | LEFT =>
    have h1 : (insert_impl s k).1 =
        insert_rebalance { s with rng := (urngNext s.rng).2 } (find_insert_pos s k).1 true
          k (urngNext s.rng).1 := by
      simp only [insert_impl, hpi]
    have h2 := find_insert_pos_rng s (urngNext s.rng).2 k
    rw [h1, ← h2]
    exact insert_rebalance_fip_invariant _ k _ true ((Invariant_rng s _).mpr hInv)
      (Or.inl ⟨by rw [h2]; exact hpi, rfl⟩)
  | RIGHT =>
    have h1 : (insert_impl s k).1 =
        insert_rebalance { s with rng := (urngNext s.rng).2 } (find_insert_pos s k).1 false
          k (urngNext s.rng).1 := by
      simp only [insert_impl, hpi]
    have h2 := find_insert_pos_rng s (urngNext s.rng).2 k
    rw [h1, ← h2]
    exact insert_rebalance_fip_invariant _ k _ false ((Invariant_rng s _).mpr hInv)
      (Or.inr ⟨by rw [h2]; exact hpi, rfl⟩)

/-- Invariant preservation of treap::emplace. -/
theorem emplace_invariant (s : TState) (k : Int) (hInv : Invariant s) :
    Invariant (emplace s k).1 := by
  have hInv1 : Invariant { s with rng := (urngNext s.rng).2 } := (Invariant_rng s _).mpr hInv
  cases hpi : (find_insert_pos { s with rng := (urngNext s.rng).2 } k).2 with
  | DUPLICATE =>
    have h1 : (emplace s k).1 = { s with rng := (urngNext s.rng).2 } := by
      simp only [emplace, hpi]
    rw [h1]
    exact hInv1
  | LEFT =>
    have h1 : (emplace s k).1 = insert_rebalance { s with rng := (urngNext s.rng).2 }
        (find_insert_pos { s with rng := (urngNext s.rng).2 } k).1 true k
        (urngNext s.rng).1 := by
      simp only [emplace, hpi]
    rw [h1]
    exact insert_rebalance_fip_invariant _ k _ true hInv1 (Or.inl ⟨hpi, rfl⟩)
  | RIGHT =>
    have h1 : (emplace s k).1 = insert_rebalance { s with rng := (urngNext s.rng).2 }
        (find_insert_pos { s with rng := (urngNext s.rng).2 } k).1 false k
        (urngNext s.rng).1 := by
      simp only [emplace, hpi]
    rw [h1]
    exact insert_rebalance_fip_invariant _ k _ false hInv1 (Or.inr ⟨hpi, rfl⟩)

/-- The rotate-down loop of erase_rebalance drops exactly the rotated-down
node from the in-order sequence. -/
theorem delNode_pinorder (l : Tree) (x q : Int) (r : Tree) :
    pinorder (delNode l x q r) = pinorder l ++ pinorder r := by
  induction l, x, q, r using delNode.induct with
  | case1 x q => simp [delNode, pinorder]
  | case2 a y py b x q ih => simp [delNode, pinorder, ih]
  | case3 x q c z pz d ih => simp [delNode, pinorder, ih]
  | case4 a y py b x q c z pz d h ih =>
    simp only [delNode]
    rw [if_pos h]
    simp [pinorder, ih]
  | case5 a y py b x q c z pz d h ih =>
    simp only [delNode]
    rw [if_neg h]
    simp [pinorder, ih]

theorem prioBndP_delNode {l : Tree} {x q : Int} {r : Tree} {b : Int}
    (h1 : prioBndP l b) (h2 : prioBndP r b) : prioBndP (delNode l x q r) b := by
  intro a ha
  rw [delNode_pinorder] at ha
  rcases List.mem_append.mp ha with h | h
  · exact h1 a h
  · exact h2 a h

/-- The rotate-down loop preserves heap order of the two merged subtrees. -/
theorem delNode_isHeap (l : Tree) (x q : Int) (r : Tree) :
    isHeap l = true → isHeap r = true → isHeap (delNode l x q r) = true := by
  induction l, x, q, r using delNode.induct with
  | case1 x q =>
    intro _ _
    simp [delNode, isHeap]
  | case2 a y py b x q ih =>
    intro hl _
    simp only [isHeap, Bool.and_eq_true] at hl
    obtain ⟨⟨⟨hpa, hpb⟩, hha⟩, hhb⟩ := hl
    simp only [delNode]
    simp only [isHeap, Bool.and_eq_true]
    refine ⟨⟨⟨hpa, ?_⟩, hha⟩, ih hhb rfl⟩
    exact prioLe_of_bnd (prioBndP_delNode (isHeap_prioBnd hhb hpb) (prioBndP_nil _))
  | case3 x q c z pz d ih =>
    intro _ hr
    simp only [isHeap, Bool.and_eq_true] at hr
    obtain ⟨⟨⟨hpc, hpd⟩, hhc⟩, hhd⟩ := hr
    simp only [delNode]
    simp only [isHeap, Bool.and_eq_true]
    refine ⟨⟨⟨?_, hpd⟩, ih rfl hhc⟩, hhd⟩
    exact prioLe_of_bnd (prioBndP_delNode (prioBndP_nil _) (isHeap_prioBnd hhc hpc))
  | case4 a y py b x q c z pz d h ih =>
    intro hl hr
    simp only [isHeap, Bool.and_eq_true] at hl
    obtain ⟨⟨⟨hpa, hpb⟩, hha⟩, hhb⟩ := hl
    simp only [delNode]
    rw [if_pos h]
    simp only [isHeap, Bool.and_eq_true]
    refine ⟨⟨⟨hpa, ?_⟩, hha⟩, ih hhb hr⟩
    refine prioLe_of_bnd (prioBndP_delNode (isHeap_prioBnd hhb hpb) ?_)
    exact isHeap_prioBnd hr (prioLe_of_rootPrio (by simp [rootPrio]; omega))
  | case5 a y py b x q c z pz d h ih =>
    intro hl hr
    simp only [isHeap, Bool.and_eq_true] at hr
    obtain ⟨⟨⟨hpc, hpd⟩, hhc⟩, hhd⟩ := hr
    simp only [delNode]
    rw [if_neg h]
    simp only [isHeap, Bool.and_eq_true]
    refine ⟨⟨⟨?_, hpd⟩, ih hl hhc⟩, hhd⟩
    refine prioLe_of_bnd (prioBndP_delNode ?_ (isHeap_prioBnd hhc hpc))
    refine isHeap_prioBnd hl (prioLe_of_rootPrio (by simp [rootPrio]; omega))

/-- Every priority of a subtree is bounded whenever those of the tree are. -/
theorem prioBndP_of_getSub {t u : Tree} {p : List Dir} {b : Int}
    (hg : getSub t p = some u) (hb : prioBndP t b) : prioBndP u b := by
  obtain ⟨A, B, h1, _⟩ := setSub_context hg
  intro a ha
  refine hb a ?_
  rw [h1]
  exact List.mem_append.mpr (Or.inl (List.mem_append.mpr (Or.inr ha)))

/-- Replacing a subtree by one with bounded priorities keeps the bound. -/
theorem prioBndP_setSub {t u v : Tree} {p : List Dir} {b : Int}
    (hg : getSub t p = some u) (ht : prioBndP t b) (hv : prioBndP v b) :
    prioBndP (setSub t p v) b := by
  obtain ⟨A, B, h1, h2⟩ := setSub_context hg
  intro a ha
  rw [h2 v] at ha
  rcases List.mem_append.mp ha with h | h
  · rcases List.mem_append.mp h with h | h
    · exact ht a (by
        rw [h1]
        exact List.mem_append.mpr (Or.inl (List.mem_append.mpr (Or.inl h))))
    · exact hv a h
  · exact ht a (by
      rw [h1]
      exact List.mem_append.mpr (Or.inr h))

/-- Subtrees of a heap are heaps. -/
theorem isHeap_getSub {t u : Tree} {p : List Dir} (h : getSub t p = some u)
    (hb : isHeap t = true) : isHeap u = true := by
  induction p generalizing t with
  | nil =>
    simp only [getSub, Option.some.injEq] at h
    exact h ▸ hb
  | cons d p2 ih =>
    cases t with
    | nil => simp [getSub] at h
    | node l x q r =>
      simp only [isHeap, Bool.and_eq_true] at hb
      cases d with
      | dL => exact ih (by simpa [getSub] using h) hb.1.2
      | dR => exact ih (by simpa [getSub] using h) hb.2

/-- Replacing a subtree of a heap by a heap with no larger priorities
yields a heap. -/
theorem isHeap_setSub {t u v : Tree} {p : List Dir}
    (hg : getSub t p = some u) (ht : isHeap t = true) (hv : isHeap v = true)
    (hbnd : ∀ b, prioBndP u b → prioBndP v b) :
    isHeap (setSub t p v) = true := by
  induction p generalizing t with
  | nil =>
    cases t with
    | nil => exact hv
    | node l x q r => exact hv
  | cons d p2 ih =>
    cases t with
    | nil => simp [getSub] at hg
    | node l x q r =>
      simp only [isHeap, Bool.and_eq_true] at ht
      obtain ⟨⟨⟨hpl, hpr⟩, hhl⟩, hhr⟩ := ht
      cases d with
      | dL =>
        replace hg : getSub l p2 = some u := hg
        show isHeap (Tree.node (setSub l p2 v) x q r) = true
        simp only [isHeap, Bool.and_eq_true]
        have hbl : prioBndP l q := isHeap_prioBnd hhl hpl
        exact ⟨⟨⟨prioLe_of_bnd
          (prioBndP_setSub hg hbl (hbnd q (prioBndP_of_getSub hg hbl))), hpr⟩,
          ih hg hhl⟩, hhr⟩
      | dR =>
        replace hg : getSub r p2 = some u := hg
        show isHeap (Tree.node l x q (setSub r p2 v)) = true
        simp only [isHeap, Bool.and_eq_true]
        have hbr : prioBndP r q := isHeap_prioBnd hhr hpr
        exact ⟨⟨⟨hpl, prioLe_of_bnd
          (prioBndP_setSub hg hbr (hbnd q (prioBndP_of_getSub hg hbr)))⟩,
          hhl⟩, ih hg hhr⟩

/-- The descent loop of find_lowest reaches the head of the in-order
sequence. -/
theorem keyAt_lowPath (t : Tree) :
    keyAt t (lowPath t) = (pinorder t).head?.map Prod.fst := by
  induction t with
  | nil => rfl
  | node l x q r ihl ihr =>
    cases l with
    | nil => rfl
    | node a b c d =>
      rw [show lowPath (Tree.node (Tree.node a b c d) x q r) =
          Dir.dL :: lowPath (Tree.node a b c d) from rfl,
        keyAt_cons_dL, ihl]
      rw [show pinorder (Tree.node (Tree.node a b c d) x q r) =
          pinorder (Tree.node a b c d) ++ (x, q) :: pinorder r from rfl,
        List.head?_append_of_ne_nil _ (by simp [pinorder])]

/-- The descent loop of find_highest reaches the last element of the
in-order sequence. -/
theorem keyAt_highPath (t : Tree) :
    keyAt t (highPath t) = (pinorder t).getLast?.map Prod.fst := by
  induction t with
  | nil => rfl
  | node l x q r ihl ihr =>
    cases r with
    | nil =>
      rw [show keyAt (Tree.node l x q Tree.nil) (highPath (Tree.node l x q Tree.nil)) =
          some x from rfl]
      rw [show pinorder (Tree.node l x q Tree.nil) = pinorder l ++ [(x, q)] from rfl,
        List.getLast?_append_of_ne_nil _ (by simp : ([(x, q)] : List (Int × Int)) ≠ [])]
      rfl
    | node a b c d =>
      rw [show highPath (Tree.node l x q (Tree.node a b c d)) =
          Dir.dR :: highPath (Tree.node a b c d) from rfl,
        keyAt_cons_dR, ihr]
      rw [show pinorder (Tree.node l x q (Tree.node a b c d)) =
          pinorder l ++ (x, q) :: pinorder (Tree.node a b c d) from rfl,
        List.getLast?_append_of_ne_nil _
          (by simp [pinorder] : (x, q) :: pinorder (Tree.node a b c d) ≠ []),
        show ((x, q) :: pinorder (Tree.node a b c d) : List (Int × Int)) =
          [(x, q)] ++ pinorder (Tree.node a b c d) from rfl,
        List.getLast?_append_of_ne_nil _ (by simp [pinorder])]

/-- Invariant preservation of erase_rebalance acting on the node at any
address (hence of erase(iterator) and every erase overload built on it). -/
theorem eraseAt_invariant (s : TState) (p : List Dir) (hInv : Invariant s) :
    Invariant (eraseAt s p) := by
  obtain ⟨t, lm0, rm0, rng0⟩ := s
  obtain ⟨hBST, hHeap, hlm, hrm, hnd⟩ := hInv
  replace hBST : isBST t = true := hBST
  replace hHeap : isHeap t = true := hHeap
  replace hlm : lm0 = (inorder t).head? := hlm
  replace hrm : rm0 = (inorder t).getLast? := hrm
  replace hnd : (inorder t).Nodup := hnd
  cases hg : getSub t p with
  | none =>
    have h1 : eraseAt ⟨t, lm0, rm0, rng0⟩ p = ⟨t, lm0, rm0, rng0⟩ := by
      simp only [eraseAt, hg]
    rw [h1]
    exact ⟨hBST, hHeap, hlm, hrm, hnd⟩
  | some u =>
    cases u with
    | nil =>
      have h1 : eraseAt ⟨t, lm0, rm0, rng0⟩ p = ⟨t, lm0, rm0, rng0⟩ := by
        simp only [eraseAt, hg]
      rw [h1]
      exact ⟨hBST, hHeap, hlm, hrm, hnd⟩
    | node lu x q ru =>
      by_cases hnil : setSub t p (delNode lu x q ru) = Tree.nil
      · have h1 : eraseAt ⟨t, lm0, rm0, rng0⟩ p = ⟨Tree.nil, none, none, rng0⟩ := by
          simp only [eraseAt, hg]
          rw [if_pos hnil]
        rw [h1]
        exact ⟨rfl, rfl, rfl, rfl, List.nodup_nil⟩
      · have h1 : eraseAt ⟨t, lm0, rm0, rng0⟩ p =
            ⟨setSub t p (delNode lu x q ru),
             if keyAt t p = lm0 then
               keyAt (setSub t p (delNode lu x q ru))
                 (lowPath (setSub t p (delNode lu x q ru))) else lm0,
             if keyAt t p = rm0 then
               keyAt (setSub t p (delNode lu x q ru))
                 (highPath (setSub t p (delNode lu x q ru))) else rm0,
             rng0⟩ := by
          simp only [eraseAt, hg]
          rw [if_neg hnil]
        rw [h1]
        obtain ⟨A, B, hctx1, hctx2⟩ := setSub_context hg
        have ht1pin : pinorder (setSub t p (delNode lu x q ru)) =
            A ++ (pinorder lu ++ pinorder ru) ++ B := by
          rw [hctx2, delNode_pinorder]
        have htpin : pinorder t = A ++ (pinorder lu ++ (x, q) :: pinorder ru) ++ B := by
          rw [hctx1]
          rfl
        have hsubl : pinorder (setSub t p (delNode lu x q ru)) <+ pinorder t := by
          rw [ht1pin, htpin]
          refine List.Sublist.append (List.Sublist.append (List.Sublist.refl A) ?_)
            (List.Sublist.refl B)
          exact List.Sublist.append (List.Sublist.refl _) (List.sublist_cons_self _ _)
        have hsortT : List.Pairwise keyLt (pinorder t) := (isBST_iff_sorted t).mp hBST
        have hsort1 : sortedP (pinorder (setSub t p (delNode lu x q ru))) :=
          List.Pairwise.sublist hsubl hsortT
        have hkp : keyAt t p = some x := by
          show (getSub t p).bind rootKey = some x
          rw [hg]
          rfl
        have hheapU : isHeap (Tree.node lu x q ru) = true := isHeap_getSub hg hHeap
        simp only [isHeap, Bool.and_eq_true] at hheapU
        obtain ⟨⟨⟨hplu, hpru⟩, hhlu⟩, hhru⟩ := hheapU
        refine ⟨(isBST_iff_sorted _).mpr hsort1, ?_, ?_, ?_, ?_⟩
        · refine isHeap_setSub hg hHeap (delNode_isHeap lu x q ru hhlu hhru) ?_
          intro b hb a ha
          rw [delNode_pinorder] at ha
          refine hb a ?_
          show a ∈ pinorder lu ++ (x, q) :: pinorder ru
          rcases List.mem_append.mp ha with h | h
          · exact List.mem_append.mpr (Or.inl h)
          · exact List.mem_append.mpr (Or.inr (List.mem_cons_of_mem _ h))
        · show (if keyAt t p = lm0 then _ else lm0) =
            (inorder (setSub t p (delNode lu x q ru))).head?
          by_cases hcl : keyAt t p = lm0
          · rw [if_pos hcl, keyAt_lowPath, inorder_head]
          · rw [if_neg hcl, hlm]
            by_cases hP : (A ++ pinorder lu : List (Int × Int)) = []
            · exfalso
              apply hcl
              rw [hkp, hlm, inorder_head, htpin,
                (List.append_eq_nil.mp hP).1, (List.append_eq_nil.mp hP).2]
              rfl
            · have e1 : pinorder t =
                  (A ++ pinorder lu) ++ ((x, q) :: (pinorder ru ++ B)) := by
                rw [htpin]
                simp
              have e2 : pinorder (setSub t p (delNode lu x q ru)) =
                  (A ++ pinorder lu) ++ (pinorder ru ++ B) := by
                rw [ht1pin]
                simp
              rw [inorder_head, inorder_head, e1, e2,
                List.head?_append_of_ne_nil _ hP, List.head?_append_of_ne_nil _ hP]
        · show (if keyAt t p = rm0 then _ else rm0) =
            (inorder (setSub t p (delNode lu x q ru))).getLast?
          by_cases hcr : keyAt t p = rm0
          · rw [if_pos hcr, keyAt_highPath, inorder_getLast]
          · rw [if_neg hcr, hrm]
            by_cases hQ : (pinorder ru ++ B : List (Int × Int)) = []
            · exfalso
              apply hcr
              rw [hkp, hrm, inorder_getLast, htpin,
                (List.append_eq_nil.mp hQ).1, (List.append_eq_nil.mp hQ).2]
              rw [show (A ++ (pinorder lu ++ [(x, q)] : List (Int × Int)) ++ [] : List (Int × Int)) =
                (A ++ pinorder lu) ++ [(x, q)] from by simp]
              rw [List.getLast?_append_of_ne_nil _
                (by simp : ([(x, q)] : List (Int × Int)) ≠ [])]
              rfl
            · have e1 : pinorder t =
                  ((A ++ pinorder lu) ++ [(x, q)]) ++ (pinorder ru ++ B) := by
                rw [htpin]
                simp
              have e2 : pinorder (setSub t p (delNode lu x q ru)) =
                  (A ++ pinorder lu) ++ (pinorder ru ++ B) := by
                rw [ht1pin]
                simp
              rw [inorder_getLast, inorder_getLast, e1, e2,
                List.getLast?_append_of_ne_nil _ hQ, List.getLast?_append_of_ne_nil _ hQ]
        · show (inorder (setSub t p (delNode lu x q ru))).Nodup
          exact List.Nodup.sublist (List.Sublist.map Prod.fst hsubl) hnd

/-- Invariant preservation of treap::erase(const value_type&). -/
theorem eraseKey_invariant (s : TState) (k : Int) (hInv : Invariant s) :
    Invariant (eraseKey s k).1 := by
  cases hf : find_impl s.tree k with
  | none =>
    have h1 : (eraseKey s k).1 = s := by
      simp only [eraseKey, hf]
    rw [h1]
    exact hInv
  | some p =>
    have h1 : (eraseKey s k).1 = eraseAt s p := by
      simp only [eraseKey, hf]
    rw [h1]
    exact eraseAt_invariant s p hInv

/-- Invariant preservation of treap::erase(iterator). -/
theorem eraseIter_invariant (s : TState) (it : Addr) (hInv : Invariant s) :
    Invariant (eraseIter s it).1 := by
  cases it with
  | hdr =>
    have h1 : (eraseIter s Addr.hdr).1 = s := rfl
    rw [h1]
    exact hInv
  | inTree p =>
    have h1 : (eraseIter s (Addr.inTree p)).1 = eraseAt s p := rfl
    rw [h1]
    exact eraseAt_invariant s p hInv

/-- Invariant preservation of the erase(iterator, iterator) loop. -/
theorem eraseRangeF_invariant :
    ∀ (n : Nat) (s : TState) (first : Addr) (lastId : Option Int),
      Invariant s → Invariant (eraseRangeF n s first lastId)
  | 0, s, _, _, h => h
  | Nat.succ n, s, first, lastId, h => by
    unfold eraseRangeF
    split
    · exact h
    · exact eraseRangeF_invariant n _ _ _ (eraseIter_invariant s first h)

/-- Invariant preservation of treap::erase(iterator, iterator). -/
theorem eraseRange_invariant (s : TState) (first last : Addr) (hInv : Invariant s) :
    Invariant (eraseRange s first last) :=
  eraseRangeF_invariant _ s first _ hInv

/-- Invariant preservation of the range and initializer_list inserts. -/
theorem insert_range_invariant (s : TState) (ks : List Int) (hInv : Invariant s) :
    Invariant (insert_range s ks) := by
  induction ks generalizing s with
  | nil => exact hInv
  | cons k ks ih =>
    have hstep : insert_range s (k :: ks) = insert_range (insert_impl s k).1 ks := by
      cases hpi : (find_insert_pos s k).2 <;>
        simp only [insert_range, insert_impl, hpi]
    rw [hstep]
    exact ih _ (insert_impl_invariant s k hInv)

/-- Invariant preservation of treap::clear. -/
theorem clearT_invariant (s : TState) : Invariant (clearT s) :=
  ⟨rfl, rfl, rfl, rfl, List.nodup_nil⟩

/-- Subtree lookup along a concatenated path. -/
theorem getSub_append (p w : List Dir) :
    ∀ t : Tree, getSub t (p ++ w) = (getSub t p).bind (fun u => getSub u w) := by
  induction p with
  | nil =>
    intro t
    cases t <;> rfl
  | cons d p2 ih =>
    intro t
    cases t with
    | nil => cases d <;> rfl
    | node l x q r => cases d <;> exact ih _

/-- Subtree replacement along a concatenated path factors through the
intermediate subtree. -/
theorem setSub_append (p w : List Dir) :
    ∀ (t u v : Tree), getSub t p = some u →
      setSub t (p ++ w) v = setSub t p (setSub u w v) := by
  induction p with
  | nil =>
    intro t u v hg
    rw [show getSub t [] = some t from by cases t <;> rfl] at hg
    obtain rfl := Option.some.inj hg
    cases t <;> rfl
  | cons d p2 ih =>
    intro t u v hg
    cases t with
    | nil => cases d <;> cases hg
    | node l x q r =>
      cases d with
      | dL =>
        replace hg : getSub l p2 = some u := hg
        show Tree.node (setSub l (p2 ++ w) v) x q r = Tree.node (setSub l p2 (setSub u w v)) x q r
        rw [ih l u v hg]
      | dR =>
        replace hg : getSub r p2 = some u := hg
        show Tree.node l x q (setSub r (p2 ++ w) v) = Tree.node l x q (setSub r p2 (setSub u w v))
        rw [ih r u v hg]

/-- A payload-bearing address denotes a node with that payload. -/
theorem getSub_of_keyAt {t : Tree} {p : List Dir} {x : Int} (h : keyAt t p = some x) :
    ∃ l q r, getSub t p = some (Tree.node l x q r) := by
  cases hg : getSub t p with
  | none => simp [keyAt, hg] at h
  | some u =>
    cases u with
    | nil => simp [keyAt, hg, rootKey] at h
    | node l y q r =>
      have hx : y = x := by simpa [keyAt, hg, rootKey] using h
      subst hx
      exact ⟨l, q, r, rfl⟩

/-- The empty in-order sequence characterises the empty tree. -/
theorem pinorder_eq_nil_iff : ∀ t : Tree, pinorder t = [] ↔ t = Tree.nil := by
  intro t
  cases t with
  | nil => simp [pinorder]
  | node l x q r =>
    simp [pinorder]

/-- The find_highest descent: its target node, the last in-order element,
and the effect of attaching past its free right slot. -/
theorem highSub_spec : ∀ t : Tree, t ≠ Tree.nil →
    ∃ lp xp qp, highSub t = Tree.node lp xp qp Tree.nil ∧
      getSub t (highPath t) = some (Tree.node lp xp qp Tree.nil) ∧
      (pinorder t).getLast? = some (xp, qp) ∧
      ∀ v, pinorder (setSub t (highPath t ++ [Dir.dR]) v) = pinorder t ++ pinorder v := by
  intro t
  induction t with
  | nil => intro h; exact absurd rfl h
  | node l x q r ihl ihr =>
    intro _
    cases r with
    | nil =>
      refine ⟨l, x, q, rfl, rfl, ?_, ?_⟩
      · rw [show pinorder (Tree.node l x q Tree.nil) = pinorder l ++ [(x, q)] from rfl,
          List.getLast?_append_of_ne_nil _ (by simp : ([(x, q)] : List (Int × Int)) ≠ [])]
        rfl
      · intro v
        show pinorder l ++ (x, q) :: pinorder v =
          pinorder (Tree.node l x q Tree.nil) ++ pinorder v
        show pinorder l ++ (x, q) :: pinorder v = (pinorder l ++ [(x, q)]) ++ pinorder v
        simp
    | node a b c d =>
      obtain ⟨lp, xp, qp, h1, h2, h3, h4⟩ := ihr (by simp)
      refine ⟨lp, xp, qp, ?_, ?_, ?_, ?_⟩
      · rw [show highSub (Tree.node l x q (Tree.node a b c d)) =
          highSub (Tree.node a b c d) from rfl]
        exact h1
      · rw [show highPath (Tree.node l x q (Tree.node a b c d)) =
          Dir.dR :: highPath (Tree.node a b c d) from rfl]
        exact h2
      · rw [show pinorder (Tree.node l x q (Tree.node a b c d)) =
          pinorder l ++ (x, q) :: pinorder (Tree.node a b c d) from rfl,
          List.getLast?_append_of_ne_nil _ (by simp [pinorder]),
          show ((x, q) :: pinorder (Tree.node a b c d) : List (Int × Int)) =
            [(x, q)] ++ pinorder (Tree.node a b c d) from rfl,
          List.getLast?_append_of_ne_nil _ (by simp [pinorder])]
        exact h3
      · intro v
        rw [show highPath (Tree.node l x q (Tree.node a b c d)) =
          Dir.dR :: highPath (Tree.node a b c d) from rfl]
        show pinorder l ++ (x, q) :: pinorder (setSub (Tree.node a b c d)
          (highPath (Tree.node a b c d) ++ [Dir.dR]) v) = _
        rw [h4 v]
        show pinorder l ++ (x, q) :: (pinorder (Tree.node a b c d) ++ pinorder v) =
          (pinorder l ++ (x, q) :: pinorder (Tree.node a b c d)) ++ pinorder v
        simp

/-- Along an all-left path ending at a node with a free left slot, the
node's element heads the in-order sequence and an attach through the slot
prepends. -/
theorem allL_spec : ∀ (n : Nat) (u : Tree) (x q : Int) (r : Tree),
    getSub u (List.replicate n Dir.dL) = some (Tree.node Tree.nil x q r) →
    ∃ B2, pinorder u = (x, q) :: B2 ∧
      ∀ v, pinorder (setSub u (List.replicate n Dir.dL ++ [Dir.dL]) v) =
        pinorder v ++ (x, q) :: B2 := by
  intro n
  induction n with
  | zero =>
    intro u x q r hg
    rw [show getSub u (List.replicate 0 Dir.dL) = some u from by cases u <;> rfl] at hg
    obtain rfl := Option.some.inj hg
    refine ⟨pinorder r, rfl, fun v => ?_⟩
    show pinorder (Tree.node v x q r) = pinorder v ++ (x, q) :: pinorder r
    rfl
  | succ n2 ih =>
    intro u x q r hg
    cases u with
    | nil => cases hg
    | node l1 x1 q1 r1 =>
      replace hg : getSub l1 (List.replicate n2 Dir.dL) = some (Tree.node Tree.nil x q r) := hg
      obtain ⟨B2, hp, hs⟩ := ih l1 x q r hg
      refine ⟨B2 ++ (x1, q1) :: pinorder r1, ?_, fun v => ?_⟩
      · show pinorder l1 ++ (x1, q1) :: pinorder r1 = (x, q) :: (B2 ++ (x1, q1) :: pinorder r1)
        rw [hp]
        rfl
      · show pinorder (setSub l1 (List.replicate n2 Dir.dL ++ [Dir.dL]) v) ++
          (x1, q1) :: pinorder r1 = pinorder v ++ (x, q) :: (B2 ++ (x1, q1) :: pinorder r1)
        rw [hs v]
        simp

/-- Every address is an all-left path or a path with a last right branch
followed only by left branches. -/
theorem path_split (p : List Dir) :
    (∃ n, p = List.replicate n Dir.dL) ∨
    (∃ w n, p = w ++ Dir.dR :: List.replicate n Dir.dL) := by
  induction p with
  | nil => exact Or.inl ⟨0, rfl⟩
  | cons d p2 ih =>
    cases d with
    | dL =>
      rcases ih with ⟨n, rfl⟩ | ⟨w, n, rfl⟩
      · exact Or.inl ⟨n + 1, rfl⟩
      · exact Or.inr ⟨Dir.dL :: w, n, rfl⟩
    | dR =>
      rcases ih with ⟨n, rfl⟩ | ⟨w, n, rfl⟩
      · exact Or.inr ⟨[], n, rfl⟩
      · exact Or.inr ⟨Dir.dR :: w, n, rfl⟩

/-- The ascent loop stops at the last right branch of the path. -/
theorem ascendL_eval (t : Tree) : ∀ (n : Nat) (u : List Dir),
    ascendL t (List.replicate n Dir.dL ++ Dir.dR :: u) = Addr.inTree u.reverse := by
  intro n
  induction n with
  | zero => intro u; rfl
  | succ n2 ih => intro u; exact ih u

/-- Heap specification of attach-and-bubble-up along an arbitrary free
slot: heap order is restored; while the loop is live the new node is the
subtree root and all other priorities are bounded by the old root
priority; once the loop has stopped the root of the result is the old
root. -/
theorem insTBp_heap (k pr : Int) :
    ∀ (p : List Dir) (t : Tree) (d : Dir), isHeap t = true →
      getSub t (p ++ [d]) = some Tree.nil →
      isHeap (insTBp k pr t p d).1 = true ∧
      ((insTBp k pr t p d).2 = true → ∃ l1 r1,
        (insTBp k pr t p d).1 = Tree.node l1 k pr r1 ∧
        prioBndP l1 (rootPrio t) ∧ prioBndP r1 (rootPrio t)) ∧
      ((insTBp k pr t p d).2 = false → rootPrio (insTBp k pr t p d).1 = rootPrio t ∧
        rootKey (insTBp k pr t p d).1 = rootKey t) := by
  intro p
  induction p with
  | nil =>
    intro t d hh hg
    cases t with
    | nil => exact Option.noConfusion hg
    | node l x q r =>
      rw [isHeap_node_iff] at hh
      obtain ⟨hpl, hpr, hhl, hhr⟩ := hh
      cases d with
      | dL =>
        replace hg : l = Tree.nil := by
          cases l with
          | nil => rfl
          | node a2 b2 c2 d2 => simp [getSub] at hg
        subst hg
        have hins : insTBp k pr (Tree.node Tree.nil x q r) [] Dir.dL =
            bubbleUpF (Tree.node (single k pr) x q r) [Dir.dL] := rfl
        rw [hins, bubbleUpF_cons]
        dsimp only [List.reverse_nil, getSub, childOf, single, rootPrio]
        by_cases hq : q < pr
        · rw [if_pos hq]
          have hrot : rotAt (Tree.node (Tree.node Tree.nil k pr Tree.nil) x q r) [] Dir.dL =
              Tree.node Tree.nil k pr (Tree.node Tree.nil x q r) := by
            simp [rotAt, getSub, rotLocal, setSub]
          rw [hrot]
          dsimp only [bubbleUpF]
          refine ⟨?_, ?_, ?_⟩
          · rw [isHeap_node_iff]
            refine ⟨prioLe_nil pr, prioLe_node_iff.mpr (le_of_lt hq), rfl, ?_⟩
            rw [isHeap_node_iff]
            exact ⟨prioLe_nil q, hpr, rfl, hhr⟩
          · intro _
            refine ⟨Tree.nil, Tree.node Tree.nil x q r, rfl, prioBndP_nil _, ?_⟩
            intro a ha
            simp only [pinorder, List.mem_append, List.mem_cons] at ha
            rcases ha with ha | rfl | ha
            · cases ha
            · exact le_refl q
            · exact isHeap_prioBnd hhr hpr a ha
          · intro hfa
            cases hfa
        · rw [if_neg hq]
          dsimp only
          refine ⟨?_, ?_, ?_⟩
          · rw [isHeap_node_iff]
            refine ⟨prioLe_node_iff.mpr (not_lt.mp hq), hpr, ?_, hhr⟩
            rw [isHeap_node_iff]
            exact ⟨prioLe_nil pr, prioLe_nil pr, rfl, rfl⟩
          · intro hfa
            cases hfa
          · intro _
            exact ⟨rfl, rfl⟩
      | dR =>
        replace hg : r = Tree.nil := by
          cases r with
          | nil => rfl
          | node a2 b2 c2 d2 => simp [getSub] at hg
        subst hg
        have hins : insTBp k pr (Tree.node l x q Tree.nil) [] Dir.dR =
            bubbleUpF (Tree.node l x q (single k pr)) [Dir.dR] := rfl
        rw [hins, bubbleUpF_cons]
        dsimp only [List.reverse_nil, getSub, childOf, single, rootPrio]
        by_cases hq : q < pr
        · rw [if_pos hq]
          have hrot : rotAt (Tree.node l x q (Tree.node Tree.nil k pr Tree.nil)) [] Dir.dR =
              Tree.node (Tree.node l x q Tree.nil) k pr Tree.nil := by
            simp [rotAt, getSub, rotLocal, setSub]
          rw [hrot]
          dsimp only [bubbleUpF]
          refine ⟨?_, ?_, ?_⟩
          · rw [isHeap_node_iff]
            refine ⟨prioLe_node_iff.mpr (le_of_lt hq), prioLe_nil pr, ?_, rfl⟩
            rw [isHeap_node_iff]
            exact ⟨hpl, prioLe_nil q, hhl, rfl⟩
          · intro _
            refine ⟨Tree.node l x q Tree.nil, Tree.nil, rfl, ?_, prioBndP_nil _⟩
            intro a ha
            simp only [pinorder, List.mem_append, List.mem_cons] at ha
            rcases ha with ha | rfl | ha
            · exact isHeap_prioBnd hhl hpl a ha
            · exact le_refl q
            · cases ha
          · intro hfa
            cases hfa
        · rw [if_neg hq]
          dsimp only
          refine ⟨?_, ?_, ?_⟩
          · rw [isHeap_node_iff]
            refine ⟨hpl, prioLe_node_iff.mpr (not_lt.mp hq), hhl, ?_⟩
            rw [isHeap_node_iff]
            exact ⟨prioLe_nil pr, prioLe_nil pr, rfl, rfl⟩
          · intro hfa
            cases hfa
          · intro _
            exact ⟨rfl, rfl⟩
  | cons d0 p2 ih =>
    intro t d hh hg
    cases t with
    | nil => exact Option.noConfusion hg
    | node l x q r =>
      rw [isHeap_node_iff] at hh
      obtain ⟨hpl, hpr, hhl, hhr⟩ := hh
      cases d0 with
      | dL =>
        replace hg : getSub l (p2 ++ [d]) = some Tree.nil := hg
        have hlq : rootPrio l ≤ q := by
          cases l with
          | nil =>
            cases p2 with
            | nil => exact Option.noConfusion hg
            | cons d2 p3 => exact Option.noConfusion hg
          | node la lb lc ld => exact prioLe_node_iff.mp hpl
        have hins : insTBp k pr (Tree.node l x q r) (Dir.dL :: p2) d =
            (if (insTBp k pr l p2 d).2 then
               bubbleUpF (Tree.node (insTBp k pr l p2 d).1 x q r) [Dir.dL]
             else (Tree.node (insTBp k pr l p2 d).1 x q r, false)) := by
          unfold insTBp
          rw [show (Dir.dL :: p2) ++ [d] = Dir.dL :: (p2 ++ [d]) from rfl,
            show setSub (Tree.node l x q r) (Dir.dL :: (p2 ++ [d])) (single k pr) =
              Tree.node (setSub l (p2 ++ [d]) (single k pr)) x q r from rfl,
            show (Dir.dL :: p2).reverse = p2.reverse ++ [Dir.dL] from by simp,
            show d :: (p2.reverse ++ [Dir.dL]) = (d :: p2.reverse) ++ [Dir.dL] from rfl,
            bubbleUpF_append_dL]
        obtain ⟨ih1, ih2, ih3⟩ := ih l d hhl hg
        rcases hlive : (insTBp k pr l p2 d).2 with _ | _
        · rw [hins, hlive, if_neg (by simp)]
          obtain ⟨hr1, hr2⟩ := ih3 hlive
          refine ⟨?_, ?_, ?_⟩
          · rw [isHeap_node_iff]
            exact ⟨prioLe_of_rootPrio (le_of_eq_of_le hr1 hlq), hpr, ih1, hhr⟩
          · intro hfa
            cases hfa
          · intro _
            exact ⟨rfl, rfl⟩
        · obtain ⟨l1, r1, hu, hb1, hb2⟩ := ih2 hlive
          rw [hins, hlive, if_pos rfl, hu, bubbleUpF_cons]
          dsimp only [List.reverse_nil, getSub, childOf, rootPrio]
          have hheapU : isHeap (Tree.node l1 k pr r1) = true := hu ▸ ih1
          rw [isHeap_node_iff] at hheapU
          obtain ⟨hul, hur, hhl1, hhr1⟩ := hheapU
          by_cases hq : q < pr
          · rw [if_pos hq]
            have hrot : rotAt (Tree.node (Tree.node l1 k pr r1) x q r) [] Dir.dL =
                Tree.node l1 k pr (Tree.node r1 x q r) := by
              simp [rotAt, getSub, rotLocal, setSub]
            rw [hrot]
            dsimp only [bubbleUpF]
            refine ⟨?_, ?_, ?_⟩
            · rw [isHeap_node_iff]
              refine ⟨hul, prioLe_node_iff.mpr (le_of_lt hq), hhl1, ?_⟩
              rw [isHeap_node_iff]
              exact ⟨prioLe_of_bnd (prioBndP_mono hb2 hlq), hpr, hhr1, hhr⟩
            · intro _
              refine ⟨l1, Tree.node r1 x q r, rfl, prioBndP_mono hb1 hlq, ?_⟩
              intro a ha
              simp only [pinorder, List.mem_append, List.mem_cons] at ha
              rcases ha with ha | rfl | ha
              · exact le_trans (hb2 a ha) hlq
              · exact le_refl q
              · exact isHeap_prioBnd hhr hpr a ha
            · intro hfa
              cases hfa
          · rw [if_neg hq]
            dsimp only
            refine ⟨?_, ?_, ?_⟩
            · rw [isHeap_node_iff]
              refine ⟨?_, hpr, ?_, hhr⟩
              · rw [prioLe_node_iff]
                exact not_lt.mp hq
              · rw [isHeap_node_iff]
                exact ⟨hul, hur, hhl1, hhr1⟩
            · intro hfa
              cases hfa
            · intro _
              exact ⟨rfl, rfl⟩
      | dR =>
        replace hg : getSub r (p2 ++ [d]) = some Tree.nil := hg
        have hrq : rootPrio r ≤ q := by
          cases r with
          | nil =>
            cases p2 with
            | nil => exact Option.noConfusion hg
            | cons d2 p3 => exact Option.noConfusion hg
          | node ra rb rc rd => exact prioLe_node_iff.mp hpr
        have hins : insTBp k pr (Tree.node l x q r) (Dir.dR :: p2) d =
            (if (insTBp k pr r p2 d).2 then
               bubbleUpF (Tree.node l x q (insTBp k pr r p2 d).1) [Dir.dR]
             else (Tree.node l x q (insTBp k pr r p2 d).1, false)) := by
          unfold insTBp
          rw [show (Dir.dR :: p2) ++ [d] = Dir.dR :: (p2 ++ [d]) from rfl,
            show setSub (Tree.node l x q r) (Dir.dR :: (p2 ++ [d])) (single k pr) =
              Tree.node l x q (setSub r (p2 ++ [d]) (single k pr)) from rfl,
            show (Dir.dR :: p2).reverse = p2.reverse ++ [Dir.dR] from by simp,
            show d :: (p2.reverse ++ [Dir.dR]) = (d :: p2.reverse) ++ [Dir.dR] from rfl,
            bubbleUpF_append_dR]
        obtain ⟨ih1, ih2, ih3⟩ := ih r d hhr hg
        rcases hlive : (insTBp k pr r p2 d).2 with _ | _
        · rw [hins, hlive, if_neg (by simp)]
          obtain ⟨hr1, hr2⟩ := ih3 hlive
          refine ⟨?_, ?_, ?_⟩
          · rw [isHeap_node_iff]
            exact ⟨hpl, prioLe_of_rootPrio (le_of_eq_of_le hr1 hrq), hhl, ih1⟩
          · intro hfa
            cases hfa
          · intro _
            exact ⟨rfl, rfl⟩
        · obtain ⟨l1, r1, hu, hb1, hb2⟩ := ih2 hlive
          rw [hins, hlive, if_pos rfl, hu, bubbleUpF_cons]
          dsimp only [List.reverse_nil, getSub, childOf, rootPrio]
          have hheapU : isHeap (Tree.node l1 k pr r1) = true := hu ▸ ih1
          rw [isHeap_node_iff] at hheapU
          obtain ⟨hul, hur, hhl1, hhr1⟩ := hheapU
          by_cases hq : q < pr
          · rw [if_pos hq]
            have hrot : rotAt (Tree.node l x q (Tree.node l1 k pr r1)) [] Dir.dR =
                Tree.node (Tree.node l x q l1) k pr r1 := by
              simp [rotAt, getSub, rotLocal, setSub]
            rw [hrot]
            dsimp only [bubbleUpF]
            refine ⟨?_, ?_, ?_⟩
            · rw [isHeap_node_iff]
              refine ⟨?_, hur, ?_, hhr1⟩
              · rw [prioLe_node_iff]
                exact le_of_lt hq
              · rw [isHeap_node_iff]
                exact ⟨hpl, prioLe_of_bnd (prioBndP_mono hb1 hrq), hhl, hhl1⟩
            · intro _
              refine ⟨Tree.node l x q l1, r1, rfl, ?_, prioBndP_mono hb2 hrq⟩
              intro a ha
              simp only [pinorder, List.mem_append, List.mem_cons] at ha
              rcases ha with ha | rfl | ha
              · exact isHeap_prioBnd hhl hpl a ha
              · exact le_refl q
              · exact le_trans (hb1 a ha) hrq
            · intro hfa
              cases hfa
          · rw [if_neg hq]
            dsimp only
            refine ⟨?_, ?_, ?_⟩
            · rw [isHeap_node_iff]
              refine ⟨hpl, ?_, hhl, ?_⟩
              · rw [prioLe_node_iff]
                exact not_lt.mp hq
              · rw [isHeap_node_iff]
                exact ⟨hul, hur, hhl1, hhr1⟩
            · intro hfa
              cases hfa
            · intro _
              exact ⟨rfl, rfl⟩

/-- Invariant preservation of attaching a new element through the free
left slot of the node at p and rebalancing, provided the attach keeps the
container key-sorted. -/
theorem insert_rebalance_attachL_invariant (s : TState) (k pr : Int) (p : List Dir)
    (x q : Int) (r : Tree) (hInv : Invariant s)
    (hg : getSub s.tree p = some (Tree.node Tree.nil x q r))
    (hsort : sortedP (pinorder (setSub s.tree (p ++ [Dir.dL]) (single k pr)))) :
    Invariant (insert_rebalance s (Addr.inTree p) true k pr) := by
  obtain ⟨t, lm0, rm0, rng0⟩ := s
  obtain ⟨hBST, hHeap, hlm, hrm, hnd⟩ := hInv
  replace hHeap : isHeap t = true := hHeap
  replace hlm : lm0 = (inorder t).head? := hlm
  replace hrm : rm0 = (inorder t).getLast? := hrm
  replace hg : getSub t p = some (Tree.node Tree.nil x q r) := hg
  replace hsort : sortedP (pinorder (setSub t (p ++ [Dir.dL]) (single k pr))) := hsort
  have hslot : getSub t (p ++ [Dir.dL]) = some Tree.nil := by
    rw [getSub_append, hg]
    rfl
  obtain ⟨A0, B0, hc1, hc2⟩ := setSub_context hg
  have htpin : pinorder t = A0 ++ ((x, q) :: (pinorder r ++ B0)) := by
    rw [hc1]
    simp [pinorder]
  have hset : ∀ v, pinorder (setSub t (p ++ [Dir.dL]) v) =
      (A0 ++ pinorder v) ++ ((x, q) :: (pinorder r ++ B0)) := by
    intro v
    rw [setSub_append p [Dir.dL] t _ v hg,
      show setSub (Tree.node Tree.nil x q r) [Dir.dL] v = Tree.node v x q r from rfl,
      hc2 (Tree.node v x q r)]
    simp [pinorder]
  have hsort2 : List.Pairwise keyLt
      ((A0 ++ [(k, pr)]) ++ ((x, q) :: (pinorder r ++ B0))) := by
    have h0 : List.Pairwise keyLt (pinorder (setSub t (p ++ [Dir.dL]) (single k pr))) := hsort
    rwa [hset (single k pr), show pinorder (single k pr) = [(k, pr)] from rfl] at h0
  have hsortFull := hsort2
  rw [List.pairwise_append] at hsort2
  obtain ⟨hsAM, hsB, hcross⟩ := hsort2
  rw [List.pairwise_append] at hsAM
  obtain ⟨hsA, _, hcrossAk⟩ := hsAM
  have hAk : ∀ a ∈ A0, a.1 < k := by
    intro a ha
    exact hcrossAk a ha (k, pr) (by simp)
  have hkB : ∀ b ∈ (x, q) :: (pinorder r ++ B0), k < b.1 := by
    intro b hb
    exact hcross (k, pr) (by simp) b hb
  have hkp : keyAt t p = some x := by
    show (getSub t p).bind rootKey = some x
    rw [hg]
    rfl
  have hpin1 : pinorder (bubbleUp (setSub t (p ++ [Dir.dL]) (single k pr))
      (Dir.dL :: p.reverse)) = (A0 ++ [(k, pr)]) ++ ((x, q) :: (pinorder r ++ B0)) := by
    show pinorder (bubbleUpF (setSub t (p ++ [Dir.dL]) (single k pr))
      (Dir.dL :: p.reverse)).1 = _
    rw [bubbleUpF_pinorder, hset (single k pr)]
    rfl
  show Invariant ⟨bubbleUp (setSub t (p ++ [Dir.dL]) (single k pr)) (Dir.dL :: p.reverse),
    if keyAt t p = lm0 then some k else lm0, rm0, rng0⟩
  refine ⟨?_, ?_, ?_, ?_, ?_⟩
  · show isBST (bubbleUp (setSub t (p ++ [Dir.dL]) (single k pr))
      (Dir.dL :: p.reverse)) = true
    rw [isBST_iff_sorted]
    show List.Pairwise keyLt _
    rw [hpin1]
    exact hsortFull
  · show isHeap (insTBp k pr t p Dir.dL).1 = true
    exact (insTBp_heap k pr p t Dir.dL hHeap hslot).1
  · show (if keyAt t p = lm0 then some k else lm0) = _
    rw [show (inorder (bubbleUp (setSub t (p ++ [Dir.dL]) (single k pr))
        (Dir.dL :: p.reverse))).head? =
      ((pinorder (bubbleUp (setSub t (p ++ [Dir.dL]) (single k pr))
        (Dir.dL :: p.reverse))).head?).map Prod.fst from inorder_head _, hpin1]
    cases hA : A0 with
    | nil =>
      rw [if_pos (by
        rw [hkp, hlm, inorder_head, htpin, hA]
        rfl)]
      rfl
    | cons a0 A1 =>
      rw [if_neg (by
        rw [hkp, hlm, inorder_head, htpin, hA,
          List.head?_append_of_ne_nil _ (by simp : a0 :: A1 ≠ [])]
        intro he
        have hx : x = a0.1 := by simpa using he
        have h1 : a0.1 < k := hAk a0 (hA ▸ List.mem_cons_self a0 A1)
        have h2 : k < x := hkB (x, q) (List.mem_cons_self _ _)
        omega)]
      rw [hlm, inorder_head, htpin, hA,
        List.head?_append_of_ne_nil _ (by simp : a0 :: A1 ≠ []),
        List.head?_append_of_ne_nil _
          (by simp : (a0 :: A1 ++ [(k, pr)] : List (Int × Int)) ≠ []),
        List.head?_append_of_ne_nil _ (by simp : a0 :: A1 ≠ [])]
  · show rm0 = _
    rw [show (inorder (bubbleUp (setSub t (p ++ [Dir.dL]) (single k pr))
        (Dir.dL :: p.reverse))).getLast? =
      ((pinorder (bubbleUp (setSub t (p ++ [Dir.dL]) (single k pr))
        (Dir.dL :: p.reverse))).getLast?).map Prod.fst from inorder_getLast _, hpin1]
    rw [hrm, inorder_getLast, htpin,
      List.getLast?_append_of_ne_nil _ (by simp : (x, q) :: (pinorder r ++ B0) ≠ []),
      List.getLast?_append_of_ne_nil _ (by simp : (x, q) :: (pinorder r ++ B0) ≠ [])]
  · show (inorder (bubbleUp (setSub t (p ++ [Dir.dL]) (single k pr))
      (Dir.dL :: p.reverse))).Nodup
    have hs3 : sortedP (pinorder (bubbleUp (setSub t (p ++ [Dir.dL]) (single k pr))
        (Dir.dL :: p.reverse))) := by
      show List.Pairwise keyLt _
      rw [hpin1]
      exact hsortFull
    exact sortedP_nodup hs3

/-- Invariant preservation of attaching a new element through the free
right slot of the node at p and rebalancing, provided the attach keeps the
container key-sorted. -/
theorem insert_rebalance_attachR_invariant (s : TState) (k pr : Int) (p : List Dir)
    (l : Tree) (x q : Int) (hInv : Invariant s)
    (hg : getSub s.tree p = some (Tree.node l x q Tree.nil))
    (hsort : sortedP (pinorder (setSub s.tree (p ++ [Dir.dR]) (single k pr)))) :
    Invariant (insert_rebalance s (Addr.inTree p) false k pr) := by
  obtain ⟨t, lm0, rm0, rng0⟩ := s
  obtain ⟨hBST, hHeap, hlm, hrm, hnd⟩ := hInv
  replace hHeap : isHeap t = true := hHeap
  replace hlm : lm0 = (inorder t).head? := hlm
  replace hrm : rm0 = (inorder t).getLast? := hrm
  replace hg : getSub t p = some (Tree.node l x q Tree.nil) := hg
  replace hsort : sortedP (pinorder (setSub t (p ++ [Dir.dR]) (single k pr))) := hsort
  have hslot : getSub t (p ++ [Dir.dR]) = some Tree.nil := by
    rw [getSub_append, hg]
    rfl
  obtain ⟨A0, B0, hc1, hc2⟩ := setSub_context hg
  have htpin : pinorder t = A0 ++ pinorder l ++ (x, q) :: B0 := by
    rw [hc1]
    simp [pinorder]
  have hset : ∀ v, pinorder (setSub t (p ++ [Dir.dR]) v) =
      A0 ++ pinorder l ++ (x, q) :: (pinorder v ++ B0) := by
    intro v
    rw [setSub_append p [Dir.dR] t _ v hg,
      show setSub (Tree.node l x q Tree.nil) [Dir.dR] v = Tree.node l x q v from rfl,
      hc2 (Tree.node l x q v)]
    simp [pinorder]
  have hsortFull : List.Pairwise keyLt (A0 ++ pinorder l ++ (x, q) :: (k, pr) :: B0) := by
    have h0 : List.Pairwise keyLt (pinorder (setSub t (p ++ [Dir.dR]) (single k pr))) := hsort
    rw [hset (single k pr)] at h0
    simpa [single, pinorder] using h0
  have hd1 := List.pairwise_append.mp hsortFull
  have hd3 := List.pairwise_cons.mp hd1.2.1
  have hd4 := List.pairwise_cons.mp hd3.2
  have hxk : x < k := hd3.1 (k, pr) (List.mem_cons_self _ _)
  have hkB : ∀ b ∈ B0, k < b.1 := fun b hb => hd4.1 b hb
  have hA0k : ∀ a ∈ A0, a.1 < k := by
    intro a ha
    exact hd1.2.2 a (List.mem_append.mpr (Or.inl ha)) (k, pr) (by simp)
  have hlk : ∀ a ∈ pinorder l, a.1 < k := by
    intro a ha
    exact hd1.2.2 a (List.mem_append.mpr (Or.inr ha)) (k, pr) (by simp)
  have hkp : keyAt t p = some x := by
    show (getSub t p).bind rootKey = some x
    rw [hg]
    rfl
  have hpin1 : pinorder (bubbleUp (setSub t (p ++ [Dir.dR]) (single k pr))
      (Dir.dR :: p.reverse)) = A0 ++ pinorder l ++ (x, q) :: (k, pr) :: B0 := by
    show pinorder (bubbleUpF (setSub t (p ++ [Dir.dR]) (single k pr))
      (Dir.dR :: p.reverse)).1 = _
    rw [bubbleUpF_pinorder, hset (single k pr)]
    simp [single, pinorder]
  show Invariant ⟨bubbleUp (setSub t (p ++ [Dir.dR]) (single k pr)) (Dir.dR :: p.reverse),
    lm0, if keyAt t p = rm0 then some k else rm0, rng0⟩
  refine ⟨?_, ?_, ?_, ?_, ?_⟩
  · show isBST (bubbleUp (setSub t (p ++ [Dir.dR]) (single k pr))
      (Dir.dR :: p.reverse)) = true
    rw [isBST_iff_sorted]
    show List.Pairwise keyLt _
    rw [hpin1]
    exact hsortFull
  · show isHeap (insTBp k pr t p Dir.dR).1 = true
    exact (insTBp_heap k pr p t Dir.dR hHeap hslot).1
  · show lm0 = _
    rw [show (inorder (bubbleUp (setSub t (p ++ [Dir.dR]) (single k pr))
        (Dir.dR :: p.reverse))).head? =
      ((pinorder (bubbleUp (setSub t (p ++ [Dir.dR]) (single k pr))
        (Dir.dR :: p.reverse))).head?).map Prod.fst from inorder_head _, hpin1]
    have e1 : (A0 ++ pinorder l ++ (x, q) :: B0 : List (Int × Int)) =
        (A0 ++ pinorder l) ++ ((x, q) :: B0) := by simp
    have e2 : (A0 ++ pinorder l ++ (x, q) :: (k, pr) :: B0 : List (Int × Int)) =
        (A0 ++ pinorder l) ++ ((x, q) :: (k, pr) :: B0) := by simp
    rw [hlm, inorder_head, htpin, e1, e2]
    cases hP : (A0 ++ pinorder l : List (Int × Int)) with
    | nil => rfl
    | cons p0 P1 =>
      rw [List.head?_append_of_ne_nil _ (by simp : p0 :: P1 ≠ []),
        List.head?_append_of_ne_nil _ (by simp : p0 :: P1 ≠ [])]
  · show (if keyAt t p = rm0 then some k else rm0) = _
    rw [show (inorder (bubbleUp (setSub t (p ++ [Dir.dR]) (single k pr))
        (Dir.dR :: p.reverse))).getLast? =
      ((pinorder (bubbleUp (setSub t (p ++ [Dir.dR]) (single k pr))
        (Dir.dR :: p.reverse))).getLast?).map Prod.fst from inorder_getLast _, hpin1]
    cases hB : B0 with
    | nil =>
      rw [if_pos (by
        rw [hkp, hrm, inorder_getLast, htpin, hB,
          show (A0 ++ pinorder l ++ [(x, q)] : List (Int × Int)) =
            (A0 ++ pinorder l) ++ [(x, q)] from by simp,
          List.getLast?_append_of_ne_nil _ (by simp : ([(x, q)] : List (Int × Int)) ≠ [])]
        rfl)]
      rw [show (A0 ++ pinorder l ++ [(x, q), (k, pr)] : List (Int × Int)) =
          (A0 ++ pinorder l) ++ [(x, q), (k, pr)] from by simp,
        List.getLast?_append_of_ne_nil _
          (by simp : ([(x, q), (k, pr)] : List (Int × Int)) ≠ [])]
      rfl
    | cons b0 B1 =>
      have hrmv : rm0 = ((b0 :: B1).getLast?).map Prod.fst := by
        rw [hrm, inorder_getLast, htpin, hB,
          show (A0 ++ pinorder l ++ (x, q) :: b0 :: B1 : List (Int × Int)) =
            (A0 ++ pinorder l ++ [(x, q)]) ++ b0 :: B1 from by simp,
          List.getLast?_append_of_ne_nil _ (by simp : b0 :: B1 ≠ [])]
      rcases hgl : (b0 :: B1).getLast? with _ | lb
      · rw [List.getLast?_eq_none_iff] at hgl
        cases hgl
      · have hlb : lb ∈ b0 :: B1 := mem_of_getLast?_eq hgl
        have hlbgt : k < lb.1 := hkB lb (hB ▸ hlb)
        rw [if_neg (by
          rw [hkp, hrmv, hgl]
          intro he
          have h2 : x = lb.1 := by simpa using he
          omega)]
        rw [hrmv, hgl,
          show (A0 ++ pinorder l ++ (x, q) :: (k, pr) :: b0 :: B1 : List (Int × Int)) =
            (A0 ++ pinorder l ++ [(x, q), (k, pr)]) ++ b0 :: B1 from by simp,
          List.getLast?_append_of_ne_nil _ (by simp : b0 :: B1 ≠ []), hgl]
  · show (inorder (bubbleUp (setSub t (p ++ [Dir.dR]) (single k pr))
      (Dir.dR :: p.reverse))).Nodup
    have hs3 : sortedP (pinorder (bubbleUp (setSub t (p ++ [Dir.dR]) (single k pr))
        (Dir.dR :: p.reverse))) := by
      show List.Pairwise keyLt _
      rw [hpin1]
      exact hsortFull
    exact sortedP_nodup hs3

/-- Inserting a key strictly between a prefix and the element that follows
it keeps a sorted sequence sorted. -/
theorem sorted_insert_mid (P R : List (Int × Int)) (x2 q2 k pr : Int)
    (h : List.Pairwise keyLt (P ++ (x2, q2) :: R))
    (hPk : ∀ a ∈ P, a.1 < k) (hk2 : k < x2) :
    List.Pairwise keyLt (P ++ (k, pr) :: (x2, q2) :: R) := by
  rw [List.pairwise_append] at h
  obtain ⟨hP, hCons, hcross⟩ := h
  rw [List.pairwise_cons] at hCons
  obtain ⟨hx2R, hR⟩ := hCons
  rw [List.pairwise_append]
  refine ⟨hP, ?_, ?_⟩
  · rw [List.pairwise_cons]
    refine ⟨?_, ?_⟩
    · intro b hb
      rcases List.mem_cons.mp hb with rfl | hb2
      · exact hk2
      · exact lt_trans hk2 (hx2R b hb2)
    · rw [List.pairwise_cons]
      exact ⟨hx2R, hR⟩
  · intro a ha b hb
    rcases List.mem_cons.mp hb with rfl | hb2
    · exact hPk a ha
    · exact hcross a ha b hb2

/-- Invariant preservation of the end-hint shortcut: attach past the
current maximum when it compares less than the new key. -/
theorem attach_pastmax_invariant (s : TState) (k pr : Int)
    (hInv : Invariant s) (hne : s.tree ≠ Tree.nil)
    (hmax : (keyAt s.tree (highPath s.tree)).getD 0 < k) :
    Invariant (insert_rebalance s (Addr.inTree (highPath s.tree)) false k pr) := by
  obtain ⟨lp, xp, qp, hh1, hh2, hh3, hh4⟩ := highSub_spec s.tree hne
  have hsorted : List.Pairwise keyLt (pinorder s.tree) := (isBST_iff_sorted _).mp hInv.1
  have hkq : keyAt s.tree (highPath s.tree) = some xp := by
    show (getSub s.tree (highPath s.tree)).bind rootKey = some xp
    rw [hh2]
    rfl
  rw [hkq] at hmax
  have hmax2 : xp < k := hmax
  refine insert_rebalance_attachR_invariant s k pr (highPath s.tree) lp xp qp hInv hh2 ?_
  show List.Pairwise keyLt
    (pinorder (setSub s.tree (highPath s.tree ++ [Dir.dR]) (single k pr)))
  rw [hh4 (single k pr), show pinorder (single k pr) = [(k, pr)] from rfl,
    List.pairwise_append]
  refine ⟨hsorted, List.pairwise_singleton _ _, ?_⟩
  intro a ha b hb
  obtain rfl := List.mem_singleton.mp hb
  show a.1 < k
  exact lt_of_le_of_lt (sortedP_le_getLast hsorted a ha (xp, qp) hh3) hmax2

/-- Invariant preservation of the leftmost-hint shortcut: a hint equal to
the cached minimum with a key above the new one attaches at the minimum's
free left slot. -/
theorem attach_atmin_invariant (s : TState) (k pr : Int) (p : List Dir)
    (hInv : Invariant s) (hne : s.tree ≠ Tree.nil)
    (hvh : k < (keyAt s.tree p).getD 0) (hlmc : keyAt s.tree p = s.lm) :
    Invariant (insert_rebalance s (Addr.inTree p) true k pr) := by
  have hsorted : List.Pairwise keyLt (pinorder s.tree) := (isBST_iff_sorted _).mp hInv.1
  cases hpt : pinorder s.tree with
  | nil => exact absurd ((pinorder_eq_nil_iff _).mp hpt) hne
  | cons h0 P0 =>
    have hlmv : s.lm = some h0.1 := by
      rw [hInv.2.2.1, inorder_head, hpt]
      rfl
    have hkp : keyAt s.tree p = some h0.1 := by rw [hlmc, hlmv]
    have hkh : k < h0.1 := by
      rw [hkp] at hvh
      exact hvh
    obtain ⟨l2, q2, r2, hg⟩ := getSub_of_keyAt hkp
    obtain ⟨A0, B0, hc1, hc2⟩ := setSub_context hg
    have e : pinorder s.tree = (A0 ++ pinorder l2) ++ (h0.1, q2) :: (pinorder r2 ++ B0) := by
      rw [hc1]
      simp [pinorder]
    have hPnil : (A0 ++ pinorder l2 : List (Int × Int)) = [] := by
      cases hP : (A0 ++ pinorder l2 : List (Int × Int)) with
      | nil => rfl
      | cons p0 P1 =>
        exfalso
        have hnd2 : ((pinorder s.tree).map Prod.fst).Nodup := hInv.2.2.2.2
        rw [e, hP, List.map_append, List.map_cons, List.nodup_append] at hnd2
        have hpt2 := hpt
        rw [e, hP, List.cons_append] at hpt2
        have hh0 : h0 = p0 := (List.cons.inj hpt2.symm).1
        have hmem1 : h0.1 ∈ (p0 :: P1).map Prod.fst := by
          rw [hh0]
          exact List.mem_map_of_mem Prod.fst (List.mem_cons_self _ _)
        exact hnd2.2.2 hmem1 (List.mem_cons_self _ _)
    have hA0 : A0 = [] := (List.append_eq_nil.mp hPnil).1
    have hl2 : l2 = Tree.nil :=
      (pinorder_eq_nil_iff l2).mp (List.append_eq_nil.mp hPnil).2
    subst hA0
    subst hl2
    have e2 : pinorder s.tree = (h0.1, q2) :: (pinorder r2 ++ B0) := by
      rw [e]
      rfl
    have hval : pinorder (setSub s.tree (p ++ [Dir.dL]) (single k pr)) =
        (k, pr) :: (h0.1, q2) :: (pinorder r2 ++ B0) := by
      rw [setSub_append p [Dir.dL] s.tree _ _ hg,
        show setSub (Tree.node Tree.nil h0.1 q2 r2) [Dir.dL] (single k pr) =
          Tree.node (single k pr) h0.1 q2 r2 from rfl,
        hc2 (Tree.node (single k pr) h0.1 q2 r2)]
      simp [single, pinorder]
    refine insert_rebalance_attachL_invariant s k pr p h0.1 q2 r2 hInv hg ?_
    show List.Pairwise keyLt _
    rw [hval]
    have hs2 : List.Pairwise keyLt ((h0.1, q2) :: (pinorder r2 ++ B0)) := by
      have h0s := hsorted
      rw [e2] at h0s
      exact h0s
    have hres := sorted_insert_mid [] (pinorder r2 ++ B0) h0.1 q2 k pr
      (by simpa using hs2) (fun a ha => absurd ha (List.not_mem_nil a)) hkh
    simpa using hres

/-- On a node with a left child, prev descends to the highest node of that
subtree. -/
theorem prevAddr_of_nodeLeft {t : Tree} {p : List Dir} {la : Tree} {lb lc : Int}
    {ld : Tree} {x2 q2 : Int} {r2 : Tree}
    (hg : getSub t p = some (Tree.node (Tree.node la lb lc ld) x2 q2 r2)) :
    prevAddr t (Addr.inTree p) =
      Addr.inTree (p ++ Dir.dL :: highPath (Tree.node la lb lc ld)) := by
  unfold prevAddr
  dsimp only
  rw [hg]

/-- Invariant preservation of the in-tree-hint shortcut when the hint node
has a left child: the new key sits between prev(hint) — the highest node of
that subtree, whose right slot is free — and the hint. -/
theorem attach_prevR_invariant (s : TState) (k pr : Int) (p : List Dir)
    (la : Tree) (lb lc : Int) (ld : Tree) (x2 q2 : Int) (r2 : Tree)
    (hInv : Invariant s)
    (hg : getSub s.tree p = some (Tree.node (Tree.node la lb lc ld) x2 q2 r2))
    (hvh : k < x2)
    (hpk : (keyAtAddr s.tree (prevAddr s.tree (Addr.inTree p))).getD 0 < k) :
    Invariant (insert_rebalance s (prevAddr s.tree (Addr.inTree p)) false k pr) := by
  obtain ⟨lp, xp, qp, hh1, hh2, hh3, hh4⟩ := highSub_spec (Tree.node la lb lc ld) (by simp)
  have hsorted : List.Pairwise keyLt (pinorder s.tree) := (isBST_iff_sorted _).mp hInv.1
  have hprev := prevAddr_of_nodeLeft hg
  have hgpv : getSub s.tree (p ++ Dir.dL :: highPath (Tree.node la lb lc ld)) =
      some (Tree.node lp xp qp Tree.nil) := by
    rw [getSub_append, hg]
    exact hh2
  have hkpv : keyAt s.tree (p ++ Dir.dL :: highPath (Tree.node la lb lc ld)) = some xp := by
    show (getSub s.tree (p ++ Dir.dL :: highPath (Tree.node la lb lc ld))).bind rootKey =
      some xp
    rw [hgpv]
    rfl
  rw [hprev] at hpk ⊢
  rw [show keyAtAddr s.tree
        (Addr.inTree (p ++ Dir.dL :: highPath (Tree.node la lb lc ld))) =
      keyAt s.tree (p ++ Dir.dL :: highPath (Tree.node la lb lc ld)) from rfl,
    hkpv] at hpk
  have hxk : xp < k := hpk
  obtain ⟨A0, B0, hc1, hc2⟩ := setSub_context hg
  refine insert_rebalance_attachR_invariant s k pr
    (p ++ Dir.dL :: highPath (Tree.node la lb lc ld)) lp xp qp hInv hgpv ?_
  show List.Pairwise keyLt _
  have hval : pinorder (setSub s.tree
      ((p ++ Dir.dL :: highPath (Tree.node la lb lc ld)) ++ [Dir.dR]) (single k pr)) =
      (A0 ++ pinorder (Tree.node la lb lc ld)) ++
        (k, pr) :: (x2, q2) :: (pinorder r2 ++ B0) := by
    rw [show (p ++ Dir.dL :: highPath (Tree.node la lb lc ld)) ++ [Dir.dR] =
        p ++ (Dir.dL :: (highPath (Tree.node la lb lc ld) ++ [Dir.dR])) from by simp,
      setSub_append p (Dir.dL :: (highPath (Tree.node la lb lc ld) ++ [Dir.dR]))
        s.tree _ _ hg,
      show setSub (Tree.node (Tree.node la lb lc ld) x2 q2 r2)
          (Dir.dL :: (highPath (Tree.node la lb lc ld) ++ [Dir.dR])) (single k pr) =
        Tree.node (setSub (Tree.node la lb lc ld)
          (highPath (Tree.node la lb lc ld) ++ [Dir.dR]) (single k pr)) x2 q2 r2 from rfl,
      hc2, show pinorder (Tree.node (setSub (Tree.node la lb lc ld)
          (highPath (Tree.node la lb lc ld) ++ [Dir.dR]) (single k pr)) x2 q2 r2) =
        pinorder (setSub (Tree.node la lb lc ld)
          (highPath (Tree.node la lb lc ld) ++ [Dir.dR]) (single k pr)) ++
          (x2, q2) :: pinorder r2 from rfl,
      hh4 (single k pr), show pinorder (single k pr) = [(k, pr)] from rfl]
    simp
  rw [hval]
  have htv : pinorder s.tree = (A0 ++ pinorder (Tree.node la lb lc ld)) ++
      (x2, q2) :: (pinorder r2 ++ B0) := by
    rw [hc1]
    simp [pinorder]
  have hsorted2 : List.Pairwise keyLt ((A0 ++ pinorder (Tree.node la lb lc ld)) ++
      (x2, q2) :: (pinorder r2 ++ B0)) := by
    rw [← htv]
    exact hsorted
  refine sorted_insert_mid _ _ x2 q2 k pr hsorted2 ?_ hvh
  intro a ha
  have hPlast : ((A0 ++ pinorder (Tree.node la lb lc ld)) : List (Int × Int)).getLast? =
      some (xp, qp) := by
    rw [List.getLast?_append_of_ne_nil _ (by simp [pinorder])]
    exact hh3
  have hPp : List.Pairwise keyLt (A0 ++ pinorder (Tree.node la lb lc ld)) :=
    (List.pairwise_append.mp hsorted2).1
  exact lt_of_le_of_lt (sortedP_le_getLast hPp a ha (xp, qp) hPlast) hxk

/-- On a node with no left child reached through a last right branch, prev
ascends to the branching ancestor, whose right subtree (containing the
node) is nonempty and whose element immediately precedes the node's in
order. -/
theorem prev_split_spec (t : Tree) (w : List Dir) (n : Nat) (x2 q2 : Int) (r2 : Tree)
    (hg : getSub t (w ++ Dir.dR :: List.replicate n Dir.dL) =
      some (Tree.node Tree.nil x2 q2 r2)) :
    ∃ lp xp qp c1 z1 p1 d1 B2,
      prevAddr t (Addr.inTree (w ++ Dir.dR :: List.replicate n Dir.dL)) = Addr.inTree w ∧
      getSub t w = some (Tree.node lp xp qp (Tree.node c1 z1 p1 d1)) ∧
      pinorder (Tree.node c1 z1 p1 d1) = (x2, q2) :: B2 ∧
      (∀ v, pinorder (setSub (Tree.node c1 z1 p1 d1)
        (List.replicate n Dir.dL ++ [Dir.dL]) v) = pinorder v ++ (x2, q2) :: B2) := by
  have hrev : prevAddr t (Addr.inTree (w ++ Dir.dR :: List.replicate n Dir.dL)) =
      Addr.inTree w := by
    rw [prevAddr_of_nilLeft hg,
      show (w ++ Dir.dR :: List.replicate n Dir.dL).reverse =
        List.replicate n Dir.dL ++ Dir.dR :: w.reverse from by
          simp [List.reverse_replicate],
      ascendL_eval, List.reverse_reverse]
  have hg2 := hg
  rw [getSub_append] at hg2
  cases huw : getSub t w with
  | none =>
    rw [huw] at hg2
    cases hg2
  | some uw =>
    rw [huw] at hg2
    replace hg2 : getSub uw (Dir.dR :: List.replicate n Dir.dL) =
        some (Tree.node Tree.nil x2 q2 r2) := hg2
    cases uw with
    | nil => cases hg2
    | node lp xp qp rw0 =>
      replace hg2 : getSub rw0 (List.replicate n Dir.dL) =
          some (Tree.node Tree.nil x2 q2 r2) := hg2
      cases rw0 with
      | nil =>
        cases n with
        | zero => simp [getSub] at hg2
        | succ n2 => cases hg2
      | node c1 z1 p1 d1 =>
        obtain ⟨B2, hB2, hsetB2⟩ := allL_spec n (Tree.node c1 z1 p1 d1) x2 q2 r2 hg2
        exact ⟨lp, xp, qp, c1, z1, p1, d1, B2, hrev, rfl, hB2, hsetB2⟩

/-- Invariant preservation of the in-tree-hint shortcut when the hint node
has no left child: the new key sits between prev(hint) — the branching
ancestor, whose right slot is occupied — and the hint, and is attached at
the hint's free left slot. -/
theorem attach_hintL_invariant (s : TState) (k pr : Int) (w : List Dir) (n : Nat)
    (x2 q2 : Int) (r2 : Tree) (hInv : Invariant s)
    (hg : getSub s.tree (w ++ Dir.dR :: List.replicate n Dir.dL) =
      some (Tree.node Tree.nil x2 q2 r2))
    (hvh : k < x2)
    (hpk : (keyAtAddr s.tree (prevAddr s.tree
      (Addr.inTree (w ++ Dir.dR :: List.replicate n Dir.dL)))).getD 0 < k) :
    Invariant (insert_rebalance s
      (Addr.inTree (w ++ Dir.dR :: List.replicate n Dir.dL)) true k pr) := by
  obtain ⟨lp, xp, qp, c1, z1, p1, d1, B2, hpv, huw, hB2, hsetB2⟩ :=
    prev_split_spec s.tree w n x2 q2 r2 hg
  have hkw : keyAt s.tree w = some xp := by
    show (getSub s.tree w).bind rootKey = some xp
    rw [huw]
    rfl
  rw [hpv, show keyAtAddr s.tree (Addr.inTree w) = keyAt s.tree w from rfl, hkw] at hpk
  have hxk : xp < k := hpk
  obtain ⟨Aw, Bw, hcw1, hcw2⟩ := setSub_context huw
  have hval : pinorder (setSub s.tree
      ((w ++ Dir.dR :: List.replicate n Dir.dL) ++ [Dir.dL]) (single k pr)) =
      (Aw ++ pinorder lp ++ [(xp, qp)]) ++ (k, pr) :: (x2, q2) :: (B2 ++ Bw) := by
    rw [show (w ++ Dir.dR :: List.replicate n Dir.dL) ++ [Dir.dL] =
        w ++ (Dir.dR :: (List.replicate n Dir.dL ++ [Dir.dL])) from by simp,
      setSub_append w (Dir.dR :: (List.replicate n Dir.dL ++ [Dir.dL])) s.tree _ _ huw,
      show setSub (Tree.node lp xp qp (Tree.node c1 z1 p1 d1))
          (Dir.dR :: (List.replicate n Dir.dL ++ [Dir.dL])) (single k pr) =
        Tree.node lp xp qp (setSub (Tree.node c1 z1 p1 d1)
          (List.replicate n Dir.dL ++ [Dir.dL]) (single k pr)) from rfl,
      hcw2, show pinorder (Tree.node lp xp qp (setSub (Tree.node c1 z1 p1 d1)
          (List.replicate n Dir.dL ++ [Dir.dL]) (single k pr))) =
        pinorder lp ++ (xp, qp) :: pinorder (setSub (Tree.node c1 z1 p1 d1)
          (List.replicate n Dir.dL ++ [Dir.dL]) (single k pr)) from rfl,
      hsetB2 (single k pr), show pinorder (single k pr) = [(k, pr)] from rfl]
    simp
  have htv : pinorder s.tree =
      (Aw ++ pinorder lp ++ [(xp, qp)]) ++ (x2, q2) :: (B2 ++ Bw) := by
    rw [hcw1, show pinorder (Tree.node lp xp qp (Tree.node c1 z1 p1 d1)) =
      pinorder lp ++ (xp, qp) :: pinorder (Tree.node c1 z1 p1 d1) from rfl, hB2]
    simp
  have hsorted : List.Pairwise keyLt (pinorder s.tree) := (isBST_iff_sorted _).mp hInv.1
  have hsorted2 : List.Pairwise keyLt
      ((Aw ++ pinorder lp ++ [(xp, qp)]) ++ (x2, q2) :: (B2 ++ Bw)) := by
    rw [← htv]
    exact hsorted
  refine insert_rebalance_attachL_invariant s k pr _ x2 q2 r2 hInv hg ?_
  show List.Pairwise keyLt _
  rw [hval]
  refine sorted_insert_mid _ _ x2 q2 k pr hsorted2 ?_ hvh
  intro a ha
  have hPlast : ((Aw ++ pinorder lp ++ [(xp, qp)]) : List (Int × Int)).getLast? =
      some (xp, qp) := by
    rw [List.getLast?_append_of_ne_nil _ (by simp : ([(xp, qp)] : List (Int × Int)) ≠ [])]
    rfl
  exact lt_of_le_of_lt
    (sortedP_le_getLast (List.pairwise_append.mp hsorted2).1 a ha (xp, qp) hPlast) hxk

/-- Invariant preservation of the attach-and-rebalance step following a
non-duplicate hinted position search. -/
theorem fiph_rebalance_invariant (s : TState) (hint : Addr) (k pr : Int) (fl : Bool)
    (hInv : Invariant s)
    (hb : ((find_insert_pos_hint s hint k).2 = InsPos.LEFT ∧ fl = true) ∨
          ((find_insert_pos_hint s hint k).2 = InsPos.RIGHT ∧ fl = false)) :
    Invariant (insert_rebalance s (find_insert_pos_hint s hint k).1 fl k pr) := by
  obtain ⟨t, lm0, rm0, rng0⟩ := s
  cases t with
  | nil =>
    have hfh : find_insert_pos_hint ⟨Tree.nil, lm0, rm0, rng0⟩ hint k =
        (Addr.hdr, InsPos.LEFT) := rfl
    rw [hfh] at hb ⊢
    rcases hb with ⟨_, hfl⟩ | ⟨hpos, _⟩
    · subst hfl
      show Invariant ⟨single k pr, some k, some k, rng0⟩
      refine ⟨rfl, rfl, rfl, rfl, by simp [single, Tree.pinorder, inorder]⟩
    · cases hpos
  | node a0 b0 c0 d0 =>
    have hlm0 : lm0 = (inorder (Tree.node a0 b0 c0 d0)).head? := hInv.2.2.1
    cases hint with
    | hdr =>
      by_cases hmax : (keyAt (Tree.node a0 b0 c0 d0)
          (highPath (Tree.node a0 b0 c0 d0))).getD 0 < k
      · have hfh : find_insert_pos_hint ⟨Tree.node a0 b0 c0 d0, lm0, rm0, rng0⟩ Addr.hdr k =
            (Addr.inTree (highPath (Tree.node a0 b0 c0 d0)), InsPos.RIGHT) := by
          simp only [find_insert_pos_hint]
          rw [if_pos hmax]
        rw [hfh] at hb ⊢
        rcases hb with ⟨hpos, _⟩ | ⟨_, hfl⟩
        · cases hpos
        · subst hfl
          exact attach_pastmax_invariant _ k pr hInv (by simp) hmax
      · have hfh : find_insert_pos_hint ⟨Tree.node a0 b0 c0 d0, lm0, rm0, rng0⟩ Addr.hdr k =
            find_insert_pos ⟨Tree.node a0 b0 c0 d0, lm0, rm0, rng0⟩ k := by
          simp only [find_insert_pos_hint]
          rw [if_neg hmax]
        rw [hfh] at hb ⊢
        exact insert_rebalance_fip_invariant _ k pr fl hInv hb
    | inTree p =>
      by_cases hvh0 : k < (keyAt (Tree.node a0 b0 c0 d0) p).getD 0
      · by_cases hlmc : keyAt (Tree.node a0 b0 c0 d0) p = lm0
        · have hfh : find_insert_pos_hint ⟨Tree.node a0 b0 c0 d0, lm0, rm0, rng0⟩
              (Addr.inTree p) k = (Addr.inTree p, InsPos.LEFT) := by
            simp only [find_insert_pos_hint]
            rw [if_pos hvh0, if_pos hlmc]
          rw [hfh] at hb ⊢
          rcases hb with ⟨_, hfl⟩ | ⟨hpos, _⟩
          · subst hfl
            exact attach_atmin_invariant _ k pr p hInv (by simp) hvh0 hlmc
          · cases hpos
        · by_cases hpk : (keyAtAddr (Tree.node a0 b0 c0 d0)
              (prevAddr (Tree.node a0 b0 c0 d0) (Addr.inTree p))).getD 0 < k
          · have hkv : ∃ x2, keyAt (Tree.node a0 b0 c0 d0) p = some x2 := by
              cases hk0 : keyAt (Tree.node a0 b0 c0 d0) p with
              | some x2 => exact ⟨x2, rfl⟩
              | none =>
                exfalso
                rw [hk0] at hvh0
                have hpv : prevAddr (Tree.node a0 b0 c0 d0) (Addr.inTree p) = Addr.hdr := by
                  unfold prevAddr
                  dsimp only
                  cases hgs : getSub (Tree.node a0 b0 c0 d0) p with
                  | none => rfl
                  | some u =>
                    cases u with
                    | nil => rfl
                    | node l2 x2 q2 r2 =>
                      exfalso
                      rw [show keyAt (Tree.node a0 b0 c0 d0) p =
                        (getSub (Tree.node a0 b0 c0 d0) p).bind rootKey from rfl,
                        hgs] at hk0
                      exact Option.noConfusion hk0
                rw [hpv] at hpk
                have h1 : (0 : Int) < k := hpk
                have h2 : k < 0 := hvh0
                omega
            obtain ⟨x2, hk2⟩ := hkv
            obtain ⟨l2, q2, r2, hg⟩ := getSub_of_keyAt hk2
            have hvh : k < x2 := by
              rw [hk2] at hvh0
              exact hvh0
            cases l2 with
            | node la lb lc ld =>
              have hprev := prevAddr_of_nodeLeft hg
              obtain ⟨lp, xp, qp, hh1, hh2, hh3, hh4⟩ :=
                highSub_spec (Tree.node la lb lc ld) (by simp)
              have hgpv : getSub (Tree.node a0 b0 c0 d0)
                  (p ++ Dir.dL :: highPath (Tree.node la lb lc ld)) =
                  some (Tree.node lp xp qp Tree.nil) := by
                rw [getSub_append, hg]
                exact hh2
              have hrcn : rightChildNull (Tree.node a0 b0 c0 d0)
                  (prevAddr (Tree.node a0 b0 c0 d0) (Addr.inTree p)) = true := by
                rw [hprev]
                show (match getSub (Tree.node a0 b0 c0 d0)
                    (p ++ Dir.dL :: highPath (Tree.node la lb lc ld)) with
                  | some (Tree.node _ _ _ Tree.nil) => true
                  | _ => false) = true
                rw [hgpv]
              have hfh : find_insert_pos_hint ⟨Tree.node a0 b0 c0 d0, lm0, rm0, rng0⟩
                  (Addr.inTree p) k =
                  (prevAddr (Tree.node a0 b0 c0 d0) (Addr.inTree p), InsPos.RIGHT) := by
                simp only [find_insert_pos_hint]
                rw [if_pos hvh0, if_neg hlmc, if_pos hpk, if_pos hrcn]
              rw [hfh] at hb ⊢
              rcases hb with ⟨hpos, _⟩ | ⟨_, hfl⟩
              · cases hpos
              · subst hfl
                exact attach_prevR_invariant _ k pr p la lb lc ld x2 q2 r2 hInv hg hvh hpk
            | nil =>
              rcases path_split p with ⟨n, rfl⟩ | ⟨w, n, rfl⟩
              · exfalso
                obtain ⟨B2, hB2, _⟩ := allL_spec n (Tree.node a0 b0 c0 d0) x2 q2 r2 hg
                apply hlmc
                rw [hk2, hlm0, inorder_head, hB2]
                rfl
              · obtain ⟨lp, xp, qp, c1, z1, p1, d1, B2, hpv, huw, hB2, hsetB2⟩ :=
                  prev_split_spec (Tree.node a0 b0 c0 d0) w n x2 q2 r2 hg
                have hrcn : rightChildNull (Tree.node a0 b0 c0 d0)
                    (prevAddr (Tree.node a0 b0 c0 d0)
                      (Addr.inTree (w ++ Dir.dR :: List.replicate n Dir.dL))) = false := by
                  rw [hpv]
                  show (match getSub (Tree.node a0 b0 c0 d0) w with
                    | some (Tree.node _ _ _ Tree.nil) => true
                    | _ => false) = false
                  rw [huw]
                have hfh : find_insert_pos_hint ⟨Tree.node a0 b0 c0 d0, lm0, rm0, rng0⟩
                    (Addr.inTree (w ++ Dir.dR :: List.replicate n Dir.dL)) k =
                    (Addr.inTree (w ++ Dir.dR :: List.replicate n Dir.dL),
                      InsPos.LEFT) := by
                  simp only [find_insert_pos_hint]
                  rw [if_pos hvh0, if_neg hlmc, if_pos hpk, if_neg (by simp [hrcn])]
                rw [hfh] at hb ⊢
                rcases hb with ⟨_, hfl⟩ | ⟨hpos, _⟩
                · subst hfl
                  exact attach_hintL_invariant _ k pr w n x2 q2 r2 hInv hg hvh hpk
                · cases hpos
          · have hfh : find_insert_pos_hint ⟨Tree.node a0 b0 c0 d0, lm0, rm0, rng0⟩
                (Addr.inTree p) k =
                find_insert_pos ⟨Tree.node a0 b0 c0 d0, lm0, rm0, rng0⟩ k := by
              simp only [find_insert_pos_hint]
              rw [if_pos hvh0, if_neg hlmc, if_neg hpk]
            rw [hfh] at hb ⊢
            exact insert_rebalance_fip_invariant _ k pr fl hInv hb
      · have hfh : find_insert_pos_hint ⟨Tree.node a0 b0 c0 d0, lm0, rm0, rng0⟩
            (Addr.inTree p) k =
            find_insert_pos ⟨Tree.node a0 b0 c0 d0, lm0, rm0, rng0⟩ k := by
          simp only [find_insert_pos_hint]
          rw [if_neg hvh0]
        rw [hfh] at hb ⊢
        exact insert_rebalance_fip_invariant _ k pr fl hInv hb

theorem find_insert_pos_hint_rng (s : TState) (z : List Int) (hint : Addr) (k : Int) :
    find_insert_pos_hint { s with rng := z } hint k = find_insert_pos_hint s hint k := by
  obtain ⟨t, lm0, rm0, rng0⟩ := s
  cases t with
  | nil => rfl
  | node a b c d =>
    cases hint with
    | hdr =>
      simp only [find_insert_pos_hint]
      rw [find_insert_pos_rng ⟨Tree.node a b c d, lm0, rm0, rng0⟩ z k]
    | inTree p =>
      simp only [find_insert_pos_hint]
      rw [find_insert_pos_rng ⟨Tree.node a b c d, lm0, rm0, rng0⟩ z k]

/-- Invariant preservation of treap::insert_hint_impl (both hinted insert
overloads). -/
theorem insert_hint_impl_invariant (s : TState) (hint : Addr) (k : Int)
    (hInv : Invariant s) : Invariant (insert_hint_impl s hint k).1 := by
  cases hpi : (find_insert_pos_hint s hint k).2 with
  | DUPLICATE =>
    have h1 : (insert_hint_impl s hint k).1 = s := by
      simp only [insert_hint_impl, hpi]
    rw [h1]
    exact hInv
  | LEFT =>
    have h1 : (insert_hint_impl s hint k).1 =
        insert_rebalance { s with rng := (urngNext s.rng).2 }
          (find_insert_pos_hint s hint k).1 true k (urngNext s.rng).1 := by
      simp only [insert_hint_impl, hpi]
    have h2 := find_insert_pos_hint_rng s (urngNext s.rng).2 hint k
    rw [h1, ← h2]
    exact fiph_rebalance_invariant _ hint k _ true ((Invariant_rng s _).mpr hInv)
      (Or.inl ⟨by rw [h2]; exact hpi, rfl⟩)
  | RIGHT =>
    have h1 : (insert_hint_impl s hint k).1 =
        insert_rebalance { s with rng := (urngNext s.rng).2 }
          (find_insert_pos_hint s hint k).1 false k (urngNext s.rng).1 := by
      simp only [insert_hint_impl, hpi]
    have h2 := find_insert_pos_hint_rng s (urngNext s.rng).2 hint k
    rw [h1, ← h2]
    exact fiph_rebalance_invariant _ hint k _ false ((Invariant_rng s _).mpr hInv)
      (Or.inr ⟨by rw [h2]; exact hpi, rfl⟩)

/-- Invariant preservation of treap::emplace_hint. -/
theorem emplace_hint_invariant (s : TState) (hint : Addr) (k : Int)
    (hInv : Invariant s) : Invariant (emplace_hint s hint k).1 := by
  have hInv1 : Invariant { s with rng := (urngNext s.rng).2 } := (Invariant_rng s _).mpr hInv
  cases hpi : (find_insert_pos_hint { s with rng := (urngNext s.rng).2 } hint k).2 with
  | DUPLICATE =>
    have h1 : (emplace_hint s hint k).1 = { s with rng := (urngNext s.rng).2 } := by
      simp only [emplace_hint, hpi]
    rw [h1]
    exact hInv1
  | LEFT =>
    have h1 : (emplace_hint s hint k).1 =
        insert_rebalance { s with rng := (urngNext s.rng).2 }
          (find_insert_pos_hint { s with rng := (urngNext s.rng).2 } hint k).1 true k
          (urngNext s.rng).1 := by
      simp only [emplace_hint, hpi]
    rw [h1]
    exact fiph_rebalance_invariant _ hint k _ true hInv1 (Or.inl ⟨hpi, rfl⟩)
  | RIGHT =>
    have h1 : (emplace_hint s hint k).1 =
        insert_rebalance { s with rng := (urngNext s.rng).2 }
          (find_insert_pos_hint { s with rng := (urngNext s.rng).2 } hint k).1 false k
          (urngNext s.rng).1 := by
      simp only [emplace_hint, hpi]
    rw [h1]
    exact fiph_rebalance_invariant _ hint k _ false hInv1 (Or.inr ⟨hpi, rfl⟩)

/-- Invariant preservation of each public mutating operation. -/
theorem applyOp_invariant (s : TState) (op : Op) (hInv : Invariant s) :
    Invariant (applyOp s op) := by
  cases op with
  | ins k => exact insert_impl_invariant s k hInv
  | insH hint k => exact insert_hint_impl_invariant s hint k hInv
  | insR ks => exact insert_range_invariant s ks hInv
  | emp k => exact emplace_invariant s k hInv
  | empH hint k => exact emplace_hint_invariant s hint k hInv
  | ers k => exact eraseKey_invariant s k hInv
  | ersI it => exact eraseIter_invariant s it hInv
  | ersR f l => exact eraseRange_invariant s f l hInv
  | clr => exact clearT_invariant s


/-- An address with a payload locates an element of the container. -/
theorem keyAt_mem {t : Tree} {p : List Dir} {x : Int} (h : keyAt t p = some x) :
    x ∈ inorder t := by
  cases hg : getSub t p with
  | none => simp [keyAt, hg] at h
  | some u =>
    cases u with
    | nil => simp [keyAt, hg, rootKey] at h
    | node l y q r =>
      have hx : y = x := by simpa [keyAt, hg, rootKey] using h
      subst hx
      obtain ⟨A, B, h1, _⟩ := setSub_context hg
      show y ∈ (pinorder t).map Prod.fst
      rw [h1]
      refine List.mem_map.mpr ⟨(y, q), ?_, rfl⟩
      simp [pinorder]

/-- Specification of treap::lower_bound_impl on a BST: the end marker means
every element is below the target, and a located node holds the least
element not below the target. -/
theorem lbPath_spec (e : Int) : ∀ t : Tree, isBST t = true →
    (lbPath t e = none → ∀ y ∈ inorder t, y < e) ∧
    (∀ p, lbPath t e = some p → ∃ x, keyAt t p = some x ∧ e ≤ x ∧
      ∀ y ∈ inorder t, e ≤ y → x ≤ y) := by
  intro t
  induction t with
  | nil =>
    intro _
    refine ⟨fun _ y hy => absurd hy (by simp [inorder, pinorder]),
      fun p hp => by simp [lbPath] at hp⟩
  | node l x q r ihl ihr =>
    intro hBST
    have hBST2 := hBST
    simp only [isBST, Bool.and_eq_true] at hBST2
    obtain ⟨⟨⟨hal, har⟩, hbl⟩, hbr⟩ := hBST2
    have hmem : ∀ y : Int, y ∈ inorder (Tree.node l x q r) ↔
        (y ∈ inorder l ∨ y = x ∨ y ∈ inorder r) := by
      intro y
      simp [inorder, pinorder]
    have hlts : ∀ y ∈ inorder l, y < x := by
      intro y hy
      rcases List.mem_map.mp hy with ⟨a, ha, rfl⟩
      simpa using (allB_iff _ l).mp hal a ha
    have hgts : ∀ y ∈ inorder r, x < y := by
      intro y hy
      rcases List.mem_map.mp hy with ⟨a, ha, rfl⟩
      simpa using (allB_iff _ r).mp har a ha
    by_cases hxe : x < e
    · have hred : lbPath (Tree.node l x q r) e = (lbPath r e).map (Dir.dR :: ·) := by
        simp only [lbPath]
        rw [if_pos hxe]
      constructor
      · intro hn y hy
        rw [hred, Option.map_eq_none'] at hn
        rcases (hmem y).mp hy with hy | rfl | hy
        · exact lt_trans (hlts y hy) hxe
        · exact hxe
        · exact (ihr hbr).1 hn y hy
      · intro p hp
        rw [hred] at hp
        rcases Option.map_eq_some'.mp hp with ⟨p2, hp2, rfl⟩
        obtain ⟨x2, hk2, hex2, hmin2⟩ := (ihr hbr).2 p2 hp2
        refine ⟨x2, by rwa [keyAt_cons_dR], hex2, ?_⟩
        intro y hy hey
        rcases (hmem y).mp hy with hy | rfl | hy
        · exact absurd (lt_of_lt_of_le (lt_trans (hlts y hy) hxe) hey) (lt_irrefl y)
        · exact absurd (lt_of_lt_of_le hxe hey) (lt_irrefl _)
        · exact hmin2 y hy hey
    · have hex : e ≤ x := le_of_not_lt hxe
      cases hlb : lbPath l e with
      | some p2 =>
        have hred : lbPath (Tree.node l x q r) e = some (Dir.dL :: p2) := by
          simp only [lbPath]
          rw [if_neg hxe, hlb]
        constructor
        · intro hn
          rw [hred] at hn
          cases hn
        · intro p hp
          rw [hred, Option.some.injEq] at hp
          subst hp
          obtain ⟨x2, hk2, hex2, hmin2⟩ := (ihl hbl).2 p2 hlb
          refine ⟨x2, by rwa [keyAt_cons_dL], hex2, ?_⟩
          intro y hy hey
          rcases (hmem y).mp hy with hy | rfl | hy
          · exact hmin2 y hy hey
          · exact le_of_lt (hlts x2 (keyAt_mem hk2))
          · exact le_trans (le_of_lt (hlts x2 (keyAt_mem hk2))) (le_of_lt (hgts y hy))
      | none =>
        have hred : lbPath (Tree.node l x q r) e = some [] := by
          simp only [lbPath]
          rw [if_neg hxe, hlb]
        constructor
        · intro hn
          rw [hred] at hn
          cases hn
        · intro p hp
          rw [hred, Option.some.injEq] at hp
          subst hp
          refine ⟨x, rfl, hex, ?_⟩
          intro y hy hey
          rcases (hmem y).mp hy with hy | rfl | hy
          · exact absurd (lt_of_lt_of_le ((ihl hbl).1 hlb y hy) hey) (lt_irrefl y)
          · exact le_refl _
          · exact le_of_lt (hgts y hy)

/-- Specification of treap::find_impl on a BST: it succeeds exactly on the
elements of the container, and a successful search lands on the node
holding the requested payload. -/
theorem find_impl_mem {t : Tree} (hBST : isBST t = true) (e : Int) :
    (find_impl t e ≠ none ↔ e ∈ inorder t) ∧
    (∀ p, find_impl t e = some p → keyAt t p = some e) := by
  obtain ⟨hnone, hsome⟩ := lbPath_spec e t hBST
  have hKey : ∀ p, find_impl t e = some p → keyAt t p = some e := by
    intro p hp
    unfold find_impl at hp
    cases hlb : lbPath t e with
    | none =>
      rw [hlb] at hp
      cases hp
    | some p2 =>
      rw [hlb] at hp
      dsimp only at hp
      obtain ⟨x2, hk2, hex2, _⟩ := hsome p2 hlb
      rw [hk2] at hp
      dsimp only at hp
      by_cases hlt : e < x2
      · rw [if_pos hlt] at hp
        cases hp
      · rw [if_neg hlt] at hp
        obtain rfl := Option.some.inj hp
        have hxe : x2 = e := le_antisymm (le_of_not_lt hlt) hex2
        rw [hk2, hxe]
  refine ⟨⟨?_, ?_⟩, hKey⟩
  · intro hne
    cases hp : find_impl t e with
    | none => exact absurd hp hne
    | some p => exact keyAt_mem (hKey p hp)
  · intro hmem
    cases hlb : lbPath t e with
    | none => exact absurd (hnone hlb e hmem) (lt_irrefl e)
    | some p2 =>
      obtain ⟨x2, hk2, hex2, hmin2⟩ := hsome p2 hlb
      have hx2 : x2 = e := le_antisymm (hmin2 e hmem (le_refl e)) hex2
      subst hx2
      have hfi : find_impl t x2 = some p2 := by
        unfold find_impl
        rw [hlb]
        dsimp only
        rw [hk2]
        dsimp only
        rw [if_neg (lt_irrefl x2)]
      rw [hfi]
      exact Option.noConfusion

/-- The attach-and-rebalance step never touches the priority source. -/
theorem insert_rebalance_rng (s : TState) (pa : Addr) (fl : Bool) (k pr : Int) :
    (insert_rebalance s pa fl k pr).rng = s.rng := by
  cases pa with
  | hdr => rfl
  | inTree p =>
    cases fl
    · rfl
    · rfl


/-- **C6.** Every public mutating operation — insert by value, hinted
insert, range/initializer_list insert, emplace, emplace_hint, erase by
value, erase at an iterator, erase of an iterator range, and clear — and
every sequence of them preserves the representation invariant: BST order
on payloads, max-heap order on priorities, cached leftmost/rightmost
header slots equal to the true extremes (none exactly when empty), and
pairwise-distinct elements. -/
theorem c6_mutators_preserve_invariants (s : TState) (ops : List Op)
    (hInv : Invariant s) : Invariant (applyOps s ops) := by
  induction ops generalizing s with
  | nil => exact hInv
  | cons op rest ih => exact ih _ (applyOp_invariant s op hInv)

theorem c6_mutators_preserve_invariants_witness :
    Invariant (mkEmpty [10, 20, 5, 15, 1]) ∧
    Invariant (applyOps (mkEmpty [10, 20, 5, 15, 1])
      [Op.ins 1, Op.insH Addr.hdr 5, Op.insR [3, 9], Op.emp 4,
       Op.empH (Addr.inTree []) 2, Op.ers 9, Op.ersI (Addr.inTree []),
       Op.ersR Addr.hdr Addr.hdr, Op.clr, Op.ins 6]) :=
  ⟨by decide, c6_mutators_preserve_invariants _ _ (by decide)⟩

/-- **C9** (amended). On an invariant-satisfying state the single-neighbour
duplicate shortcut of find_insert_pos agrees with the canonical
lower_bound-based duplicate check — DUPLICATE is reported exactly when an
equal element exists, equivalently when find_impl succeeds — and a
non-duplicate attach position preserves BST order; the DUPLICATE result
however points at the attach leaf, not necessarily at the equal element. -/
theorem c9_duplicate_check_equivalent (s : TState) (k : Int) (hInv : Invariant s) :
    ((find_insert_pos s k).2 = InsPos.DUPLICATE ↔ find_impl s.tree k ≠ none) ∧
    ((find_insert_pos s k).2 = InsPos.DUPLICATE ↔ k ∈ inorder s.tree) ∧
    (∀ fl pr, ((find_insert_pos s k).2 = InsPos.LEFT ∧ fl = true) ∨
        ((find_insert_pos s k).2 = InsPos.RIGHT ∧ fl = false) →
      isBST (insert_rebalance s (find_insert_pos s k).1 fl k pr).tree = true) := by
  by_cases hne : s.tree = Tree.nil
  · obtain ⟨t, lm0, rm0, rng0⟩ := s
    replace hne : t = Tree.nil := hne
    subst hne
    have hfip : find_insert_pos ⟨Tree.nil, lm0, rm0, rng0⟩ k = (Addr.hdr, InsPos.LEFT) := rfl
    rw [hfip]
    refine ⟨?_, ?_, ?_⟩
    · constructor
      · intro h
        cases h
      · intro h
        exact absurd rfl h
    · constructor
      · intro h
        cases h
      · intro h
        simp [inorder, pinorder] at h
    · intro fl pr hb
      rcases hb with ⟨_, hfl⟩ | ⟨hpos, _⟩
      · subst hfl
        show isBST (single k pr) = true
        simp [isBST, single, allB]
      · cases hpos
  · obtain ⟨haddr, hdup, hleft, hright⟩ := find_insert_pos_spec s k hInv hne
    refine ⟨?_, hdup, ?_⟩
    · rw [hdup]
      exact ((find_impl_mem hInv.1 k).1).symm
    · intro fl pr hb
      exact (insert_rebalance_fip_invariant s k pr fl hInv hb).1

theorem c9_duplicate_check_equivalent_witness :
    Invariant stOne ∧
    ((find_insert_pos stOne 5).2 = InsPos.DUPLICATE ↔ 5 ∈ inorder stOne.tree) :=
  ⟨by decide, (c9_duplicate_check_equivalent stOne 5 (by decide)).2.1⟩

/-- **C10** (amended). insert draws from the priority source exactly when
an element is actually inserted — a duplicate insert leaves the source
untouched — but emplace calls create_node before searching, so it advances
the priority source even when the key is already present and no element is
inserted. -/
theorem c10_priority_draws (s : TState) (k : Int) :
    ((insert_impl s k).2.2 = true → (insert_impl s k).1.rng = (urngNext s.rng).2) ∧
    ((insert_impl s k).2.2 = false → (insert_impl s k).1.rng = s.rng) ∧
    (emplace s k).1.rng = (urngNext s.rng).2 := by
  cases hpi : (find_insert_pos s k).2 with
  | DUPLICATE =>
    have h1 : insert_impl s k = (s, keyAtAddr s.tree (find_insert_pos s k).1, false) := by
      simp only [insert_impl, hpi]
    have hpi2 : (find_insert_pos { s with rng := (urngNext s.rng).2 } k).2 =
        InsPos.DUPLICATE := by
      rw [find_insert_pos_rng s (urngNext s.rng).2 k]
      exact hpi
    have h2 : (emplace s k).1 = { s with rng := (urngNext s.rng).2 } := by
      simp only [emplace, hpi2]
    refine ⟨?_, ?_, ?_⟩
    · intro hfalse
      rw [h1] at hfalse
      simp at hfalse
    · intro _
      rw [h1]
    · rw [h2]
  | LEFT =>
    have h1 : insert_impl s k =
        (insert_rebalance { s with rng := (urngNext s.rng).2 } (find_insert_pos s k).1 true
          k (urngNext s.rng).1, some k, true) := by
      simp only [insert_impl, hpi]
    have hpi2 : (find_insert_pos { s with rng := (urngNext s.rng).2 } k).2 = InsPos.LEFT := by
      rw [find_insert_pos_rng s (urngNext s.rng).2 k]
      exact hpi
    have h2 : (emplace s k).1 = insert_rebalance { s with rng := (urngNext s.rng).2 }
        (find_insert_pos { s with rng := (urngNext s.rng).2 } k).1 true k
        (urngNext s.rng).1 := by
      simp only [emplace, hpi2]
    refine ⟨?_, ?_, ?_⟩
    · intro _
      rw [h1, insert_rebalance_rng]
    · intro hfalse
      rw [h1] at hfalse
      simp at hfalse
    · rw [h2, insert_rebalance_rng]
  | RIGHT =>
    have h1 : insert_impl s k =
        (insert_rebalance { s with rng := (urngNext s.rng).2 } (find_insert_pos s k).1 false
          k (urngNext s.rng).1, some k, true) := by
      simp only [insert_impl, hpi]
    have hpi2 : (find_insert_pos { s with rng := (urngNext s.rng).2 } k).2 = InsPos.RIGHT := by
      rw [find_insert_pos_rng s (urngNext s.rng).2 k]
      exact hpi
    have h2 : (emplace s k).1 = insert_rebalance { s with rng := (urngNext s.rng).2 }
        (find_insert_pos { s with rng := (urngNext s.rng).2 } k).1 false k
        (urngNext s.rng).1 := by
      simp only [emplace, hpi2]
    refine ⟨?_, ?_, ?_⟩
    · intro _
      rw [h1, insert_rebalance_rng]
    · intro hfalse
      rw [h1] at hfalse
      simp at hfalse
    · rw [h2, insert_rebalance_rng]

end TreapModel
